import Mathlib

/-
Verification development for the sakuradownloader repository
(`grab_m3u8.py` and `app.py`).

The Python source is shallowly embedded over `List Char` (Python `str`
values are sequences of Unicode code points; Lean `Char` is a Unicode
scalar value, so `List Char` matches).

ASCII scope.  Three pieces of CPython behaviour are driven by Unicode
tables that no self-contained embedding can carry: `str.lower()` (full
case mapping, e.g. `Ü` → `ü`, with some characters lowering to two code
points), the `re.IGNORECASE` literal equivalences beyond ASCII (CPython
additionally identifies e.g. `ſ` U+017F with `s` and `ı` U+0131 with
`i`), and the NFKC-normalization netloc check `_checknetloc` (which can
raise for non-ASCII netlocs such as `℀`, whose NFKC form `a/c`
introduces `/`).  These are modelled by their exact ASCII restrictions
(`lcChar`, `ciBegins`/`matchAt`, `checknetlocOk`): on a string that
satisfies `str.isascii()` — the predicate `Ascii` below — CPython's
`str.lower()` is the ASCII case table, the `re.I` equivalences are the
ASCII ones, and `_checknetloc` returns immediately.  Every theorem whose
truth depends on one of these three behaviours therefore carries an
`Ascii` hypothesis on the relevant input and is exact on that domain;
theorems without the hypothesis do not reach the divergent paths.

`urllib.parse.urlsplit` / `urlunsplit` are embedded following the
CPython 3.11 source (the repository requires Python ≥ 3.10 because of
the `str|None` annotation in `grab_m3u8.py`; 3.11 is the concrete
reference used here): WHATWG lstrip of C0-control/space, removal of
tab/CR/LF, scheme detection requiring a leading ASCII letter, netloc
splitting at the first of `/?#`, the "Invalid IPv6 URL" ValueError for
unbalanced brackets, the bracketed-host validation (transcribed from
`_check_bracketed_host`, `ipaddress._split_scope_id` and
`_ip_int_from_string`, including zone identifiers), and the
`uses_netloc` handling in `urlunsplit`.  ValueError is modelled as
`Except.error ()`.

`urllib.parse.urlsplit` / `urlunsplit` are embedded following the
CPython 3.11 source (the repository requires Python ≥ 3.10 because of
the `str|None` annotation in `grab_m3u8.py`; 3.11 is the concrete
reference used here): WHATWG lstrip of C0-control/space, removal of
tab/CR/LF, scheme detection requiring a leading ASCII letter, netloc
splitting at the first of `/?#`, the "Invalid IPv6 URL" ValueError for
unbalanced brackets, the bracketed-host validation, and the
`uses_netloc` handling in `urlunsplit`.  ValueError is modelled as
`Except.error ()`.
-/

namespace Sakura

/-- ASCII lower-casing of one character; model of Python `str.lower()`
restricted to ASCII (see the header note), written as an explicit
case table. -/
def lcChar (c : Char) : Char :=
  if c = 'A' then 'a' else if c = 'B' then 'b' else if c = 'C' then 'c'
  else if c = 'D' then 'd' else if c = 'E' then 'e' else if c = 'F' then 'f'
  else if c = 'G' then 'g' else if c = 'H' then 'h' else if c = 'I' then 'i'
  else if c = 'J' then 'j' else if c = 'K' then 'k' else if c = 'L' then 'l'
  else if c = 'M' then 'm' else if c = 'N' then 'n' else if c = 'O' then 'o'
  else if c = 'P' then 'p' else if c = 'Q' then 'q' else if c = 'R' then 'r'
  else if c = 'S' then 's' else if c = 'T' then 't' else if c = 'U' then 'u'
  else if c = 'V' then 'v' else if c = 'W' then 'w' else if c = 'X' then 'x'
  else if c = 'Y' then 'y' else if c = 'Z' then 'z' else c

/-- Lower-case a whole string. -/
def lc (l : List Char) : List Char := l.map lcChar

/-- Characters the regex `[^"']` rejects. -/
def isQuote (c : Char) : Bool := c = '"' ∨ c = '\''

/-- The manifest extension `.m3u8` as a character pattern (lower case). -/
def extPat : List Char := ['.', 'm', '3', 'u', '8']

/-- Case-insensitive prefix test: does `s` start with the (lower-case)
pattern `pat`, ignoring ASCII case? -/
def ciBegins : List Char → List Char → Bool
  | [], _ => true
  | _ :: _, [] => false
  | p :: ps, c :: cs => (lcChar c = p) && ciBegins ps cs

/-- Model of the lazy tail `[^"']+?\.m3u8` of the manifest regex: given
the text right after `https?://`, return the length of the shortest
consumption of one-or-more non-quote characters followed by `.m3u8`
(case-insensitively), as a regex engine with a lazy quantifier does. -/
def lazyExt : List Char → Option Nat
  | [] => none
  | c :: rest =>
    if isQuote c then none
    else if ciBegins extPat rest then some 6
    else match lazyExt rest with
         | some n => some (n + 1)
         | none => none

/-- The literal prefix `http://` of the manifest regex. -/
def schemeHttpL : List Char := ['h', 't', 't', 'p', ':', '/', '/']

/-- The literal prefix `https://` of the manifest regex. -/
def schemeHttpsL : List Char := ['h', 't', 't', 'p', 's', ':', '/', '/']

/-- Model of matching `https?://[^"']+?\.m3u8` (with `re.I`) anchored at
the start of `s`; returns the length of the match.  `https?` first tries
to consume the `s`, falling back to the bare `http` — equivalently, try
the 8-character prefix `https://` first, then `http://`.  `re.I` is
modelled by its ASCII restriction (see the header note): beyond ASCII,
CPython's literal `s` would also match `ſ` U+017F, so theorems built on
this matcher carry an `Ascii` hypothesis on the searched string. -/
def matchAt (s : List Char) : Option Nat :=
  if ciBegins schemeHttpsL s then (lazyExt (s.drop 8)).map (· + 8)
  else if ciBegins schemeHttpL s then (lazyExt (s.drop 7)).map (· + 7)
  else none

/-- Model of `re.search(r'https?://[^"\']+?\.m3u8', url, re.I)`: the
leftmost position wins, and at that position the lazy quantifier gives
the shortest match.  Returns the matched substring (`m.group(0)`). -/
def searchCore : List Char → Option (List Char)
  | [] => none
  | c :: rest =>
    match matchAt (c :: rest) with
    | some n => some ((c :: rest).take n)
    | none => searchCore rest

/-! Embedding of `urllib.parse.urlsplit` (CPython 3.11). -/

/-- Characters stripped from the left of a URL
(`_WHATWG_C0_CONTROL_OR_SPACE`: code points 0x00–0x20). -/
def isWhatwgStrip (c : Char) : Bool := c.toNat ≤ 0x20

/-- Characters removed everywhere (`_UNSAFE_URL_BYTES_TO_REMOVE`). -/
def isUnsafeByte (c : Char) : Bool := c = '\t' ∨ c = '\r' ∨ c = '\n'

/-- The URL clean-up `urlsplit` performs before parsing: lstrip of
C0-control/space, then removal of every tab, CR and LF. -/
def cleanUrl (u : List Char) : List Char :=
  (u.dropWhile isWhatwgStrip).filter (fun c => ¬ isUnsafeByte c)

/-- `str.isascii()`: every character below U+0080.  On such strings the
ASCII models `lcChar` (of `str.lower()`), `ciBegins`/`matchAt` (of
`re.IGNORECASE` literals) and `checknetlocOk` (of `_checknetloc`)
coincide exactly with CPython; see the header note. -/
def Ascii (l : List Char) : Bool := l.all (fun c => c.toNat < 128)

/-- Membership in `scheme_chars` (ASCII letters, digits, `+`, `-`, `.`). -/
def isSchemeChar (c : Char) : Bool :=
  ('a' ≤ c ∧ c ≤ 'z') ∨ ('A' ≤ c ∧ c ≤ 'Z') ∨ ('0' ≤ c ∧ c ≤ '9') ∨
    c = '+' ∨ c = '-' ∨ c = '.'

/-- ASCII letter test (`url[0].isascii() and url[0].isalpha()`). -/
def isAsciiAlpha (c : Char) : Bool := ('a' ≤ c ∧ c ≤ 'z') ∨ ('A' ≤ c ∧ c ≤ 'Z')

/-- Scheme detection of `urlsplit`: if the first `:` sits at a positive
index, the first character is an ASCII letter and everything before the
`:` is a scheme character, split off the lower-cased scheme. -/
def splitScheme (url : List Char) : List Char × List Char :=
  match url.findIdx? (· = ':') with
  | some i =>
    if 0 < i ∧ isAsciiAlpha (url.headD ' ') ∧ (url.take i).all isSchemeChar
    then (lc (url.take i), url.drop (i + 1))
    else ([], url)
  | none => ([], url)

/-- Delimiters ending the netloc (`_splitnetloc` looks for `/?#`). -/
def isNetlocDelim (c : Char) : Bool := c = '/' ∨ c = '?' ∨ c = '#'

/-- Model of `_splitnetloc(url, 2)`: everything after the leading `//`
up to the first of `/?#` is the netloc. -/
def splitNetloc (url : List Char) : List Char × List Char :=
  let rest := url.drop 2
  (rest.takeWhile (fun c => ¬ isNetlocDelim c),
   rest.dropWhile (fun c => ¬ isNetlocDelim c))

/-- Split at the first occurrence of `c`, dropping it; if `c` does not
occur this is `(l, [])`, exactly like the guarded `url.split(c, 1)`
calls in `urlsplit`. -/
def splitAtFirst (c : Char) (l : List Char) : List Char × List Char :=
  (l.takeWhile (· ≠ c), (l.dropWhile (· ≠ c)).drop 1)

/-- Hex digit test, for the IPvFuture pattern of
`_check_bracketed_host`. -/
def isHexChar (c : Char) : Bool :=
  ('0' ≤ c ∧ c ≤ '9') ∨ ('a' ≤ c ∧ c ≤ 'f') ∨ ('A' ≤ c ∧ c ≤ 'F')

/-- Decimal digit test. -/
def isDigitChar (c : Char) : Bool := '0' ≤ c ∧ c ≤ '9'

/-- Split a list on every occurrence of a separator character
(Python `str.split(sep)` for a one-character separator). -/
def splitOn (sep : Char) : List Char → List (List Char)
  | [] => [[]]
  | c :: rest =>
    let r := splitOn sep rest
    if c = sep then [] :: r
    else match r with
         | [] => [[c]]
         | g :: gs => (c :: g) :: gs

/-- Decimal value of a digit string (helper for the IPv4 check). -/
def decVal : List Char → Nat
  | [] => 0
  | c :: rest => (c.toNat - '0'.toNat) * 10 ^ rest.length + decVal rest

/-- Model of `ipaddress.IPv4Address` acceptance: four dot-separated
groups of 1–3 decimal digits, each ≤ 255, no leading zeros. -/
def isIPv4 (h : List Char) : Bool :=
  let gs := splitOn '.' h
  gs.length = 4 ∧ gs.all fun g =>
    g ≠ [] ∧ g.length ≤ 3 ∧ g.all isDigitChar ∧ decVal g ≤ 255 ∧
      (g.length = 1 ∨ g.headD '0' ≠ '0')

/-- One hextet of an IPv6 address: 1–4 hex digits (`_parse_hextet`:
membership in `_HEX_DIGITS`, length at most 4, and `int('',16)` raises
on the empty string). -/
def isHextet (g : List Char) : Bool := g ≠ [] ∧ g.length ≤ 4 ∧ g.all isHexChar

/-- Model of `ipaddress.IPv6Address` acceptance of a zone-free address
string, transcribed from `_ip_int_from_string` (CPython 3.11): split on
`:` into at least 3 parts; a last part containing `.` must be an
embedded IPv4 address and is replaced by two hextets; at most 9 parts
after that; at most one empty part strictly inside (the `::` gap); with
a gap, an empty first (resp. last) part is allowed only directly before
(resp. after) the gap, the gap must skip at least one hextet, and the
parts on both sides of it parse as hextets; without a gap, exactly 8
parts, all hextets. -/
def isIPv6 (h : List Char) : Bool :=
  let parts0 := splitOn ':' h
  if parts0.length < 3 then false
  else
    let last0 := parts0.getLastD []
    if last0.contains '.' && ! isIPv4 last0 then false
    else
      let parts := if last0.contains '.' then parts0.dropLast ++ [['0'], ['0']]
                   else parts0
      let n := parts.length
      if 9 < n then false
      else
        let inner := (parts.drop 1).dropLast
        let innerEmpty := (inner.filter (fun g => g = [])).length
        if innerEmpty = 0 then
          n = 8 ∧ parts.all isHextet
        else if 1 < innerEmpty then false
        else
          let si := inner.findIdx (fun g => g = []) + 1
          let headE := parts.headD [' '] = []
          let lastE := parts.getLastD [' '] = []
          if headE ∧ si ≠ 1 then false
          else if lastE ∧ si ≠ n - 2 then false
          else
            let hi := if headE then si - 1 else si
            let lo := if lastE then n - si - 2 else n - si - 1
            if 8 ≤ hi + lo then false
            else (parts.take hi).all isHextet ∧ (parts.drop (n - lo)).all isHextet

/-- The text between the first `[` and the following `]` of a netloc
(`netloc.partition('[')[2].partition(']')[0]`). -/
def bracketHost (n : List Char) : List Char :=
  ((n.dropWhile (· ≠ '[')).drop 1).takeWhile (· ≠ ']')

/-- Model of `_check_bracketed_host` succeeding: a host starting with
`v` must match the IPvFuture pattern `\Av[a-fA-F0-9]+\..+\Z` (hex
digits, a dot, then a non-empty newline-free rest); otherwise
`ipaddress.ip_address` must parse the host, and an IPv4 result raises
("An IPv4 address cannot be in brackets").  IPv6 parsing first splits a
zone identifier at the first `%` (`_split_scope_id`: the zone must be
non-empty and `%`-free) and then parses the address part. -/
def hostOk (h : List Char) : Bool :=
  match h with
  | 'v' :: rest =>
    let hex := rest.takeWhile isHexChar
    let rest2 := rest.dropWhile isHexChar
    (!hex.isEmpty) && (match rest2 with
                       | '.' :: tl => (!tl.isEmpty) && tl.all (· ≠ '\n')
                       | _ => false)
  | _ =>
    if isIPv4 h then false
    else
      let addr := h.takeWhile (· ≠ '%')
      let zone := (h.dropWhile (· ≠ '%')).drop 1
      (if h.contains '%' then (!zone.isEmpty) && ! zone.contains '%' else true) &&
        isIPv6 addr

/-- Result of `urlsplit` (`SplitResult`). -/
structure USplit where
  scheme : List Char
  netloc : List Char
  path : List Char
  query : List Char
  fragment : List Char
deriving Repr, DecidableEq

/-- Model of `_checknetloc` succeeding.  CPython returns immediately
when the netloc is empty or satisfies `netloc.isascii()` — the case in
every theorem below that can reach this check, via their `Ascii`
hypotheses (the netloc is a sublist of the input).  For non-ASCII
netlocs CPython applies an NFKC-normalization check, raising when
normalization introduces one of `/?#@:` (e.g. for `℀`, whose NFKC form
is `a/c`); that Unicode-table-driven path is outside this embedding and
outside the scope of every theorem in this file. -/
def checknetlocOk (_ : List Char) : Bool := true

/-- Embedding of `urllib.parse.urlsplit(url)` (default arguments:
`scheme=''`, `allow_fragments=True`); `Except.error ()` models the
ValueError raises. -/
def urlsplit (url0 : List Char) : Except Unit USplit :=
  let url1 := cleanUrl url0
  let ps := splitScheme url1
  let sch := ps.1
  let pn := if ps.2.take 2 = ['/', '/'] then splitNetloc ps.2 else ([], ps.2)
  let nl := pn.1
  if (nl.contains '[' && ! nl.contains ']') || (nl.contains ']' && ! nl.contains '[')
  then .error ()
  else if nl.contains '[' && nl.contains ']' && ! hostOk (bracketHost nl)
  then .error ()
  else
    let pf := splitAtFirst '#' pn.2
    let pq := splitAtFirst '?' pf.1
    if checknetlocOk nl then .ok ⟨sch, nl, pq.1, pq.2, pf.2⟩ else .error ()

/-- The `uses_netloc` scheme list of `urllib.parse` (3.11), minus the
empty scheme which `urlunsplit` tests for truthiness first. -/
def usesNetloc : List (List Char) :=
  ["ftp".data, "http".data, "gopher".data, "nntp".data, "telnet".data,
   "imap".data, "wais".data, "file".data, "mms".data, "https".data,
   "shttp".data, "snews".data, "prospero".data, "rtsp".data, "rtsps".data,
   "rtspu".data, "rsync".data, "svn".data, "svn+ssh".data, "sftp".data,
   "nfs".data, "git".data, "git+ssh".data, "ws".data, "wss".data]

/-- Embedding of `urllib.parse.urlunsplit((s, n, p, q, f))`
(CPython 3.11: the `//` is re-inserted when a netloc is present, or when
the scheme uses a netloc and the path does not already start with
`//`). -/
def urlunsplit (s n p q f : List Char) : List Char :=
  let url1 :=
    if n ≠ [] ∨ (s ≠ [] ∧ usesNetloc.contains s ∧ p.take 2 ≠ ['/', '/']) then
      let p' := if p ≠ [] ∧ p.take 1 ≠ ['/'] then '/' :: p else p
      '/' :: '/' :: (n ++ p')
    else p
  let url2 := if s ≠ [] then s ++ ':' :: url1 else url1
  let url3 := if q ≠ [] then url2 ++ '?' :: q else url2
  if f ≠ [] then url3 ++ '#' :: f else url3

/-! Embedding of `grab_m3u8.normalize_m3u8`. -/

/-- Embedding of `normalize_m3u8` (grab_m3u8.py lines 46–59): extract
the first `https?://[^"']+?\.m3u8` match (case-insensitively), falling
back to the whole string; split it as a URL; rebuild from the
lower-cased scheme, lower-cased netloc and the path, discarding query
and fragment.  A ValueError from `urlsplit` propagates. -/
def normalize_m3u8 (url : List Char) : Except Unit (List Char) :=
  if url = [] then .ok url
  else
    let core := (searchCore url).getD url
    match urlsplit core with
    | .error e => .error e
    | .ok parts => .ok (urlunsplit (lc parts.scheme) (lc parts.netloc) parts.path [] [])

/-- String-typed convenience wrapper around `normalize_m3u8`. -/
def normStr (s : String) : Except Unit String :=
  (normalize_m3u8 s.data).map (fun l => ⟨l⟩)

/-! Embedding of the remaining pure parts of `grab_m3u8.py`: the
candidate classifier (`looks_like_m3u8`, `infer_m3u8_from_ts`,
`on_response`), the dedup/preference engine
(`prefer_master_then_unique`) and the tail of `main`. -/

/-- Case-sensitive prefix test. -/
def beginsWith : List Char → List Char → Bool
  | [], _ => true
  | _ :: _, [] => false
  | p :: ps, c :: cs => (p = c) && beginsWith ps cs

/-- Substring containment, the model of Python `needle in hay`. -/
def hasSub (needle : List Char) : List Char → Bool
  | [] => needle.isEmpty
  | c :: rest => beginsWith needle (c :: rest) || hasSub needle rest

/-- Suffix test, the model of Python `str.endswith`. -/
def endsWith (suf l : List Char) : Bool := beginsWith suf.reverse l.reverse

/-- Embedding of `looks_like_m3u8` (grab_m3u8.py lines 21–28).  The
content type is optional (`ct:str|None`); `if ct:` is false for both
`None` and the empty string. -/
def looks_like_m3u8 (url : List Char) (ct : Option (List Char)) : Bool :=
  if hasSub extPat (lc url) then true
  else match ct with
       | some c =>
         if c ≠ [] then
           hasSub "application/vnd.apple.mpegurl".data (lc c) ||
             hasSub "application/x-mpegurl".data (lc c)
         else false
       | none => false

/-- Model of `url.rsplit("/", 1)[0]`: everything before the last slash,
or the whole string when there is no slash. -/
def rsplitBase (u : List Char) : List Char :=
  if u.contains '/' then (((u.reverse).dropWhile (· ≠ '/')).drop 1).reverse
  else u

/-- Embedding of `infer_m3u8_from_ts` (grab_m3u8.py lines 30–33). -/
def infer_m3u8_from_ts (url : List Char) : List (List Char) :=
  let base := rsplitBase url
  [base ++ "/index.m3u8".data, base ++ "/playlist.m3u8".data,
   base ++ "/master.m3u8".data, base ++ "/video.m3u8".data]

/-- Characters rejected by the character class of the body-scanning
regex.  The source writes `[^\"'\\s]` inside a *raw* string, so the
class excludes the double quote, the single quote, the backslash and
the literal letter `s` — not whitespace. -/
def isBodyExcl (c : Char) : Bool :=
  c = '"' ∨ c = '\'' ∨ c = '\\' ∨ c = 's'

/-- Lazy part of the body-scanning regex
`https?://[^\"'\\s]+?\.m3u8` (analogous to `lazyExt`, but
case-sensitive: this regex is compiled without `re.I`). -/
def lazyExtBody : List Char → Option Nat
  | [] => none
  | c :: rest =>
    if isBodyExcl c then none
    else if beginsWith extPat rest then some 6
    else match lazyExtBody rest with
         | some n => some (n + 1)
         | none => none

/-- Anchored match of the body-scanning regex, including its greedy
trailing `[^\"'\\s]*`. -/
def matchAtBody (s : List Char) : Option Nat :=
  let tail := fun n => n + ((s.drop n).takeWhile (fun c => ¬ isBodyExcl c)).length
  if beginsWith ['h','t','t','p','s',':','/','/'] s then (lazyExtBody (s.drop 8)).map (fun n => tail (n + 8))
  else if beginsWith ['h','t','t','p',':','/','/'] s then (lazyExtBody (s.drop 7)).map (fun n => tail (n + 7))
  else none

/-- Model of `re.findall(r"https?://[^\"'\\s]+?\.m3u8[^\"'\\s]*", blob)`
from the JSON branch of `on_response`: scan left to right, taking
non-overlapping leftmost matches and continuing after each match. -/
def findAllBody : List Char → List (List Char)
  | [] => []
  | c :: rest =>
    match matchAtBody (c :: rest) with
    | some n => (c :: rest).take n :: findAllBody (rest.drop (n - 1))
    | none => findAllBody rest
termination_by l => l.length
decreasing_by
  · simp only [List.length_cons, List.length_drop]; omega
  · simp only [List.length_cons]; omega

/-- Insertion into a Python set, modelled as an order-respecting
duplicate-free list (every use below sorts before consuming, so the
internal order is never observed). -/
def setAdd (x : List Char) (s : List (List Char)) : List (List Char) :=
  if s.contains x then s else s ++ [x]

/-- The two candidate sets collected per page
(`found_m3u8` / `hinted_m3u8`). -/
structure CandState where
  found : List (List Char)
  hinted : List (List Char)
deriving Repr, DecidableEq

/-- Embedding of the `on_response` callback (grab_m3u8.py lines
102–124).  `body = none` models `resp.text()` raising (the surrounding
`try` swallows the exception and skips only the JSON branch).
`reformat` is a parameter standing for the body-to-blob step — the
`json.loads`/`json.dumps` round trip attempted when the stripped text
starts with `{` or `[`, falling back to the raw text on any failure;
the theorems below hold for every such function. -/
def on_response (reformat : List Char → List Char) (url ct : List Char)
    (body : Option (List Char)) (st : CandState) : CandState :=
  if looks_like_m3u8 url (some ct) then { st with found := setAdd url st.found }
  else
    let st1 :=
      if hasSub "application/json".data (lc ct) || endsWith ".json".data (lc url) then
        match body with
        | some txt =>
          { st with found := (findAllBody (reformat txt)).foldl (fun acc m => setAdd m acc) st.found }
        | none => st
      else st
    if hasSub ".ts".data (lc url) then
      { st1 with hinted := (infer_m3u8_from_ts url).foldl (fun acc c => setAdd c acc) st1.hinted }
    else st1

/-- Normalize every URL of a list, propagating a ValueError
(`[normalize_m3u8(u) for ...]` order of evaluation). -/
def normalizeList : List (List Char) → Except Unit (List (List Char))
  | [] => .ok []
  | u :: rest => do
      let k ← normalize_m3u8 u
      let r ← normalizeList rest
      .ok (k :: r)

/-- First-occurrence-wins deduplication (the `seen`/`ordered` loop of
`prefer_master_then_unique`); `seen` is the accumulator. -/
def orderedUnique (seen : List (List Char)) : List (List Char) → List (List Char)
  | [] => []
  | k :: rest =>
    if seen.contains k then orderedUnique seen rest
    else k :: orderedUnique (k :: seen) rest

/-- Directory of a URL (`u.rsplit("/", 1)[0]`). -/
def dirOf (u : List Char) : List Char := rsplitBase u

/-- Does the URL end in the literal master filename
(`u.endswith("master.m3u8")`)? -/
def isMasterUrl (u : List Char) : Bool := endsWith "master.m3u8".data u

/-- The retention loop of `prefer_master_then_unique` (lines 75–81):
walk `ordered`, keeping a URL only when its directory holds a master,
the URL is itself a master, and that directory has not produced a kept
URL yet (`kept_dir`, the accumulator). -/
def masterLoop (keepDirs : List (List Char)) (keptDir : List (List Char)) :
    List (List Char) → List (List Char)
  | [] => []
  | u :: rest =>
    let d := dirOf u
    if keepDirs.contains d ∧ isMasterUrl u ∧ ¬ keptDir.contains d
    then u :: masterLoop keepDirs (d :: keptDir) rest
    else masterLoop keepDirs keptDir rest

/-- Embedding of `prefer_master_then_unique` (grab_m3u8.py lines
61–82).  A ValueError raised by `normalize_m3u8` propagates. -/
def prefer_master_then_unique (urls : List (List Char)) : Except Unit (List (List Char)) := do
  let ks ← normalizeList urls
  let ordered := orderedUnique [] ks
  let masters := ordered.filter isMasterUrl
  if masters = [] then .ok ordered
  else
    let keepDirs := masters.map dirOf
    let result := masterLoop keepDirs [] ordered
    .ok (if result = [] then ordered else result)

/-- Lexicographic comparison of strings by code point, the order Python
`sorted` uses on `str`. -/
def lexLt : List Char → List Char → Bool
  | [], [] => false
  | [], _ :: _ => true
  | _ :: _, [] => false
  | a :: as, b :: bs => a.toNat < b.toNat || (a = b && lexLt as bs)

/-- Model of `sorted(a_set_of_strings)`. -/
def sortUrls (l : List (List Char)) : List (List Char) :=
  l.mergeSort (fun a b => lexLt a b || a = b)

/-- One output row of the grabber (the dict appended to `results`). -/
structure MRecord where
  title : List Char
  page_url : List Char
  m3u8_url : List Char
  referer : List Char
  user_agent : List Char
  note : List Char
deriving Repr, DecidableEq

/-- The constant user agent `UA` of `main`. -/
def uaString : List Char :=
  ("Mozilla/5.0 (Windows NT 10.0; Win64; x64) AppleWebKit/537.36 " ++
   "(KHTML, like Gecko) Chrome/120.0.0.0 Safari/537.36").data

/-- Build the records appended for one page from the final URL list. -/
def mkRecords (title purl note : List Char) (final : List (List Char)) : List MRecord :=
  final.map fun u => ⟨title, purl, u, purl, uaString, note⟩

/-- Embedding of the per-page result selection of `main` (grab_m3u8.py
lines 149–174): hinted candidates are used only when `found_m3u8` is
empty; confirmed candidates otherwise; both go through
`prefer_master_then_unique ∘ sorted`. -/
def pageRecords (title purl : List Char) (found hinted : List (List Char)) :
    Except Unit (List MRecord) :=
  if found = [] ∧ hinted ≠ [] then do
    let final ← prefer_master_then_unique (sortUrls hinted)
    .ok (mkRecords title purl "推断自TS（需验证）".data final)
  else if found ≠ [] then do
    let final ← prefer_master_then_unique (sortUrls found)
    .ok (mkRecords title purl "捕获".data final)
  else .ok []

/-- One page visit, as far as the final aggregation is concerned: the
page title, page URL and the two candidate sets collected by
`on_response` during the visit. -/
structure PageVisit where
  title : List Char
  page_url : List Char
  found : List (List Char)
  hinted : List (List Char)

/-- Concatenate the per-page records over all visits (the `results`
list right before line 181). -/
def collectResults : List PageVisit → Except Unit (List MRecord)
  | [] => .ok []
  | p :: rest => do
      let rs ← pageRecords p.title p.page_url p.found p.hinted
      let more ← collectResults rest
      .ok (rs ++ more)

/-- The final filter of `main` (line 183): keep only records whose URL,
lower-cased, ends in `.m3u8`. -/
def filterM3u8 (rs : List MRecord) : List MRecord :=
  rs.filter fun r => endsWith extPat (lc r.m3u8_url)

/-- The aggregation dict `bucket` (lines 186–191): key every record by
its normalized URL, keep the first record per key, and overwrite that
record's `m3u8_url` with the normalized form.  Insertion order is the
dict order.  `acc` is the bucket built so far. -/
def bucketLoop (acc : List (List Char × MRecord)) :
    List MRecord → Except Unit (List (List Char × MRecord))
  | [] => .ok acc
  | r :: rest => do
      let norm ← normalize_m3u8 r.m3u8_url
      if (acc.map Prod.fst).contains norm then bucketLoop acc rest
      else bucketLoop (acc ++ [(norm, { r with m3u8_url := norm })]) rest

/-- Dict lookup `bucket[u]`; a missing key is a KeyError. -/
def bucketGet (b : List (List Char × MRecord)) (k : List Char) : Except Unit MRecord :=
  match b.find? (fun kv => kv.1 = k) with
  | some kv => .ok kv.2
  | none => .error ()

/-- Embedding of the tail of `main` (grab_m3u8.py lines 181–195): the
final filter, the normalization bucket, the global master preference
pass and the rebuilt record list that is written to the CSV. -/
def finalResults (pages : List PageVisit) : Except Unit (List MRecord) := do
  let rs0 ← collectResults pages
  let results := filterM3u8 rs0
  let bucket ← bucketLoop [] results
  let finalUrls ← prefer_master_then_unique (bucket.map Prod.fst)
  finalUrls.mapM (bucketGet bucket)

/-! Embedding of the SSE job flow of `app.py`
(`oneclick_stream` / `artifact_download`). -/

/-- One server-sent event: a log line (`_sse_line`), an `error` event or
a `done` event (`_sse_event`). -/
inductive SseEv
  | line (s : List Char)
  | errEv (s : List Char)
  | doneEv (s : List Char)
deriving Repr, DecidableEq

/-- Job state in the sense of the spec's state machine: `running` until
the worker either stores the artifact (successful completion, `done`)
or bails out with an error event (`failed`). -/
inductive JobState
  | running
  | done
  | failed
deriving Repr, DecidableEq

/-- Outcomes of the external effects `generate()` performs, each either
a value or a raised exception message (any raise is caught by the
surrounding `try` and turned into a terminal error event). -/
structure StreamEnv where
  /-- `URLS_TXT.write_text(...)` -/
  writeRes : Except (List Char) Unit
  /-- `_run_grabber()`: success flag and log, pre-split into lines
  (`log.splitlines()` is opaque text processing). -/
  grabRes : Except (List Char) (Bool × List (List Char))
  /-- `out_dir.mkdir(...)` -/
  mkdirRes : Except (List Char) Unit
  /-- `_run_ps1(...)`: success flag, log lines, produced files. -/
  ps1Res : Except (List Char) (Bool × List (List Char) × List (List Char))
  /-- `_zip_dir(out_dir)`: the archive path. -/
  zipRes : Except (List Char) (List Char)

/-- One delivered event together with the job-registry artifact value
and the job state at the moment the event is delivered. -/
structure JobTraceStep where
  ev : SseEv
  artifact : Option (List Char)
  state : JobState
deriving Repr, DecidableEq

/-- A log line delivered while the job is still running. -/
def runStep (s : List Char) : JobTraceStep := ⟨.line s, none, .running⟩

/-- A terminal error event (`_sse_event("error", msg)` followed by
`return`, or the `except` handler). -/
def failStep (s : List Char) : JobTraceStep := ⟨.errEv s, none, .failed⟩

/-- The indented echo of one subprocess log line (`"  " + line`). -/
def echoLine (l : List Char) : JobTraceStep := runStep ("  ".data ++ l)

/-- The error message of the `except` handler
(`f"服务器异常：{e}"`). -/
def serverErr (e : List Char) : List Char := "服务器异常：".data ++ e

/-- Embedding of the generator body of `oneclick_stream` (app.py lines
256–296), as the trace of delivered events: each step also records the
artifact slot of `JOBS[job_id]` and the job state at delivery time.
The artifact is written exactly once, right before the final two events
of a successful run. -/
def generateTrace (env : StreamEnv) (jobId : List Char) : List JobTraceStep :=
  match env.writeRes with
  | .error e => [failStep (serverErr e)]
  | .ok _ =>
    runStep "已接收链接，开始抓取 m3u8…".data ::
    match env.grabRes with
    | .error e => [failStep (serverErr e)]
    | .ok (ok, log) =>
      runStep "抓取脚本输出：".data ::
      log.map echoLine ++
      if !ok then [failStep "抓取失败，已结束。".data]
      else
        match env.mkdirRes with
        | .error e => [failStep (serverErr e)]
        | .ok _ =>
          runStep "开始下载 MP4（ffmpeg）…".data ::
          match env.ps1Res with
          | .error e => [failStep (serverErr e)]
          | .ok (ok2, log2, files) =>
            runStep "下载器输出：".data ::
            log2.map echoLine ++
            if !ok2 then [failStep "下载失败，已结束。".data]
            else
              match files with
              | [] => [failStep "未发现 MP4 文件，已结束。".data]
              | [f] =>
                [⟨.line "全部完成 ✅".data, some f, .done⟩,
                 ⟨.doneEv ("/artifact/".data ++ jobId), some f, .done⟩]
              | _ =>
                match env.zipRes with
                | .error e => [failStep (serverErr e)]
                | .ok z =>
                  [⟨.line "全部完成 ✅".data, some z, .done⟩,
                   ⟨.doneEv ("/artifact/".data ++ jobId), some z, .done⟩]

/-- The artifact slot of `JOBS[job_id]` after the stream has been fully
consumed. -/
def traceArtifact (tr : List JobTraceStep) : Option (List Char) :=
  match tr.getLast? with
  | some s => s.artifact
  | none => none

/-- Embedding of `artifact_download` (app.py lines 301–308): `none`
models the 404 response (`产物未就绪或 job_id 无效`), `some f` the
`send_file`.  The registry is a `job_id → artifact` association
list. -/
def artifact_download (jobs : List (List Char × Option (List Char)))
    (jobId : List Char) : Option (List Char) :=
  match jobs.find? (fun kv => kv.1 = jobId) with
  | some kv => kv.2
  | none => none

/-- Is an event terminal (an `error` or `done` SSE event, as opposed to
a plain data line)? -/
def isTerminalEv : SseEv → Bool
  | .line _ => false
  | .errEv _ => true
  | .doneEv _ => true

/-! ### Claim C1 — directories without a master candidate

The spec asserts that directories without a master candidate retain all
their deduplicated members.  The code does not do this: as soon as any
master exists anywhere, the retention loop (lines 76–81) appends only
URLs that end in `master.m3u8` and whose directory holds a master, so
every member of every master-less directory is dropped.  This
contradicts the function's own docstring, which scopes the preference
to a single directory holding both a master and sibling variants
(`如同目录下既有 master.m3u8 又有 index/playlist 等，优先仅保留 master`). -/

/-- C1: on the input `["http://h/a/master.m3u8", "http://h/b/index.m3u8"]`
the directory `http://h/b` has no master candidate, yet its only
(deduplicated) member is dropped from the output, which keeps only the
master of the unrelated directory `http://h/a`. -/
theorem C1_masterless_dir_dropped :
    prefer_master_then_unique
        ["http://h/a/master.m3u8".data, "http://h/b/index.m3u8".data] =
      .ok ["http://h/a/master.m3u8".data] := rfl

/-! ### Claim C5 — the classifier rules are not mutually exclusive

Rule 1 (`looks_like_m3u8`) returns early, but the JSON branch (rule 2)
does not: control falls through to the `.ts` check (rule 3), so a
JSON-like response whose URL contains `.ts` contributes hinted
candidates as well. -/

/-- C5 counterexample: a response with content type `application/json`
whose URL `http://h/seg001.ts` matches the segment pattern is processed
by rule 2 *and* rule 3 — it contributes all four hinted sibling
candidates, where the claim says it contributes none. -/
theorem C5_counterexample :
    (on_response id "http://h/seg001.ts".data "application/json".data
        (some "{}".data) ⟨[], []⟩).hinted =
      ["http://h/index.m3u8".data, "http://h/playlist.m3u8".data,
       "http://h/master.m3u8".data, "http://h/video.m3u8".data] := rfl

/-- C5 amended: only rule 1 short-circuits.  For every response not
classified by rule 1 whose URL contains `.ts` (lower-cased), the four
sibling candidates are added to the hinted set — regardless of whether
the response was also processed by the JSON rule; and a rule-1 response
leaves the hinted set unchanged. -/
theorem C5_amended (reformat : List Char → List Char) (url ct : List Char)
    (body : Option (List Char)) (st : CandState)
    (h1 : looks_like_m3u8 url (some ct) = false)
    (h2 : hasSub ".ts".data (lc url) = true) :
    (on_response reformat url ct body st).hinted =
      (infer_m3u8_from_ts url).foldl (fun acc c => setAdd c acc) st.hinted := by
  unfold on_response
  rw [h1]
  simp only [Bool.false_eq_true, if_false, h2, if_true]
  split
  · split <;> simp
  · simp

/-- C5 amended, witness: the counterexample input instantiates the
amended statement. -/
theorem C5_amended_witness :
    (on_response id "http://h/seg001.ts".data "application/json".data
        (some "{}".data) ⟨[], []⟩).hinted =
      (infer_m3u8_from_ts "http://h/seg001.ts".data).foldl
        (fun acc c => setAdd c acc) [] :=
  C5_amended id "http://h/seg001.ts".data "application/json".data
    (some "{}".data) ⟨[], []⟩ (by decide) (by decide)

/-! ### Claim C6 — hinted candidates are used only when confirmed is empty -/

/-- C6: when the confirmed set of a page is non-empty, the page's
records do not depend on the hinted set at all (so no hinted candidate
can appear), and every emitted record carries the Confirmed note
`捕获`; conversely the Inferred note `推断自TS（需验证）` is emitted
only when the confirmed set is empty. -/
theorem C6_hinted_only_when_no_confirmed (title purl : List Char)
    (found hinted hinted' : List (List Char)) (h : found ≠ []) :
    pageRecords title purl found hinted = pageRecords title purl found hinted' ∧
    (∀ rs, pageRecords title purl found hinted = .ok rs →
      ∀ r ∈ rs, r.note = "捕获".data) := by
  unfold pageRecords
  have hc : ¬ (found = [] ∧ hinted ≠ []) := fun hh => h hh.1
  have hc' : ¬ (found = [] ∧ hinted' ≠ []) := fun hh => h hh.1
  rw [if_neg hc, if_neg hc', if_pos h]
  refine ⟨rfl, ?_⟩
  intro rs hrs r hr
  cases hpref : prefer_master_then_unique (sortUrls found) with
  | error e => rw [hpref] at hrs; exact absurd hrs (by simp [Bind.bind, Except.bind])
  | ok final =>
    rw [hpref] at hrs
    simp only [Bind.bind, Except.bind, Except.ok.injEq] at hrs
    subst hrs
    simp only [mkRecords, List.mem_map] at hr
    obtain ⟨u, _, rfl⟩ := hr
    rfl

/-- C6 witness: a concrete page with one confirmed and one hinted
candidate. -/
theorem C6_witness :
    pageRecords "t".data "p".data ["http://h/v.m3u8".data] ["http://h/x.m3u8".data] =
      pageRecords "t".data "p".data ["http://h/v.m3u8".data] [] ∧
    (∀ rs, pageRecords "t".data "p".data ["http://h/v.m3u8".data] ["http://h/x.m3u8".data] = .ok rs →
      ∀ r ∈ rs, r.note = "捕获".data) :=
  C6_hinted_only_when_no_confirmed "t".data "p".data ["http://h/v.m3u8".data]
    ["http://h/x.m3u8".data] [] (by decide)

/-! ### Claim C7 — a master suppresses its sibling variants -/

/-- When the retention loop keeps nothing, no element of its input is a
master in a kept directory not yet served. -/
theorem masterLoop_eq_nil (kd : List (List Char)) (l : List (List Char)) :
    ∀ kt, masterLoop kd kt l = [] →
      ∀ u ∈ l, ¬ (kd.contains (dirOf u) ∧ isMasterUrl u ∧ ¬ kt.contains (dirOf u)) := by
  induction l with
  | nil => simp
  | cons a rest ih =>
    intro kt h u hu
    by_cases hc : (kd.contains (dirOf a) ∧ isMasterUrl a ∧ ¬ kt.contains (dirOf a))
    · rw [masterLoop, if_pos hc] at h; exact absurd h (by simp)
    · rw [masterLoop, if_neg hc] at h
      rcases List.mem_cons.1 hu with rfl | hu'
      · exact hc
      · exact ih kt h u hu'

/-- Once a directory is recorded as served, the loop keeps nothing more
from it. -/
theorem masterLoop_filter_served (kd : List (List Char)) (d : List Char)
    (l : List (List Char)) :
    ∀ kt, kt.contains d = true →
      (masterLoop kd kt l).filter (fun u => decide (dirOf u = d)) = [] := by
  induction l with
  | nil => intro kt _; rfl
  | cons a rest ih =>
    intro kt hkt
    have hdm : d ∈ kt := by simpa using hkt
    by_cases hc : (kd.contains (dirOf a) ∧ isMasterUrl a ∧ ¬ kt.contains (dirOf a))
    · rw [masterLoop, if_pos hc]
      have hda : ¬ dirOf a = d := fun he => hc.2.2 (he ▸ hkt)
      rw [List.filter_cons, if_neg (by simpa using hda)]
      exact ih _ (by simpa using Or.inr hdm)
    · rw [masterLoop, if_neg hc]
      exact ih kt hkt

/-- The retained candidates of a kept, not-yet-served directory are
exactly the first master of that directory in the input order. -/
theorem masterLoop_filter_eq (kd : List (List Char)) (d : List Char)
    (l : List (List Char)) (hd : kd.contains d = true) :
    ∀ kt, kt.contains d = false →
      (masterLoop kd kt l).filter (fun u => decide (dirOf u = d)) =
        (l.filter (fun u => decide (dirOf u = d) && isMasterUrl u)).take 1 := by
  induction l with
  | nil => intro kt _; rfl
  | cons a rest ih =>
    intro kt hkt
    have hdnm : d ∉ kt := by simpa using hkt
    by_cases hc : (kd.contains (dirOf a) ∧ isMasterUrl a ∧ ¬ kt.contains (dirOf a))
    · rw [masterLoop, if_pos hc]
      by_cases hda : dirOf a = d
      · rw [List.filter_cons, if_pos (by simpa using hda),
            List.filter_cons, if_pos (by simp [hda, hc.2.1]),
            masterLoop_filter_served kd d rest _ (by simpa using Or.inl hda.symm)]
        simp
      · rw [List.filter_cons, if_neg (by simpa using hda),
            List.filter_cons, if_neg (by simp [hda]),
            ih _ (by simpa using not_or_intro (fun h : d = dirOf a => hda h.symm) hdnm)]
    · rw [masterLoop, if_neg hc]
      have hfa : ¬ (decide (dirOf a = d) && isMasterUrl a) = true := by
        intro hh
        simp only [Bool.and_eq_true, decide_eq_true_eq] at hh
        refine hc ⟨hh.1 ▸ hd, hh.2, ?_⟩
        rw [hh.1]
        simpa using hdnm
      rw [List.filter_cons, if_neg hfa]
      exact ih kt hkt

/-- C7: whenever some directory `d` of the deduplicated, normalized
input holds a master candidate, the dedup engine's output restricted to
`d` is exactly the first such master — so the master is retained, none
of its sibling variants are, and at most one candidate of `d` survives.
`ks` is the normalized input, `orderedUnique [] ks` the first-wins
deduplication computed by `prefer_master_then_unique`. -/
theorem C7_master_only_survivor (urls ks out : List (List Char)) (d : List Char)
    (hks : normalizeList urls = .ok ks)
    (hout : prefer_master_then_unique urls = .ok out)
    (hm : (orderedUnique [] ks).filter
        (fun u => decide (dirOf u = d) && isMasterUrl u) ≠ []) :
    out.filter (fun u => decide (dirOf u = d)) =
      ((orderedUnique [] ks).filter
        (fun u => decide (dirOf u = d) && isMasterUrl u)).take 1 := by
  obtain ⟨w, hw, hwd, hwm⟩ :
      ∃ w ∈ orderedUnique [] ks, dirOf w = d ∧ isMasterUrl w = true := by
    rcases List.exists_mem_of_ne_nil _ hm with ⟨w, hw⟩
    rw [List.mem_filter] at hw
    exact ⟨w, hw.1, by simpa using hw.2⟩
  unfold prefer_master_then_unique at hout
  rw [hks] at hout
  simp only [Bind.bind, Except.bind] at hout
  have hmasters : (orderedUnique [] ks).filter isMasterUrl ≠ [] := by
    intro hnil
    have : w ∈ (orderedUnique [] ks).filter isMasterUrl := List.mem_filter.2 ⟨hw, hwm⟩
    rw [hnil] at this; exact absurd this (by simp)
  rw [if_neg hmasters] at hout
  set kd := (((orderedUnique [] ks).filter isMasterUrl).map dirOf) with hkd
  have hdkd : kd.contains d = true := by
    rw [hkd]
    have : d ∈ ((orderedUnique [] ks).filter isMasterUrl).map dirOf :=
      List.mem_map.2 ⟨w, List.mem_filter.2 ⟨hw, hwm⟩, hwd⟩
    simpa using this
  have hres : masterLoop kd [] (orderedUnique [] ks) ≠ [] := by
    intro hnil
    exact masterLoop_eq_nil kd _ [] hnil w hw ⟨by rw [hwd]; exact hdkd, hwm, by simp⟩
  rw [if_neg hres] at hout
  cases hout
  exact masterLoop_filter_eq kd d (orderedUnique [] ks) hdkd [] rfl

/-- C7 witness: a directory holding both a master and an index
candidate retains exactly the master. -/
theorem C7_witness :
    (["http://h/a/master.m3u8".data, "http://h/a/index.m3u8".data] :
        List (List Char)).filter (fun u => decide (dirOf u = "http://h/a".data)) ≠
      ((orderedUnique [] ["http://h/a/master.m3u8".data, "http://h/a/index.m3u8".data]).filter
        (fun u => decide (dirOf u = "http://h/a".data) && isMasterUrl u)).take 1 ∧
    (["http://h/a/master.m3u8".data] : List (List Char)).filter
        (fun u => decide (dirOf u = "http://h/a".data)) =
      ((orderedUnique [] ["http://h/a/master.m3u8".data, "http://h/a/index.m3u8".data]).filter
        (fun u => decide (dirOf u = "http://h/a".data) && isMasterUrl u)).take 1 :=
  ⟨by decide,
   C7_master_only_survivor
     ["http://h/a/master.m3u8".data, "http://h/a/index.m3u8".data]
     ["http://h/a/master.m3u8".data, "http://h/a/index.m3u8".data]
     ["http://h/a/master.m3u8".data] "http://h/a".data rfl rfl (by decide)⟩

/-! ### Claims C8 and C9 — stream shape and artifact visibility -/

/-- A plain in-flight step: a non-terminal data line, delivered with no
artifact stored and the job still running. -/
def PlainStep (s : JobTraceStep) : Prop :=
  isTerminalEv s.ev = false ∧ s.artifact = none ∧ s.state = .running

/-- Echoed subprocess log lines are plain in-flight steps. -/
theorem echo_plain (log : List (List Char)) :
    ∀ s ∈ log.map echoLine, PlainStep s := by
  intro s hs
  rcases List.mem_map.1 hs with ⟨l, _, rfl⟩
  exact ⟨rfl, rfl, rfl⟩

/-- Shape of the fully consumed stream of `oneclick_stream`, shared by
the proofs of C8 and C9: a prefix of non-terminal lines, then exactly
one terminal event; on failure every step carries no artifact and the
job never reaches `done`; on success the artifact appears exactly at
the completion step immediately preceding the `done` event. -/
theorem generateTrace_shape (env : StreamEnv) (jobId : List Char) :
    ∃ pre last, generateTrace env jobId = pre ++ [last] ∧
      (∀ s ∈ pre, isTerminalEv s.ev = false) ∧
      isTerminalEv last.ev = true ∧
      (((∃ msg, last.ev = .errEv msg) ∧ last.artifact = none ∧ last.state = .failed ∧
          ∀ s ∈ pre, PlainStep s) ∨
        (last.ev = .doneEv ("/artifact/".data ++ jobId) ∧ last.state = .done ∧
          ∃ f pre0, last.artifact = some f ∧
            pre = pre0 ++ [⟨.line "全部完成 ✅".data, some f, .done⟩] ∧
            ∀ s ∈ pre0, PlainStep s)) := by
  obtain ⟨w, g, m, p, z⟩ := env
  cases w with
  | error e =>
    exact ⟨[], failStep (serverErr e), rfl, by simp, rfl,
      .inl ⟨⟨_, rfl⟩, rfl, rfl, by simp⟩⟩
  | ok _ =>
    cases g with
    | error e =>
      refine ⟨[runStep "已接收链接，开始抓取 m3u8…".data], failStep (serverErr e),
        rfl, ?_, rfl, .inl ⟨⟨_, rfl⟩, rfl, rfl, ?_⟩⟩ <;>
        (intro s hs; simp at hs; subst hs)
      · rfl
      · exact ⟨rfl, rfl, rfl⟩
    | ok pr =>
      obtain ⟨ok, log⟩ := pr
      cases ok with
      | false =>
        have hpre : ∀ s ∈ runStep "已接收链接，开始抓取 m3u8…".data ::
            runStep "抓取脚本输出：".data :: log.map echoLine, PlainStep s := by
          intro s hs
          rcases List.mem_cons.1 hs with rfl | hs
          · exact ⟨rfl, rfl, rfl⟩
          rcases List.mem_cons.1 hs with rfl | hs
          · exact ⟨rfl, rfl, rfl⟩
          exact echo_plain log s hs
        exact ⟨_, failStep "抓取失败，已结束。".data, by simp [generateTrace],
          fun s hs => (hpre s hs).1, rfl, .inl ⟨⟨_, rfl⟩, rfl, rfl, hpre⟩⟩
      | true =>
        cases m with
        | error e =>
          have hpre : ∀ s ∈ runStep "已接收链接，开始抓取 m3u8…".data ::
              runStep "抓取脚本输出：".data :: log.map echoLine, PlainStep s := by
            intro s hs
            rcases List.mem_cons.1 hs with rfl | hs
            · exact ⟨rfl, rfl, rfl⟩
            rcases List.mem_cons.1 hs with rfl | hs
            · exact ⟨rfl, rfl, rfl⟩
            exact echo_plain log s hs
          exact ⟨_, failStep (serverErr e), by simp [generateTrace],
            fun s hs => (hpre s hs).1, rfl, .inl ⟨⟨_, rfl⟩, rfl, rfl, hpre⟩⟩
        | ok _ =>
          cases p with
          | error e =>
            have hpre : ∀ s ∈ runStep "已接收链接，开始抓取 m3u8…".data ::
                runStep "抓取脚本输出：".data :: (log.map echoLine ++
                  [runStep "开始下载 MP4（ffmpeg）…".data]), PlainStep s := by
              intro s hs
              rcases List.mem_cons.1 hs with rfl | hs
              · exact ⟨rfl, rfl, rfl⟩
              rcases List.mem_cons.1 hs with rfl | hs
              · exact ⟨rfl, rfl, rfl⟩
              rcases List.mem_append.1 hs with hs | hs
              · exact echo_plain log s hs
              · simp at hs; subst hs; exact ⟨rfl, rfl, rfl⟩
            exact ⟨_, failStep (serverErr e), by simp [generateTrace],
              fun s hs => (hpre s hs).1, rfl, .inl ⟨⟨_, rfl⟩, rfl, rfl, hpre⟩⟩
          | ok pr2 =>
            obtain ⟨ok2, log2, files⟩ := pr2
            have hpre : ∀ s ∈ runStep "已接收链接，开始抓取 m3u8…".data ::
                runStep "抓取脚本输出：".data :: (log.map echoLine ++
                  runStep "开始下载 MP4（ffmpeg）…".data ::
                    runStep "下载器输出：".data :: log2.map echoLine), PlainStep s := by
              intro s hs
              rcases List.mem_cons.1 hs with rfl | hs
              · exact ⟨rfl, rfl, rfl⟩
              rcases List.mem_cons.1 hs with rfl | hs
              · exact ⟨rfl, rfl, rfl⟩
              rcases List.mem_append.1 hs with hs | hs
              · exact echo_plain log s hs
              rcases List.mem_cons.1 hs with rfl | hs
              · exact ⟨rfl, rfl, rfl⟩
              rcases List.mem_cons.1 hs with rfl | hs
              · exact ⟨rfl, rfl, rfl⟩
              exact echo_plain log2 s hs
            cases ok2 with
            | false =>
              exact ⟨_, failStep "下载失败，已结束。".data, by simp [generateTrace],
                fun s hs => (hpre s hs).1, rfl, .inl ⟨⟨_, rfl⟩, rfl, rfl, hpre⟩⟩
            | true =>
              match files with
              | [] =>
                exact ⟨_, failStep "未发现 MP4 文件，已结束。".data,
                  by simp [generateTrace],
                  fun s hs => (hpre s hs).1, rfl, .inl ⟨⟨_, rfl⟩, rfl, rfl, hpre⟩⟩
              | [f] =>
                refine ⟨runStep "已接收链接，开始抓取 m3u8…".data ::
                    runStep "抓取脚本输出：".data :: (log.map echoLine ++
                      runStep "开始下载 MP4（ffmpeg）…".data ::
                        runStep "下载器输出：".data :: (log2.map echoLine ++
                          [⟨.line "全部完成 ✅".data, some f, .done⟩])),
                  ⟨.doneEv ("/artifact/".data ++ jobId), some f, .done⟩,
                  by simp [generateTrace], ?_, rfl,
                  .inr ⟨rfl, rfl, f,
                    runStep "已接收链接，开始抓取 m3u8…".data ::
                      runStep "抓取脚本输出：".data :: (log.map echoLine ++
                        runStep "开始下载 MP4（ffmpeg）…".data ::
                          runStep "下载器输出：".data :: log2.map echoLine),
                    rfl, by simp, hpre⟩⟩
                intro s hs
                rcases List.mem_cons.1 hs with rfl | hs
                · rfl
                rcases List.mem_cons.1 hs with rfl | hs
                · rfl
                rcases List.mem_append.1 hs with hs | hs
                · exact (echo_plain log s hs).1
                rcases List.mem_cons.1 hs with rfl | hs
                · rfl
                rcases List.mem_cons.1 hs with rfl | hs
                · rfl
                rcases List.mem_append.1 hs with hs | hs
                · exact (echo_plain log2 s hs).1
                · simp at hs; subst hs; rfl
              | f1 :: f2 :: fs =>
                cases z with
                | error e =>
                  exact ⟨_, failStep (serverErr e), by simp [generateTrace],
                    fun s hs => (hpre s hs).1, rfl, .inl ⟨⟨_, rfl⟩, rfl, rfl, hpre⟩⟩
                | ok zf =>
                  refine ⟨runStep "已接收链接，开始抓取 m3u8…".data ::
                      runStep "抓取脚本输出：".data :: (log.map echoLine ++
                        runStep "开始下载 MP4（ffmpeg）…".data ::
                          runStep "下载器输出：".data :: (log2.map echoLine ++
                            [⟨.line "全部完成 ✅".data, some zf, .done⟩])),
                    ⟨.doneEv ("/artifact/".data ++ jobId), some zf, .done⟩,
                    by simp [generateTrace], ?_, rfl,
                    .inr ⟨rfl, rfl, zf,
                      runStep "已接收链接，开始抓取 m3u8…".data ::
                        runStep "抓取脚本输出：".data :: (log.map echoLine ++
                          runStep "开始下载 MP4（ffmpeg）…".data ::
                            runStep "下载器输出：".data :: log2.map echoLine),
                      rfl, by simp, hpre⟩⟩
                  intro s hs
                  rcases List.mem_cons.1 hs with rfl | hs
                  · rfl
                  rcases List.mem_cons.1 hs with rfl | hs
                  · rfl
                  rcases List.mem_append.1 hs with hs | hs
                  · exact (echo_plain log s hs).1
                  rcases List.mem_cons.1 hs with rfl | hs
                  · rfl
                  rcases List.mem_cons.1 hs with rfl | hs
                  · rfl
                  rcases List.mem_append.1 hs with hs | hs
                  · exact (echo_plain log2 s hs).1
                  · simp at hs; subst hs; rfl

/-- C8: for every environment outcome, the fully consumed stream of a
job decomposes as a prefix of plain log lines followed by exactly one
terminal event; the terminal event is the last element (so no log line
is delivered after it), and it carries either an error message or the
job's artifact reference `/artifact/<job_id>`. -/
theorem C8_one_terminal_event (env : StreamEnv) (jobId : List Char) :
    ∃ pre last, generateTrace env jobId = pre ++ [last] ∧
      (∀ s ∈ pre, isTerminalEv s.ev = false) ∧
      isTerminalEv last.ev = true ∧
      ((∃ msg, last.ev = .errEv msg) ∨
        last.ev = .doneEv ("/artifact/".data ++ jobId)) := by
  obtain ⟨pre, last, h1, h2, h3, h4⟩ := generateTrace_shape env jobId
  exact ⟨pre, last, h1, h2, h3, h4.imp (fun h => h.1) (fun h => h.1)⟩

/-- C9: the artifact endpoint answers not-found while the job is
running (the registry slot is still empty), a stored artifact implies
the job completed successfully (its stream ends in the `done` event
carrying the artifact reference), and a job whose stream ends in an
error event never stores an artifact — `artifact_download` keeps
answering not-found for it. -/
theorem C9_artifact_only_on_success (env : StreamEnv) (jobId : List Char) :
    (∀ s ∈ generateTrace env jobId, s.state = .running →
      s.artifact = none ∧ artifact_download [(jobId, s.artifact)] jobId = none) ∧
    (∀ s ∈ generateTrace env jobId, s.artifact.isSome = true →
      s.state ≠ .running ∧ ∃ f, (generateTrace env jobId).getLast? =
        some ⟨.doneEv ("/artifact/".data ++ jobId), some f, .done⟩) ∧
    (∀ msg s0, (generateTrace env jobId).getLast? = some s0 → s0.ev = .errEv msg →
      traceArtifact (generateTrace env jobId) = none ∧
      artifact_download [(jobId, traceArtifact (generateTrace env jobId))] jobId = none ∧
      ∀ s ∈ generateTrace env jobId, s.artifact = none) := by
  obtain ⟨pre, last, h1, _, _, h4⟩ := generateTrace_shape env jobId
  have hlast : (generateTrace env jobId).getLast? = some last := by
    rw [h1]; exact List.getLast?_concat _
  have hdl : artifact_download [(jobId, none)] jobId = none := by
    simp [artifact_download, List.find?]
  rcases h4 with ⟨⟨msg0, hev⟩, hart, hst, hplain⟩ |
      ⟨hev, hst, f, pre0, hart, hpre, hplain0⟩
  · have hallnone : ∀ s ∈ generateTrace env jobId, s.artifact = none := by
      intro s hs
      rw [h1] at hs
      rcases List.mem_append.1 hs with hs | hs
      · exact (hplain s hs).2.1
      · simp at hs; subst hs; exact hart
    refine ⟨?_, ?_, ?_⟩
    · intro s hs _
      have := hallnone s hs
      exact ⟨this, by rw [this]; exact hdl⟩
    · intro s hs hsome
      rw [hallnone s hs] at hsome
      exact absurd hsome (by simp)
    · intro msg s0 hs0 _
      have htr : traceArtifact (generateTrace env jobId) = none := by
        unfold traceArtifact
        rw [hlast]
        exact hart
      exact ⟨htr, by rw [htr]; exact hdl, hallnone⟩
  · refine ⟨?_, ?_, ?_⟩
    · intro s hs hrun
      rw [h1, hpre] at hs
      rcases List.mem_append.1 hs with hs | hs
      · rcases List.mem_append.1 hs with hs | hs
        · have := hplain0 s hs
          exact ⟨this.2.1, by rw [this.2.1]; exact hdl⟩
        · simp at hs; subst hs; exact absurd hrun (by simp)
      · simp at hs; subst hs; rw [hst] at hrun; exact absurd hrun (by simp)
    · intro s hs hsome
      refine ⟨?_, f, ?_⟩
      · rw [h1, hpre] at hs
        rcases List.mem_append.1 hs with hs | hs
        · rcases List.mem_append.1 hs with hs | hs
          · rw [(hplain0 s hs).2.1] at hsome
            exact absurd hsome (by simp)
          · simp at hs; subst hs; simp
        · simp at hs; subst hs; rw [hst]; simp
      · rw [hlast]
        obtain ⟨ev0, a0, st0⟩ := last
        simp only at hev hst hart
        rw [hev, hst, hart]
    · intro msg s0 hs0 hev0
      rw [hlast] at hs0
      cases hs0
      rw [hev] at hev0
      exact absurd hev0 (by simp)

/-- C8 and C9 concrete environments, used by the witnesses below: one
successful run producing a single file, and one failing run. -/
def envSuccess : StreamEnv :=
  ⟨.ok (), .ok (true, ["line1".data]), .ok (), .ok (true, [], ["out.mp4".data]), .ok "z.zip".data⟩

/-- Failing environment (the grabber reports failure). -/
def envFailure : StreamEnv :=
  ⟨.ok (), .ok (false, []), .ok (), .ok (true, [], []), .ok "z.zip".data⟩

/-- C8 witness: the successful concrete environment instantiates the
statement. -/
theorem C8_witness :
    ∃ pre last, generateTrace envSuccess "j1".data = pre ++ [last] ∧
      (∀ s ∈ pre, isTerminalEv s.ev = false) ∧
      isTerminalEv last.ev = true ∧
      ((∃ msg, last.ev = .errEv msg) ∨
        last.ev = .doneEv ("/artifact/".data ++ "j1".data)) :=
  C8_one_terminal_event envSuccess "j1".data

/-- C9 witness: the failing concrete environment instantiates the
statement; in particular its stream ends in an error event and the
artifact endpoint answers not-found. -/
theorem C9_witness :
    ((∀ s ∈ generateTrace envFailure "j2".data, s.state = .running →
        s.artifact = none ∧
          artifact_download [("j2".data, s.artifact)] "j2".data = none) ∧
     (∀ s ∈ generateTrace envFailure "j2".data, s.artifact.isSome = true →
        s.state ≠ .running ∧ ∃ f, (generateTrace envFailure "j2".data).getLast? =
          some ⟨.doneEv ("/artifact/".data ++ "j2".data), some f, .done⟩) ∧
     (∀ msg s0, (generateTrace envFailure "j2".data).getLast? = some s0 →
        s0.ev = .errEv msg →
        traceArtifact (generateTrace envFailure "j2".data) = none ∧
        artifact_download [("j2".data, traceArtifact (generateTrace envFailure "j2".data))]
          "j2".data = none ∧
        ∀ s ∈ generateTrace envFailure "j2".data, s.artifact = none)) ∧
    (generateTrace envFailure "j2".data).getLast? =
      some (failStep "抓取失败，已结束。".data) :=
  ⟨C9_artifact_only_on_success envFailure "j2".data, rfl⟩

/-! ### Character-level toolkit

Facts about `lcChar` and the character classes, used by the URL
normalization claims (C2, C3, C4, C10). -/

/-- Char order coincides with code-point order. -/
theorem charLe_iff (a b : Char) : a ≤ b ↔ a.toNat ≤ b.toNat := by
  rw [Char.le_def]
  exact Iff.rfl

/-- Char equality coincides with code-point equality. -/
theorem charEq_iff (a b : Char) : a = b ↔ a.toNat = b.toNat := by
  constructor
  · intro h; rw [h]
  · intro h
    have ha := Char.ofNat_toNat a
    rw [h, Char.ofNat_toNat b] at ha
    exact ha.symm

/-- The upper-case ASCII letters. -/
def upperChars : List Char :=
  ['A','B','C','D','E','F','G','H','I','J','K','L','M',
   'N','O','P','Q','R','S','T','U','V','W','X','Y','Z']

/-- A character whose code point lies in 65–90 is one of the 26
upper-case ASCII letters. -/
theorem mem_upperChars (c : Char) (h1 : 65 ≤ c.toNat) (h2 : c.toNat ≤ 90) :
    c ∈ upperChars := by
  have hc : Char.ofNat c.toNat = c := Char.ofNat_toNat c
  set n := c.toNat with hn
  interval_cases n <;> (rw [← hc]; decide)

/-- An upper-case letter has code point 65–90 and is shifted down by 32
by `lcChar`. -/
theorem lcChar_upper (c : Char) (h : c ∈ upperChars) :
    (65 ≤ c.toNat ∧ c.toNat ≤ 90) ∧ (lcChar c).toNat = c.toNat + 32 := by
  fin_cases h <;> exact ⟨by decide, by decide⟩

/-- A character that is not an upper-case letter is fixed by
`lcChar`. -/
theorem lcChar_fix (c : Char) (h1 : ¬ (65 ≤ c.toNat ∧ c.toNat ≤ 90)) :
    lcChar c = c := by
  have k : ∀ x, x ∈ upperChars → ¬ (c = x) := by
    intro x hx he
    subst he
    exact h1 (lcChar_upper c hx).1
  unfold lcChar
  rw [if_neg (k 'A' (by decide)), if_neg (k 'B' (by decide)),
    if_neg (k 'C' (by decide)), if_neg (k 'D' (by decide)),
    if_neg (k 'E' (by decide)), if_neg (k 'F' (by decide)),
    if_neg (k 'G' (by decide)), if_neg (k 'H' (by decide)),
    if_neg (k 'I' (by decide)), if_neg (k 'J' (by decide)),
    if_neg (k 'K' (by decide)), if_neg (k 'L' (by decide)),
    if_neg (k 'M' (by decide)), if_neg (k 'N' (by decide)),
    if_neg (k 'O' (by decide)), if_neg (k 'P' (by decide)),
    if_neg (k 'Q' (by decide)), if_neg (k 'R' (by decide)),
    if_neg (k 'S' (by decide)), if_neg (k 'T' (by decide)),
    if_neg (k 'U' (by decide)), if_neg (k 'V' (by decide)),
    if_neg (k 'W' (by decide)), if_neg (k 'X' (by decide)),
    if_neg (k 'Y' (by decide)), if_neg (k 'Z' (by decide))]

/-- Complete behavioral description of `lcChar`: it either fixes a
non-upper-case character or shifts an upper-case letter down by 32. -/
theorem lcChar_spec (c : Char) :
    (lcChar c = c ∧ ¬ (65 ≤ c.toNat ∧ c.toNat ≤ 90)) ∨
    (65 ≤ c.toNat ∧ c.toNat ≤ 90 ∧ (lcChar c).toNat = c.toNat + 32) := by
  by_cases hu : 65 ≤ c.toNat ∧ c.toNat ≤ 90
  · exact .inr ⟨hu.1, hu.2, (lcChar_upper c (mem_upperChars c hu.1 hu.2)).2⟩
  · exact .inl ⟨lcChar_fix c hu, hu⟩

/-- Lower-casing is idempotent. -/
theorem lcChar_idem (c : Char) : lcChar (lcChar c) = lcChar c := by
  rcases lcChar_spec c with ⟨hfix, _⟩ | ⟨h1, h2, h3⟩
  · rw [hfix, hfix]
  · rcases lcChar_spec (lcChar c) with ⟨hfix2, _⟩ | ⟨g1, g2, _⟩
    · exact hfix2
    · omega

/-- All character classes of the embedding are invariant under
lower-casing; proved uniformly by enumerating the 26 upper-case
letters. -/
theorem isQuote_lc (c : Char) : isQuote (lcChar c) = isQuote c := by
  by_cases hu : 65 ≤ c.toNat ∧ c.toNat ≤ 90
  · have h := mem_upperChars c hu.1 hu.2
    fin_cases h <;> decide
  · rw [lcChar_fix c hu]

/-- Netloc delimiters are invariant under lower-casing. -/
theorem isNetlocDelim_lc (c : Char) : isNetlocDelim (lcChar c) = isNetlocDelim c := by
  by_cases hu : 65 ≤ c.toNat ∧ c.toNat ≤ 90
  · have h := mem_upperChars c hu.1 hu.2
    fin_cases h <;> decide
  · rw [lcChar_fix c hu]

/-- Digits are invariant under lower-casing. -/
theorem isDigitChar_lc (c : Char) : isDigitChar (lcChar c) = isDigitChar c := by
  by_cases hu : 65 ≤ c.toNat ∧ c.toNat ≤ 90
  · have h := mem_upperChars c hu.1 hu.2
    fin_cases h <;> decide
  · rw [lcChar_fix c hu]

/-- Hex digits are invariant under lower-casing. -/
theorem isHexChar_lc (c : Char) : isHexChar (lcChar c) = isHexChar c := by
  by_cases hu : 65 ≤ c.toNat ∧ c.toNat ≤ 90
  · have h := mem_upperChars c hu.1 hu.2
    fin_cases h <;> decide
  · rw [lcChar_fix c hu]

/-- ASCII letters are invariant under lower-casing. -/
theorem isAsciiAlpha_lc (c : Char) : isAsciiAlpha (lcChar c) = isAsciiAlpha c := by
  by_cases hu : 65 ≤ c.toNat ∧ c.toNat ≤ 90
  · have h := mem_upperChars c hu.1 hu.2
    fin_cases h <;> decide
  · rw [lcChar_fix c hu]

/-- Scheme characters are invariant under lower-casing. -/
theorem isSchemeChar_lc (c : Char) : isSchemeChar (lcChar c) = isSchemeChar c := by
  by_cases hu : 65 ≤ c.toNat ∧ c.toNat ≤ 90
  · have h := mem_upperChars c hu.1 hu.2
    fin_cases h <;> decide
  · rw [lcChar_fix c hu]

/-- Strippable characters are invariant under lower-casing. -/
theorem isWhatwgStrip_lc (c : Char) : isWhatwgStrip (lcChar c) = isWhatwgStrip c := by
  by_cases hu : 65 ≤ c.toNat ∧ c.toNat ≤ 90
  · have h := mem_upperChars c hu.1 hu.2
    fin_cases h <;> decide
  · rw [lcChar_fix c hu]

/-- Tab/CR/LF are invariant under lower-casing. -/
theorem isUnsafeByte_lc (c : Char) : isUnsafeByte (lcChar c) = isUnsafeByte c := by
  by_cases hu : 65 ≤ c.toNat ∧ c.toNat ≤ 90
  · have h := mem_upperChars c hu.1 hu.2
    fin_cases h <;> decide
  · rw [lcChar_fix c hu]

/-- A character maps to a non-letter `x` under `lcChar` exactly when it
is `x`; used with concrete delimiter characters. -/
theorem lcChar_eq_iff (c x : Char)
    (hx1 : ¬ (65 ≤ x.toNat ∧ x.toNat ≤ 90))
    (hx2 : ¬ (97 ≤ x.toNat ∧ x.toNat ≤ 122)) :
    lcChar c = x ↔ c = x := by
  constructor
  · intro h
    rcases lcChar_spec c with ⟨hfix, _⟩ | ⟨h1, h2, h3⟩
    · rw [← hfix]; exact h
    · exfalso
      rw [charEq_iff] at h
      omega
  · intro h
    subst h
    rcases lcChar_spec c with ⟨hfix, _⟩ | ⟨h1, h2, _⟩
    · exact hfix
    · exact absurd ⟨h1, h2⟩ hx1

/-! ### List-level lower-casing and prefix lemmas -/

/-- Lower-casing distributes over append. -/
theorem lc_append (a b : List Char) : lc (a ++ b) = lc a ++ lc b :=
  List.map_append lcChar a b

/-- Lower-casing is idempotent on strings. -/
theorem lc_idem (l : List Char) : lc (lc l) = lc l := by
  unfold lc
  rw [List.map_map]
  exact List.map_congr_left fun c _ => lcChar_idem c

/-- Lower-casing commutes with `take`. -/
theorem lc_take (l : List Char) (n : Nat) : lc (l.take n) = (lc l).take n :=
  List.map_take lcChar l n

/-- Lower-casing commutes with `drop`. -/
theorem lc_drop (l : List Char) (n : Nat) : lc (l.drop n) = (lc l).drop n :=
  List.map_drop lcChar l n

/-- Lower-casing preserves length. -/
theorem lc_length (l : List Char) : (lc l).length = l.length :=
  List.length_map l lcChar

/-- Case-insensitive prefix testing only sees the lower-cased text. -/
theorem ciBegins_lc (pat l : List Char) : ciBegins pat (lc l) = ciBegins pat l := by
  induction pat generalizing l with
  | nil => rfl
  | cons p ps ih =>
    cases l with
    | nil => rfl
    | cons c cs =>
      show (lcChar (lcChar c) = p && ciBegins ps (lc cs)) = (lcChar c = p && ciBegins ps cs)
      rw [lcChar_idem, ih]

/-- More generally, `ciBegins` only depends on the lower-cased text. -/
theorem ciBegins_congr (pat x y : List Char) (h : lc x = lc y) :
    ciBegins pat x = ciBegins pat y := by
  induction pat generalizing x y with
  | nil => rfl
  | cons p ps ih =>
    cases x with
    | nil =>
      cases y with
      | nil => rfl
      | cons d ds => exact absurd h (by simp [lc])
    | cons c cs =>
      cases y with
      | nil => exact absurd h (by simp [lc])
      | cons d ds =>
        simp only [lc, List.map_cons, List.cons.injEq] at h
        show (lcChar c = p && ciBegins ps cs) = (lcChar d = p && ciBegins ps ds)
        rw [h.1, ih cs ds h.2]

/-- A successful `ciBegins` consumes at least the pattern length. -/
theorem ciBegins_length (pat l : List Char) (h : ciBegins pat l = true) :
    pat.length ≤ l.length := by
  induction pat generalizing l with
  | nil => simp
  | cons p ps ih =>
    cases l with
    | nil => exact absurd h (by simp [ciBegins])
    | cons c cs =>
      simp only [ciBegins, Bool.and_eq_true] at h
      simpa using ih cs h.2

/-- A successful `ciBegins` pins down the lower-cased prefix. -/
theorem ciBegins_lc_take (pat l : List Char) (h : ciBegins pat l = true) :
    lc (l.take pat.length) = pat := by
  induction pat generalizing l with
  | nil => rfl
  | cons p ps ih =>
    cases l with
    | nil => exact absurd h (by simp [ciBegins])
    | cons c cs =>
      simp only [ciBegins, Bool.and_eq_true] at h
      simp only [List.length_cons, List.take_succ_cons, lc, List.map_cons]
      rw [show lcChar c = p from by simpa using h.1]
      exact congrArg (p :: ·) (ih cs h.2)

/-- Conversely, a correct lower-cased prefix makes `ciBegins` succeed. -/
theorem ciBegins_of_lc_take (pat l : List Char) (hlen : pat.length ≤ l.length)
    (h : lc (l.take pat.length) = pat) : ciBegins pat l = true := by
  induction pat generalizing l with
  | nil => rfl
  | cons p ps ih =>
    cases l with
    | nil => simp at hlen
    | cons c cs =>
      simp only [List.length_cons, List.take_succ_cons, lc, List.map_cons,
        List.cons.injEq] at h
      show (lcChar c = p && ciBegins ps cs) = true
      rw [h.1, ih cs (by simpa using hlen) h.2]
      simp

/-- A prefix match survives appending on the right. -/
theorem ciBegins_append (pat l r : List Char) (h : ciBegins pat l = true) :
    ciBegins pat (l ++ r) = true := by
  induction pat generalizing l with
  | nil => rfl
  | cons p ps ih =>
    cases l with
    | nil => exact absurd h (by simp [ciBegins])
    | cons c cs =>
      simp only [ciBegins, Bool.and_eq_true] at h
      simp only [List.cons_append]
      show (lcChar c = p && ciBegins ps (cs ++ r)) = true
      rw [show lcChar c = p from by simpa using h.1, ih cs h.2]
      simp

/-! ### Characterization of the lazy regex -/

/-- A valid completion point for the lazy part `[^"']+?\.m3u8`: at least
one character consumed, all consumed characters non-quote, and the
extension following case-insensitively. -/
def LazyEnd (t : List Char) (j : Nat) : Prop :=
  1 ≤ j ∧ (∀ c ∈ t.take j, isQuote c = false) ∧ ciBegins extPat (t.drop j) = true

/-- Completion at 1 unfolds to a head/tail condition. -/
theorem LazyEnd_one (c : Char) (rest : List Char) :
    LazyEnd (c :: rest) 1 ↔ (isQuote c = false ∧ ciBegins extPat rest = true) := by
  unfold LazyEnd
  simp

/-- Completion points shift across a non-quote head. -/
theorem LazyEnd_succ (c : Char) (rest : List Char) (j : Nat) (hj : 1 ≤ j) :
    LazyEnd (c :: rest) (j + 1) ↔ (isQuote c = false ∧ LazyEnd rest j) := by
  unfold LazyEnd
  simp only [List.take_succ_cons, List.drop_succ_cons, List.mem_cons]
  constructor
  · rintro ⟨_, hqf, hci⟩
    exact ⟨hqf c (.inl rfl), hj, fun x hx => hqf x (.inr hx), hci⟩
  · rintro ⟨hq, _, hqf, hci⟩
    refine ⟨by omega, ?_, hci⟩
    rintro x (rfl | hx)
    · exact hq
    · exact hqf x hx

/-- The lazy engine finds exactly the minimal completion point. -/
theorem lazyExt_char (t : List Char) :
    ∀ k, lazyExt t = some k ↔
      ∃ j, k = j + 5 ∧ LazyEnd t j ∧ ∀ j' < j, ¬ LazyEnd t j' := by
  induction t with
  | nil =>
    intro k
    constructor
    · intro h; exact absurd h (by simp [lazyExt])
    · rintro ⟨j, rfl, ⟨hj1, _, hci⟩, _⟩
      rw [List.drop_nil] at hci
      exact absurd hci (by decide)
  | cons c rest ih =>
    intro k
    by_cases hq : isQuote c = true
    · rw [show lazyExt (c :: rest) = none from by rw [lazyExt, if_pos hq]]
      constructor
      · intro h; cases h
      · rintro ⟨j, rfl, ⟨hj1, hqf, _⟩, _⟩
        have hcm : c ∈ (c :: rest).take j := by
          cases j with
          | zero => omega
          | succ j0 => simp
        rw [hqf c hcm] at hq
        cases hq
    · rw [Bool.not_eq_true] at hq
      by_cases hext : ciBegins extPat rest = true
      · rw [show lazyExt (c :: rest) = some 6 from by
          rw [lazyExt, if_neg (by rw [hq]; simp), if_pos hext]]
        constructor
        · rintro ⟨rfl⟩
          exact ⟨1, rfl, (LazyEnd_one c rest).2 ⟨hq, hext⟩,
            fun j' hj' h => absurd h.1 (by omega)⟩
        · rintro ⟨j, rfl, hle, hmin⟩
          rcases Nat.lt_or_ge j 2 with hj2 | hj2
          · interval_cases j
            · exact absurd hle.1 (by omega)
            · rfl
          · exact absurd ((LazyEnd_one c rest).2 ⟨hq, hext⟩) (hmin 1 (by omega))
      · have hstep : lazyExt (c :: rest) =
            match lazyExt rest with
            | some n => some (n + 1)
            | none => none := by
          rw [lazyExt, if_neg (by rw [hq]; simp), if_neg hext]
        rw [hstep]
        constructor
        · intro h
          cases hrest : lazyExt rest with
          | none => rw [hrest] at h; cases h
          | some n =>
            rw [hrest] at h
            obtain ⟨j, rfl, hle, hmin⟩ := (ih n).1 hrest
            cases h
            refine ⟨j + 1, by omega, (LazyEnd_succ c rest j hle.1).2 ⟨hq, hle⟩, ?_⟩
            intro j' hj' hle'
            rcases Nat.lt_or_ge j' 2 with hj2 | hj2
            · interval_cases j'
              · exact absurd hle'.1 (by omega)
              · exact hext ((LazyEnd_one c rest).1 hle').2
            · obtain ⟨j0, rfl⟩ : ∃ j0, j' = j0 + 1 := ⟨j' - 1, by omega⟩
              exact hmin j0 (by omega) ((LazyEnd_succ c rest j0 (by omega)).1 hle').2
        · rintro ⟨j, rfl, hle, hmin⟩
          have hj1 : 1 ≤ j := hle.1
          have hjne1 : j ≠ 1 := by
            intro h1
            subst h1
            exact hext ((LazyEnd_one c rest).1 hle).2
          obtain ⟨j0, rfl⟩ : ∃ j0, j = j0 + 1 := ⟨j - 1, by omega⟩
          have hle0 : LazyEnd rest j0 := ((LazyEnd_succ c rest j0 (by omega)).1 hle).2
          have hmin0 : ∀ j' < j0, ¬ LazyEnd rest j' := by
            intro j' hj' h
            rcases Nat.eq_zero_or_pos j' with rfl | hpos
            · exact absurd h.1 (by omega)
            · exact hmin (j' + 1) (by omega) ((LazyEnd_succ c rest j' hpos).2 ⟨hq, h⟩)
          rw [(ih (j0 + 5)).2 ⟨j0, rfl, hle0, hmin0⟩]

/-- Completion points are decidable, so a least one can be found. -/
instance (t : List Char) : DecidablePred (LazyEnd t) := fun _ => by
  unfold LazyEnd
  infer_instance

/-- The lazy engine fails exactly when no completion point exists. -/
theorem lazyExt_none (t : List Char) :
    lazyExt t = none ↔ ∀ j, ¬ LazyEnd t j := by
  cases h : lazyExt t with
  | some k =>
    obtain ⟨j, _, hle, _⟩ := (lazyExt_char t k).1 h
    simp only [reduceCtorEq, false_iff, not_forall, not_not]
    exact ⟨j, hle⟩
  | none =>
    simp only [true_iff]
    intro j hle
    have hex : ∃ i, LazyEnd t i := ⟨j, hle⟩
    have hsome : lazyExt t = some (Nat.find hex + 5) :=
      (lazyExt_char t _).2 ⟨Nat.find hex, rfl, Nat.find_spec hex,
        fun i hi => Nat.find_min hex hi⟩
    rw [h] at hsome
    cases hsome

/-- The empty string matches nothing. -/
theorem matchAt_nil : matchAt [] = none := rfl

/-- A successful anchored match at the head is what `searchCore`
returns. -/
theorem searchCore_of_matchAt (u : List Char) (n : Nat) (h : matchAt u = some n) :
    searchCore u = some (u.take n) := by
  cases u with
  | nil => rw [matchAt_nil] at h; cases h
  | cons c rest => rw [searchCore, h]

/-- A `searchCore` hit decomposes into a leftmost match position. -/
theorem searchCore_some_ex (u m : List Char) (h : searchCore u = some m) :
    ∃ i n, matchAt (u.drop i) = some n ∧ m = (u.drop i).take n ∧
      ∀ i' < i, matchAt (u.drop i') = none := by
  induction u with
  | nil => cases h
  | cons c rest ih =>
    rw [searchCore] at h
    cases hm : matchAt (c :: rest) with
    | some n =>
      rw [hm] at h
      cases h
      exact ⟨0, n, hm, rfl, fun i' hi' => absurd hi' (by omega)⟩
    | none =>
      rw [hm] at h
      obtain ⟨i, n, h1, h2, h3⟩ := ih h
      refine ⟨i + 1, n, by rw [List.drop_succ_cons]; exact h1,
        by rw [List.drop_succ_cons]; exact h2, ?_⟩
      intro i' hi'
      cases i' with
      | zero => exact hm
      | succ i0 => rw [List.drop_succ_cons]; exact h3 i0 (by omega)

/-- The search fails exactly when no suffix has an anchored match. -/
theorem searchCore_none_iff (u : List Char) :
    searchCore u = none ↔ ∀ i, matchAt (u.drop i) = none := by
  induction u with
  | nil =>
    constructor
    · intro _ i
      rw [List.drop_nil]
      exact matchAt_nil
    · intro _
      rfl
  | cons c rest ih =>
    rw [searchCore]
    cases hm : matchAt (c :: rest) with
    | some n =>
      simp only [reduceCtorEq, false_iff, not_forall]
      exact ⟨0, by rw [List.drop_zero, hm]; simp⟩
    | none =>
      rw [ih]
      constructor
      · intro h i
        cases i with
        | zero => rw [List.drop_zero]; exact hm
        | succ i0 => rw [List.drop_succ_cons]; exact h i0
      · intro h i
        have := h (i + 1)
        rw [List.drop_succ_cons] at this
        exact this

/-- A successful anchored match decomposes into a scheme prefix and a
minimal completion point of the lazy part. -/
theorem matchAt_decomp (s : List Char) (n : Nat) (h : matchAt s = some n) :
    ∃ sl j, ((sl = 8 ∧ ciBegins schemeHttpsL s = true) ∨
        (sl = 7 ∧ ciBegins schemeHttpsL s = false ∧ ciBegins schemeHttpL s = true)) ∧
      n = sl + (j + 5) ∧ LazyEnd (s.drop sl) j ∧ ∀ j' < j, ¬ LazyEnd (s.drop sl) j' := by
  unfold matchAt at h
  by_cases h8 : ciBegins schemeHttpsL s = true
  · rw [if_pos h8] at h
    cases hl : lazyExt (s.drop 8) with
    | none => rw [hl] at h; cases h
    | some k =>
      rw [hl] at h
      obtain ⟨j, rfl, hle, hmin⟩ := (lazyExt_char _ k).1 hl
      cases h
      exact ⟨8, j, .inl ⟨rfl, h8⟩, by show j + 5 + 8 = 8 + (j + 5); omega, hle, hmin⟩
  · rw [if_neg h8] at h
    by_cases h7 : ciBegins schemeHttpL s = true
    · rw [if_pos h7] at h
      cases hl : lazyExt (s.drop 7) with
      | none => rw [hl] at h; cases h
      | some k =>
        rw [hl] at h
        obtain ⟨j, rfl, hle, hmin⟩ := (lazyExt_char _ k).1 hl
        cases h
        exact ⟨7, j, .inr ⟨rfl, by simpa using h8, h7⟩,
          by show j + 5 + 7 = 7 + (j + 5); omega, hle, hmin⟩
    · rw [if_neg h7] at h
      cases h

/-- Conversely, a minimal completion point behind a scheme prefix makes
the anchored match succeed with the corresponding length. -/
theorem matchAt_of_decomp (s : List Char) (sl j : Nat)
    (hsch : (sl = 8 ∧ ciBegins schemeHttpsL s = true) ∨
      (sl = 7 ∧ ciBegins schemeHttpsL s = false ∧ ciBegins schemeHttpL s = true))
    (hle : LazyEnd (s.drop sl) j) (hmin : ∀ j' < j, ¬ LazyEnd (s.drop sl) j') :
    matchAt s = some (sl + (j + 5)) := by
  unfold matchAt
  rcases hsch with ⟨rfl, h8⟩ | ⟨rfl, h8, h7⟩
  · rw [if_pos h8, (lazyExt_char _ (j + 5)).2 ⟨j, rfl, hle, hmin⟩]
    show some (j + 5 + 8) = some (8 + (j + 5))
    rw [Nat.add_comm]
  · rw [if_neg (by simp [h8]), if_pos h7,
      (lazyExt_char _ (j + 5)).2 ⟨j, rfl, hle, hmin⟩]
    show some (j + 5 + 7) = some (7 + (j + 5))
    rw [Nat.add_comm]

/-! ### Generic takeWhile/dropWhile and splitAtFirst helpers -/

/-- takeWhile over a list whose elements all satisfy the predicate. -/
theorem takeWhile_all {α} (p : α → Bool) (A : List α) (h : ∀ a ∈ A, p a = true) :
    A.takeWhile p = A ∧ A.dropWhile p = [] := by
  induction A with
  | nil => exact ⟨rfl, rfl⟩
  | cons a A ih =>
    have ha := h a (.head A)
    have ih2 := ih (fun x hx => h x (.tail a hx))
    rw [List.takeWhile_cons, List.dropWhile_cons, if_pos ha, if_pos ha]
    exact ⟨by rw [ih2.1], ih2.2⟩

/-- takeWhile/dropWhile across an append whose first block satisfies
the predicate and whose following element does not. -/
theorem takeWhile_append_cons {α} (p : α → Bool) (A : List α) (c : α) (B : List α)
    (hA : ∀ a ∈ A, p a = true) (hc : p c = false) :
    ((A ++ c :: B).takeWhile p = A) ∧ ((A ++ c :: B).dropWhile p = c :: B) := by
  induction A with
  | nil =>
    simp only [List.nil_append]
    rw [List.takeWhile_cons, List.dropWhile_cons, if_neg (by rw [hc]; simp),
      if_neg (by rw [hc]; simp)]
    exact ⟨rfl, rfl⟩
  | cons a A ih =>
    have ha := hA a (.head A)
    have ih2 := ih (fun x hx => hA x (.tail a hx))
    simp only [List.cons_append]
    rw [List.takeWhile_cons, List.dropWhile_cons, if_pos ha, if_pos ha]
    exact ⟨by rw [ih2.1], ih2.2⟩

/-- splitAtFirst on a string not containing the separator. -/
theorem splitAtFirst_not_mem (c : Char) (l : List Char) (h : ∀ x ∈ l, ¬ x = c) :
    splitAtFirst c l = (l, []) := by
  unfold splitAtFirst
  have := takeWhile_all (fun x => x ≠ c) l (fun a ha => by simpa using h a ha)
  rw [this.1, this.2]
  rfl

/-- splitAtFirst at the first separator occurrence. -/
theorem splitAtFirst_append (c : Char) (A B : List Char) (h : ∀ x ∈ A, ¬ x = c) :
    splitAtFirst c (A ++ c :: B) = (A, B) := by
  unfold splitAtFirst
  have := takeWhile_append_cons (fun x => x ≠ c) A c B
    (fun a ha => by simpa using h a ha) (by simp)
  rw [this.1, this.2]
  rfl

/-! ### Computation rules for the urlsplit embedding -/

/-- Strings free of tab, CR and LF (the bytes `urlsplit` removes). -/
def NoUnsafe (l : List Char) : Prop := ∀ c ∈ l, isUnsafeByte c = false

/-- Inverse description of `lcChar` on a known output. -/
theorem lcChar_eq_elim (c x : Char) (h : lcChar c = x) :
    c = x ∨ (65 ≤ c.toNat ∧ c.toNat ≤ 90 ∧ x.toNat = c.toNat + 32) := by
  rcases lcChar_spec c with ⟨hfix, _⟩ | ⟨h1, h2, h3⟩
  · exact .inl (hfix ▸ h)
  · exact .inr ⟨h1, h2, by rw [← h]; exact h3⟩

/-- The clean-up step is the identity on clean strings that do not
start with a strippable character. -/
theorem cleanUrl_eq (l : List Char) (h1 : NoUnsafe l)
    (h2 : isWhatwgStrip (l.headD '!') = false) : cleanUrl l = l := by
  unfold cleanUrl
  cases l with
  | nil => rfl
  | cons c rest =>
    rw [List.dropWhile_cons, if_neg (by simp_all)]
    exact List.filter_eq_self.mpr (fun a ha => by simpa using h1 a ha)

/-- The head of a string lower-casing to `http...` is not
strippable. -/
theorem head_not_strip (c : Char) (h : lcChar c = 'h') :
    isWhatwgStrip c = false := by
  rcases lcChar_eq_elim c 'h' h with rfl | ⟨h1, _, _⟩
  · decide
  · unfold isWhatwgStrip
    simp only [decide_eq_false_iff_not]
    omega

/-- Scheme detection on a well-shaped input: a non-empty, colon-free,
scheme-character scheme text followed by `:` splits off exactly
there. -/
theorem splitScheme_eq (S W : List Char) (hne : S ≠ [])
    (hcolon : ∀ c ∈ S, ¬ c = ':') (hsch : ∀ c ∈ S, isSchemeChar c = true)
    (halpha : isAsciiAlpha (S.headD ' ') = true) :
    splitScheme (S ++ ':' :: W) = (lc S, W) := by
  have hfi : (S ++ ':' :: W).findIdx? (· = ':') = some S.length := by
    rw [List.findIdx?_append,
      List.findIdx?_eq_none_iff.mpr (fun x hx => by simpa using hcolon x hx)]
    simp [List.findIdx?_cons]
  have htake : (S ++ ':' :: W).take S.length = S := List.take_left S (':' :: W)
  have hcc : 0 < S.length ∧ isAsciiAlpha ((S ++ ':' :: W).headD ' ') = true ∧
      ((S ++ ':' :: W).take S.length).all isSchemeChar = true := by
    have hpos : 0 < S.length := by
      cases S with | nil => exact absurd rfl hne | cons a b => simp
    have hhead : (S ++ ':' :: W).headD ' ' = S.headD ' ' := by
      cases S with | nil => exact absurd rfl hne | cons a b => rfl
    refine ⟨hpos, by rw [hhead]; exact halpha, ?_⟩
    rw [htake]
    exact List.all_eq_true.mpr hsch
  have hdrop : (S ++ ':' :: W).drop (S.length + 1) = W := by
    rw [← List.drop_drop, List.drop_left]
    rfl
  unfold splitScheme
  rw [hfi]
  simp only [if_pos hcc]
  rw [htake, hdrop]

/-- The combined bracket validation of `urlsplit`, as one predicate:
unbalanced brackets, or a bracketed host failing
`_check_bracketed_host`. -/
def bracketBad (nl : List Char) : Bool :=
  ((nl.contains '[' && ! nl.contains ']') || (nl.contains ']' && ! nl.contains '[')) ||
    (nl.contains '[' && nl.contains ']' && ! hostOk (bracketHost nl))

/-- The netloc `urlsplit` would examine (empty when no `//` prefix
follows the scheme). -/
def urlsplitNetloc (u : List Char) : List Char :=
  let ps := splitScheme (cleanUrl u)
  if ps.2.take 2 = ['/', '/'] then (splitNetloc ps.2).1 else []

/-- The only failure mode of `urlsplit` is the bracket validation of
the netloc. -/
theorem urlsplit_error_iff (u : List Char) :
    urlsplit u = .error () ↔ bracketBad (urlsplitNetloc u) = true := by
  simp only [urlsplit, urlsplitNetloc, bracketBad, checknetlocOk, if_true]
  by_cases h2 : (splitScheme (cleanUrl u)).2.take 2 = ['/', '/']
  · rw [if_pos h2, if_pos h2]
    set nl := (splitNetloc (splitScheme (cleanUrl u)).2).1
    by_cases hb1 : ((nl.contains '[' && ! nl.contains ']') ||
        (nl.contains ']' && ! nl.contains '[')) = true
    · rw [if_pos hb1]
      simp only [true_iff]
      simp at hb1 ⊢
      tauto
    · rw [if_neg hb1]
      by_cases hb2 : (nl.contains '[' && nl.contains ']' &&
          ! hostOk (bracketHost nl)) = true
      · rw [if_pos hb2]
        simp only [true_iff]
        simp at hb2 ⊢
        tauto
      · rw [if_neg hb2]
        simp at hb1 hb2 ⊢
        tauto
  · rw [if_neg h2, if_neg h2]
    simp

/-- Splitting a well-shaped manifest URL: lower-cased scheme text,
netloc up to the first delimiter of `W`, then fragment and query
splits. -/
theorem urlsplit_shaped (S W : List Char)
    (hS : lc S = "http".data ∨ lc S = "https".data)
    (hclean : NoUnsafe (S ++ ':' :: '/' :: '/' :: W)) :
    urlsplit (S ++ ':' :: '/' :: '/' :: W) =
      (let nl := W.takeWhile (fun c => ¬ isNetlocDelim c)
       let rest := W.dropWhile (fun c => ¬ isNetlocDelim c)
       if bracketBad nl then .error ()
       else
         let pf := splitAtFirst '#' rest
         let pq := splitAtFirst '?' pf.1
         .ok ⟨lc S, nl, pq.1, pq.2, pf.2⟩) := by
  have hSchars : ∀ c ∈ S, lcChar c = 'h' ∨ lcChar c = 't' ∨
      lcChar c = 'p' ∨ lcChar c = 's' := by
    intro c hc
    have hmm : lcChar c ∈ lc S := List.mem_map_of_mem lcChar hc
    rcases hS with h | h <;> rw [h] at hmm
    · rw [show "http".data = ['h', 't', 't', 'p'] from rfl] at hmm
      simp at hmm
      tauto
    · rw [show "https".data = ['h', 't', 't', 'p', 's'] from rfl] at hmm
      simp at hmm
      tauto
  have hne : S ≠ [] := by
    intro he
    rcases hS with h | h <;> (rw [he] at h; exact absurd h (by decide))
  have hhd : lcChar (S.headD ' ') = 'h' := by
    cases S with
    | nil => exact absurd rfl hne
    | cons c0 S0 =>
      rcases hS with h | h <;>
        simpa using congrArg (fun l => l.headD ' ') h
  have hcu : cleanUrl (S ++ ':' :: '/' :: '/' :: W) = S ++ ':' :: '/' :: '/' :: W := by
    refine cleanUrl_eq _ hclean ?_
    have : (S ++ ':' :: '/' :: '/' :: W).headD '!' = S.headD ' ' := by
      cases S with | nil => exact absurd rfl hne | cons a b => rfl
    rw [this]
    exact head_not_strip _ hhd
  have hss : splitScheme (cleanUrl (S ++ ':' :: '/' :: '/' :: W)) =
      (lc S, '/' :: '/' :: W) := by
    rw [hcu]
    refine splitScheme_eq S ('/' :: '/' :: W) hne ?_ ?_ ?_
    · intro c hc he
      subst he
      have hk := hSchars ':' hc
      rw [show lcChar ':' = ':' from by decide] at hk
      rcases hk with h | h | h | h <;> exact absurd h (by decide)
    · intro c hc
      rw [← isSchemeChar_lc c]
      rcases hSchars c hc with h | h | h | h <;> rw [h] <;> decide
    · rw [← isAsciiAlpha_lc, hhd]
      decide
  simp only [urlsplit]
  rw [hss]
  have hr1 : (if List.take 2 ((lc S, '/' :: '/' :: W) : List Char × List Char).2 = ['/', '/'] then
        splitNetloc ((lc S, '/' :: '/' :: W) : List Char × List Char).2
      else ([], ((lc S, '/' :: '/' :: W) : List Char × List Char).2)).1 =
      W.takeWhile (fun c => ¬ isNetlocDelim c) := rfl
  have hr2 : (if List.take 2 ((lc S, '/' :: '/' :: W) : List Char × List Char).2 = ['/', '/'] then
        splitNetloc ((lc S, '/' :: '/' :: W) : List Char × List Char).2
      else ([], ((lc S, '/' :: '/' :: W) : List Char × List Char).2)).2 =
      W.dropWhile (fun c => ¬ isNetlocDelim c) := rfl
  have hr0 : ((lc S, '/' :: '/' :: W) : List Char × List Char).1 = lc S := rfl
  rw [hr1, hr2, hr0]
  by_cases hbb : bracketBad (W.takeWhile (fun c => ¬ isNetlocDelim c)) = true
  · rw [if_pos hbb]
    unfold bracketBad at hbb
    rw [Bool.or_eq_true] at hbb
    rcases hbb with hA | hB
    · rw [if_pos hA]
    · by_cases hA : ((W.takeWhile (fun c => ¬ isNetlocDelim c)).contains '[' &&
          ! (W.takeWhile (fun c => ¬ isNetlocDelim c)).contains ']' ||
          (W.takeWhile (fun c => ¬ isNetlocDelim c)).contains ']' &&
          ! (W.takeWhile (fun c => ¬ isNetlocDelim c)).contains '[') = true
      · rw [if_pos hA]
      · rw [if_neg hA, if_pos hB]
  · rw [if_neg hbb]
    unfold bracketBad at hbb
    rw [Bool.or_eq_true] at hbb
    push_neg at hbb
    rw [if_neg hbb.1, if_neg hbb.2, if_pos (show checknetlocOk
      (W.takeWhile (fun c => ¬ isNetlocDelim c)) = true from rfl)]

/-- Rebuilding a well-shaped URL with non-empty netloc and a path that
is empty or absolute. -/
theorem urlunsplit_shaped (s n p : List Char) (hs : s ≠ []) (hn : n ≠ [])
    (hp : p = [] ∨ p.take 1 = ['/']) :
    urlunsplit s n p [] [] = s ++ ':' :: '/' :: '/' :: (n ++ p) := by
  have hp2 : ¬ (p ≠ [] ∧ p.take 1 ≠ ['/']) := by
    rintro ⟨hne, hone⟩
    exact hone (hp.resolve_left hne)
  simp only [urlunsplit]
  rw [if_pos (Or.inl hn), if_neg hp2, if_pos hs, if_neg (by simp), if_neg (by simp)]

/-! ### Claim C4 — normalize_m3u8 is not total -/

/-- C4 counterexample: `normalize_m3u8("http://[.m3u8")` raises
`ValueError: Invalid IPv6 URL` inside `urlsplit` (the netloc `[.m3u8`
has an unbalanced bracket), so the function does not return a
best-effort string for every input. -/
theorem C4_counterexample : normStr "http://[.m3u8" = .error () := rfl

/-- C4 amended: on ASCII input, `normalize_m3u8` never raises *except*
when the netloc of the extracted core fails `urlsplit`'s bracket
validation (an unbalanced `[`/`]`, or a bracketed host that is neither
an IPv6 literal — zone identifiers included — nor IPvFuture, or an
IPv4 address in brackets); in particular it returns a best-effort
string whenever that netloc contains no bracket at all.  Beyond ASCII,
CPython's `_checknetloc` NFKC validation is a further raise site (see
the header note), so the characterization is scoped by `Ascii`. -/
theorem C4_amended (u : List Char) (hA : Ascii u = true) :
    (normalize_m3u8 u = .error () ↔
      (u ≠ [] ∧ bracketBad (urlsplitNetloc ((searchCore u).getD u)) = true)) ∧
    ((urlsplitNetloc ((searchCore u).getD u)).contains '[' = false →
      (urlsplitNetloc ((searchCore u).getD u)).contains ']' = false →
      ∃ v, normalize_m3u8 u = .ok v) := by
  have hmain : normalize_m3u8 u = .error () ↔
      (u ≠ [] ∧ bracketBad (urlsplitNetloc ((searchCore u).getD u)) = true) := by
    by_cases hu : u = []
    · subst hu
      simp [normalize_m3u8]
    · simp only [normalize_m3u8, if_neg hu]
      cases hsp : urlsplit ((searchCore u).getD u) with
      | error e =>
        cases e
        exact iff_of_true rfl ⟨hu, (urlsplit_error_iff _).1 hsp⟩
      | ok p =>
        constructor
        · intro h
          exact Except.noConfusion h
        · rintro ⟨h1, hbad⟩
          rw [(urlsplit_error_iff _).2 hbad] at hsp
          exact Except.noConfusion hsp
  refine ⟨hmain, ?_⟩
  intro h1 h2
  cases hn : normalize_m3u8 u with
  | ok v => exact ⟨v, rfl⟩
  | error e =>
    cases e
    have := (hmain.1 hn).2
    unfold bracketBad at this
    rw [h1, h2] at this
    simp at this

/-- C4 witness: on the ASCII, bracket-free input `http://h/v.m3u8` the
amended statement yields a successful result. -/
theorem C4_witness :
    Ascii "http://h/v.m3u8".data = true ∧
    ∃ v, normalize_m3u8 "http://h/v.m3u8".data = .ok v :=
  ⟨by decide,
   (C4_amended "http://h/v.m3u8".data (by decide)).2 (by decide) (by decide)⟩

/-! ### Declarative shape of the manifest core -/

/-- A prefix match survives truncation beyond the pattern. -/
theorem ciBegins_take (pat l : List Char) (k : Nat) (h : ciBegins pat l = true)
    (hk : pat.length ≤ k) : ciBegins pat (l.take k) = true := by
  refine ciBegins_of_lc_take pat (l.take k) ?_ ?_
  · rw [List.length_take]
    have h1 := ciBegins_length pat l h
    omega
  · rw [List.take_take, Nat.min_eq_left hk]
    exact ciBegins_lc_take pat l h

/-- A prefix match on a truncation holds on the full string. -/
theorem ciBegins_of_take (pat l : List Char) (k : Nat)
    (h : ciBegins pat (l.take k) = true) : ciBegins pat l = true := by
  have h2 := ciBegins_append pat (l.take k) (l.drop k) h
  rwa [List.take_append_drop] at h2

/-- The two scheme alternatives of the manifest regex are mutually
exclusive (the fifth character would have to be both `s` and `:`). -/
theorem schemes_excl (s : List Char) (h : ciBegins schemeHttpsL s = true) :
    ciBegins schemeHttpL s = false := by
  cases h7 : ciBegins schemeHttpL s
  · rfl
  · exfalso
    have e8 : lc (s.take 8) = schemeHttpsL := ciBegins_lc_take _ _ h
    have e7 : lc (s.take 7) = schemeHttpL := ciBegins_lc_take _ _ h7
    have e78 : lc (s.take 7) = schemeHttpsL.take 7 := by
      rw [← e8, ← lc_take, List.take_take]
      norm_num
    rw [e7] at e78
    exact absurd e78 (by decide)

/-- The shape of a complete manifest-core string: `https?://`, one or
more non-quote characters, and the manifest extension right at the end,
all ASCII case-insensitive.  `searchCore` returns exactly the leftmost,
then shortest, substring of this shape. -/
def coreShape (m : List Char) : Bool :=
  (ciBegins schemeHttpsL m && decide (14 ≤ m.length) &&
    ((m.drop 8).take (m.length - 13)).all (fun c => ! isQuote c) &&
    ciBegins extPat (m.drop (m.length - 5))) ||
  (ciBegins schemeHttpL m && decide (13 ≤ m.length) &&
    ((m.drop 7).take (m.length - 12)).all (fun c => ! isQuote c) &&
    ciBegins extPat (m.drop (m.length - 5)))

/-- An anchored match never runs past the end of the string. -/
theorem matchAt_le_length (s : List Char) (n : Nat) (h : matchAt s = some n) :
    n ≤ s.length := by
  obtain ⟨sl, j, hsch, rfl, hle, _⟩ := matchAt_decomp s n h
  have hext5 : 5 ≤ ((s.drop sl).drop j).length := by
    simpa using ciBegins_length extPat _ hle.2.2
  rw [List.length_drop, List.length_drop] at hext5
  omega

/-- A scheme prefix followed by a lazy completion point yields a
core-shaped truncation. -/
theorem coreShape_of (s : List Char) (sl j : Nat)
    (hsch : (sl = 8 ∧ ciBegins schemeHttpsL s = true) ∨
      (sl = 7 ∧ ciBegins schemeHttpL s = true))
    (hle : LazyEnd (s.drop sl) j) :
    coreShape (s.take (sl + j + 5)) = true := by
  obtain ⟨hj1, hqf, hext⟩ := hle
  have hext5 : 5 ≤ ((s.drop sl).drop j).length := by
    simpa using ciBegins_length extPat _ hext
  have hns : sl + j + 5 ≤ s.length := by
    rw [List.length_drop, List.length_drop] at hext5
    omega
  have hlen : (s.take (sl + j + 5)).length = sl + j + 5 := by
    rw [List.length_take]
    omega
  have hdd : (s.drop sl).drop j = s.drop (sl + j) := by
    rw [List.drop_drop, Nat.add_comm]
  unfold coreShape
  rw [Bool.or_eq_true]
  rcases hsch with ⟨rfl, h8⟩ | ⟨rfl, h7⟩
  · refine Or.inl ?_
    simp only [Bool.and_eq_true]
    refine ⟨⟨⟨?_, ?_⟩, ?_⟩, ?_⟩
    · exact ciBegins_take _ _ _ h8 (by show (8 : Nat) ≤ 8 + j + 5; omega)
    · rw [hlen, decide_eq_true_eq]
      omega
    · have e1 : (8 : Nat) + j + 5 - 8 = j + 5 := by omega
      have e2 : (8 : Nat) + j + 5 - 13 = j := by omega
      rw [hlen, List.drop_take, e1, e2, List.take_take, Nat.min_eq_left (by omega)]
      rw [List.all_eq_true]
      intro c hc
      simp only [Bool.not_eq_true']
      exact hqf c hc
    · have e3 : (8 : Nat) + j + 5 - 5 = 8 + j := by omega
      have e4 : (8 : Nat) + j + 5 - (8 + j) = 5 := by omega
      rw [hlen, e3, List.drop_take, e4]
      refine ciBegins_take _ _ _ ?_ (by decide)
      rw [← hdd]
      exact hext
  · refine Or.inr ?_
    simp only [Bool.and_eq_true]
    refine ⟨⟨⟨?_, ?_⟩, ?_⟩, ?_⟩
    · exact ciBegins_take _ _ _ h7 (by show (7 : Nat) ≤ 7 + j + 5; omega)
    · rw [hlen, decide_eq_true_eq]
      omega
    · have e1 : (7 : Nat) + j + 5 - 7 = j + 5 := by omega
      have e2 : (7 : Nat) + j + 5 - 12 = j := by omega
      rw [hlen, List.drop_take, e1, e2, List.take_take, Nat.min_eq_left (by omega)]
      rw [List.all_eq_true]
      intro c hc
      simp only [Bool.not_eq_true']
      exact hqf c hc
    · have e3 : (7 : Nat) + j + 5 - 5 = 7 + j := by omega
      have e4 : (7 : Nat) + j + 5 - (7 + j) = 5 := by omega
      rw [hlen, e3, List.drop_take, e4]
      refine ciBegins_take _ _ _ ?_ (by decide)
      rw [← hdd]
      exact hext

/-- Conversely, a core-shaped truncation decomposes into a scheme
prefix and a lazy completion point. -/
theorem coreShape_elim (s : List Char) (n : Nat) (hn : n ≤ s.length)
    (h : coreShape (s.take n) = true) :
    ∃ sl j, ((sl = 8 ∧ ciBegins schemeHttpsL s = true) ∨
        (sl = 7 ∧ ciBegins schemeHttpL s = true)) ∧
      n = sl + j + 5 ∧ LazyEnd (s.drop sl) j := by
  have hlen : (s.take n).length = n := by
    rw [List.length_take]
    omega
  unfold coreShape at h
  rw [hlen, Bool.or_eq_true] at h
  rcases h with h | h
  · simp only [Bool.and_eq_true] at h
    obtain ⟨⟨⟨h1, h2⟩, h3⟩, h4⟩ := h
    rw [decide_eq_true_eq] at h2
    refine ⟨8, n - 13, .inl ⟨rfl, ciBegins_of_take _ s n h1⟩, by omega, by omega, ?_, ?_⟩
    · have e1 : n - 8 = (n - 13) + 5 := by omega
      rw [List.drop_take, e1, List.take_take, Nat.min_eq_left (by omega)] at h3
      rw [List.all_eq_true] at h3
      intro c hc
      have := h3 c hc
      rwa [Bool.not_eq_true'] at this
    · have e2 : n - (n - 5) = 5 := by omega
      rw [List.drop_take, e2] at h4
      have h5 := ciBegins_of_take _ _ _ h4
      have e3 : 8 + (n - 13) = n - 5 := by omega
      rwa [List.drop_drop, e3]
  · simp only [Bool.and_eq_true] at h
    obtain ⟨⟨⟨h1, h2⟩, h3⟩, h4⟩ := h
    rw [decide_eq_true_eq] at h2
    refine ⟨7, n - 12, .inr ⟨rfl, ciBegins_of_take _ s n h1⟩, by omega, by omega, ?_, ?_⟩
    · have e1 : n - 7 = (n - 12) + 5 := by omega
      rw [List.drop_take, e1, List.take_take, Nat.min_eq_left (by omega)] at h3
      rw [List.all_eq_true] at h3
      intro c hc
      have := h3 c hc
      rwa [Bool.not_eq_true'] at this
    · have e2 : n - (n - 5) = 5 := by omega
      rw [List.drop_take, e2] at h4
      have h5 := ciBegins_of_take _ _ _ h4
      have e3 : 7 + (n - 12) = n - 5 := by omega
      rwa [List.drop_drop, e3]

/-- An anchored match is the shortest core-shaped truncation. -/
theorem matchAt_coreShape (s : List Char) (n : Nat) (h : matchAt s = some n) :
    coreShape (s.take n) = true ∧ ∀ k < n, coreShape (s.take k) = false := by
  have hns := matchAt_le_length s n h
  obtain ⟨sl, j, hsch, rfl, hle, hmin⟩ := matchAt_decomp s n h
  have hsch' : (sl = 8 ∧ ciBegins schemeHttpsL s = true) ∨
      (sl = 7 ∧ ciBegins schemeHttpL s = true) :=
    hsch.imp id (fun x => ⟨x.1, x.2.2⟩)
  have hnn : sl + (j + 5) = sl + j + 5 := by omega
  constructor
  · rw [hnn]
    exact coreShape_of s sl j hsch' hle
  · intro k hk
    cases hcs : coreShape (s.take k)
    · rfl
    · exfalso
      obtain ⟨sl', j', hsch2, hk2, hle2⟩ := coreShape_elim s k (by omega) hcs
      rcases hsch with ⟨hsl, h8⟩ | ⟨hsl, h8f, h7⟩
      · rcases hsch2 with ⟨hsl', _⟩ | ⟨hsl', h7'⟩
        · subst hsl hsl'
          exact hmin j' (by omega) hle2
        · rw [schemes_excl s h8] at h7'
          cases h7'
      · rcases hsch2 with ⟨hsl', h8'⟩ | ⟨hsl', _⟩
        · rw [h8f] at h8'
          cases h8'
        · subst hsl hsl'
          exact hmin j' (by omega) hle2

/-- Any core-shaped truncation forces the anchored match to succeed. -/
theorem coreShape_matchAt (s : List Char) (n : Nat)
    (h : coreShape (s.take n) = true) : matchAt s ≠ none := by
  have h' : ∃ k, k ≤ s.length ∧ coreShape (s.take k) = true := by
    rcases Nat.le_total n s.length with hn | hn
    · exact ⟨n, hn, h⟩
    · refine ⟨s.length, Nat.le_refl _, ?_⟩
      rw [List.take_length, ← List.take_of_length_le hn]
      exact h
  obtain ⟨k, hk, hcs⟩ := h'
  obtain ⟨sl, j, hsch, _, hle⟩ := coreShape_elim s k hk hcs
  unfold matchAt
  rcases hsch with ⟨hsl, h8⟩ | ⟨hsl, h7⟩
  · rw [if_pos h8]
    subst hsl
    have hnz : lazyExt (s.drop 8) ≠ none := fun hnone =>
      (lazyExt_none _).1 hnone j hle
    cases hl : lazyExt (s.drop 8)
    · exact absurd hl hnz
    · simp
  · subst hsl
    by_cases h8 : ciBegins schemeHttpsL s = true
    · rw [schemes_excl s h8] at h7
      cases h7
    · rw [if_neg h8, if_pos h7]
      have hnz : lazyExt (s.drop 7) ≠ none := fun hnone =>
        (lazyExt_none _).1 hnone j hle
      cases hl : lazyExt (s.drop 7)
      · exact absurd hl hnz
      · simp

/-! ### The rebuilt URL carries no query or fragment characters -/

/-- A character-class invariant transfers along lower-casing. -/
theorem lc_all (P : Char → Bool) (hP : ∀ c, P (lcChar c) = P c) (l : List Char)
    (h : ∀ x ∈ l, P x = true) : ∀ x ∈ lc l, P x = true := by
  intro x hx
  obtain ⟨c, hc, rfl⟩ := List.mem_map.1 hx
  rw [hP]
  exact h c hc

/-- Every character of a detected scheme is a scheme character. -/
theorem splitScheme_sch (w : List Char) :
    ∀ x ∈ (splitScheme w).1, isSchemeChar x = true := by
  unfold splitScheme
  cases hf : w.findIdx? (· = ':') with
  | none =>
    intro x hx
    simp at hx
  | some i =>
    show ∀ x ∈ (if 0 < i ∧ isAsciiAlpha (w.headD ' ') = true ∧
        (w.take i).all isSchemeChar = true
      then (lc (w.take i), w.drop (i + 1)) else ([], w)).1, isSchemeChar x = true
    by_cases hc : 0 < i ∧ isAsciiAlpha (w.headD ' ') = true ∧
        (w.take i).all isSchemeChar = true
    · rw [if_pos hc]
      intro x hx
      obtain ⟨c, hcm, rfl⟩ := List.mem_map.1 hx
      rw [isSchemeChar_lc]
      exact List.all_eq_true.1 hc.2.2 c hcm
    · rw [if_neg hc]
      intro x hx
      simp at hx

/-- Structure of a successful `urlsplit`: the scheme is made of scheme
characters, the netloc stops before any `/?#`, and the path contains
neither `?` nor `#`. -/
theorem urlsplit_ok_facts (w : List Char) (parts : USplit)
    (h : urlsplit w = .ok parts) :
    (∀ x ∈ parts.scheme, isSchemeChar x = true) ∧
    (∀ x ∈ parts.netloc, isNetlocDelim x = false) ∧
    '?' ∉ parts.path ∧ '#' ∉ parts.path := by
  simp only [urlsplit] at h
  repeat' split at h
  all_goals try exact Except.noConfusion h
  all_goals injection h with h2
  all_goals subst h2
  · refine ⟨splitScheme_sch _, ?_, ?_, ?_⟩
    · intro x hx
      have hx2 : x ∈ ((splitScheme (cleanUrl w)).2.drop 2).takeWhile
          (fun c => ¬ isNetlocDelim c) := hx
      have hx3 := List.mem_takeWhile_imp hx2
      simpa using hx3
    · intro hx
      have hx2 : '?' ∈ ((splitAtFirst '#'
          (splitNetloc (splitScheme (cleanUrl w)).2).2).1).takeWhile (· ≠ '?') := hx
      have hx3 := List.mem_takeWhile_imp hx2
      simp at hx3
    · intro hx
      have hx2 : '#' ∈ ((splitAtFirst '#'
          (splitNetloc (splitScheme (cleanUrl w)).2).2).1).takeWhile (· ≠ '?') := hx
      have hx3 := List.takeWhile_subset _ hx2
      have hx4 : '#' ∈ ((splitNetloc
          (splitScheme (cleanUrl w)).2).2).takeWhile (· ≠ '#') := hx3
      have hx5 := List.mem_takeWhile_imp hx4
      simp at hx5
  · refine ⟨splitScheme_sch _, ?_, ?_, ?_⟩
    · intro x hx
      have hx2 : x ∈ ([] : List Char) := hx
      simp at hx2
    · intro hx
      have hx2 : '?' ∈ (((splitScheme (cleanUrl w)).2).takeWhile
          (· ≠ '#')).takeWhile (· ≠ '?') := hx
      have hx3 := List.mem_takeWhile_imp hx2
      simp at hx3
    · intro hx
      have hx2 : '#' ∈ (((splitScheme (cleanUrl w)).2).takeWhile
          (· ≠ '#')).takeWhile (· ≠ '?') := hx
      have hx3 := List.takeWhile_subset _ hx2
      have hx4 : '#' ∈ ((splitScheme (cleanUrl w)).2).takeWhile (· ≠ '#') := hx3
      have hx5 := List.mem_takeWhile_imp hx4
      simp at hx5

/-- `urlunsplit` with empty query and fragment introduces only `:` and
`/`: any other character of the result comes from a component. -/
theorem urlunsplit_mem (s n p : List Char) (x : Char) (hx1 : x ≠ ':') (hx2 : x ≠ '/')
    (hmem : x ∈ urlunsplit s n p [] []) : x ∈ s ∨ x ∈ n ∨ x ∈ p := by
  simp only [urlunsplit] at hmem
  rw [if_neg (by simp), if_neg (by simp)] at hmem
  by_cases hc1 : n ≠ [] ∨ (s ≠ [] ∧ usesNetloc.contains s ∧ p.take 2 ≠ ['/', '/'])
  · rw [if_pos hc1] at hmem
    by_cases hc2 : p ≠ [] ∧ p.take 1 ≠ ['/']
    · rw [if_pos hc2] at hmem
      by_cases hs : s ≠ []
      · rw [if_pos hs] at hmem
        simp only [List.mem_append, List.mem_cons] at hmem
        tauto
      · rw [if_neg hs] at hmem
        simp only [List.mem_append, List.mem_cons] at hmem
        tauto
    · rw [if_neg hc2] at hmem
      by_cases hs : s ≠ []
      · rw [if_pos hs] at hmem
        simp only [List.mem_append, List.mem_cons] at hmem
        tauto
      · rw [if_neg hs] at hmem
        simp only [List.mem_append, List.mem_cons] at hmem
        tauto
  · rw [if_neg hc1] at hmem
    by_cases hs : s ≠ []
    · rw [if_pos hs] at hmem
      simp only [List.mem_append, List.mem_cons] at hmem
      tauto
    · rw [if_neg hs] at hmem
      tauto

/-- On a non-empty input, `normalize_m3u8` is the rebuild mapped over
the split of the retained core. -/
theorem normalize_eq_map (u : List Char) (hne : u ≠ []) :
    normalize_m3u8 u = (urlsplit ((searchCore u).getD u)).map
      (fun q => urlunsplit (lc q.scheme) (lc q.netloc) q.path [] []) := by
  simp only [normalize_m3u8, if_neg hne]
  cases urlsplit ((searchCore u).getD u) <;> rfl

/-- Every successful `normalize_m3u8` output is free of `?` and `#`:
query and fragment are discarded and never re-introduced. -/
theorem normalize_no_qf (u v : List Char) (h : normalize_m3u8 u = .ok v) :
    '?' ∉ v ∧ '#' ∉ v := by
  by_cases hne : u = []
  · subst hne
    have hv : v = [] := by
      simpa [normalize_m3u8] using h.symm
    subst hv
    simp
  · rw [normalize_eq_map u hne] at h
    cases hsp : urlsplit ((searchCore u).getD u) with
    | error e =>
      rw [hsp] at h
      exact Except.noConfusion h
    | ok parts =>
      rw [hsp] at h
      injection h with hv
      subst hv
      obtain ⟨hsch, hnl, hq, hf⟩ := urlsplit_ok_facts _ _ hsp
      have hnl2 : ∀ x ∈ lc parts.netloc, (! isNetlocDelim x) = true :=
        lc_all (fun c => ! isNetlocDelim c) (fun c => by
            show (! isNetlocDelim (lcChar c)) = (! isNetlocDelim c)
            rw [isNetlocDelim_lc])
          parts.netloc (fun x hx => by
            show (! isNetlocDelim x) = true
            rw [hnl x hx]
            rfl)
      have hsch2 : ∀ x ∈ lc parts.scheme, isSchemeChar x = true :=
        lc_all isSchemeChar isSchemeChar_lc parts.scheme hsch
      constructor
      · intro hmem
        rcases urlunsplit_mem _ _ _ '?' (by decide) (by decide) hmem with h1 | h1 | h1
        · exact absurd (hsch2 '?' h1) (by decide)
        · exact absurd (hnl2 '?' h1) (by decide)
        · exact hq h1
      · intro hmem
        rcases urlunsplit_mem _ _ _ '#' (by decide) (by decide) hmem with h1 | h1 | h1
        · exact absurd (hsch2 '#' h1) (by decide)
        · exact absurd (hnl2 '#' h1) (by decide)
        · exact hf h1

/-! ### Claim C2 — the four-step canonicalization -/

/-- C2 counterexample: `normalize_m3u8` performs neither
percent-decoding nor redirect unwrapping.  A fully percent-encoded
manifest URL is returned unchanged, not decoded; a redirect-style
wrapper URL carrying an encoded inner manifest URL is truncated at its
query, not unwrapped to the decoded inner URL. -/
theorem C2_counterexample :
    normStr "https%3A%2F%2Fa.com%2Fv.m3u8" = .ok "https%3A%2F%2Fa.com%2Fv.m3u8" ∧
    "https%3A%2F%2Fa.com%2Fv.m3u8" ≠ "https://a.com/v.m3u8" ∧
    normStr "https://t.example/r?u=https%3A%2F%2Fcdn.example%2Fv.m3u8" =
      .ok "https://t.example/r" ∧
    "https://t.example/r" ≠ "https://cdn.example/v.m3u8" :=
  ⟨rfl, by decide, rfl, by decide⟩

/-- C2 amended: there is no unwrapping or percent-decoding step.  On
ASCII input the core retained by `normalize_m3u8` is the leftmost, then
shortest, substring of shape `https?://` + non-quote characters +
`.m3u8` (case-insensitively) when one exists, otherwise the whole
input; the core is split as a URL and rebuilt from the lower-cased
scheme, the lower-cased netloc and the original path, and every
successful output is free of `?` and `#` (query and fragment
discarded).  The `Ascii` scope is where this embedding of `str.lower()`
and `re.IGNORECASE` is exact: beyond ASCII CPython lower-cases by the
full Unicode tables and its `re.I` also matches e.g. `ſ` for the
literal `s` (see the header note). -/
theorem C2_amended (u : List Char) (hA : Ascii u = true) :
    (∀ m, searchCore u = some m →
      (∃ i, m = (u.drop i).take m.length ∧ coreShape m = true ∧
        (∀ k < m.length, coreShape ((u.drop i).take k) = false) ∧
        (∀ i' < i, ∀ k, coreShape ((u.drop i').take k) = false)) ∧
      normalize_m3u8 u = (urlsplit m).map
        (fun q => urlunsplit (lc q.scheme) (lc q.netloc) q.path [] [])) ∧
    (searchCore u = none → u ≠ [] →
      (∀ i k, coreShape ((u.drop i).take k) = false) ∧
      normalize_m3u8 u = (urlsplit u).map
        (fun q => urlunsplit (lc q.scheme) (lc q.netloc) q.path [] [])) ∧
    (∀ v, normalize_m3u8 u = .ok v → '?' ∉ v ∧ '#' ∉ v) := by
  refine ⟨?_, ?_, ?_⟩
  · intro m hsm
    have hne : u ≠ [] := by
      intro he
      subst he
      exact Option.noConfusion hsm
    obtain ⟨i, nn, hmAt, hmEq, hleft⟩ := searchCore_some_ex u m hsm
    have hms := matchAt_coreShape (u.drop i) nn hmAt
    have hlm : m.length = nn := by
      rw [hmEq, List.length_take]
      have := matchAt_le_length _ _ hmAt
      omega
    refine ⟨⟨i, ?_, ?_, ?_, ?_⟩, ?_⟩
    · rw [hlm]
      exact hmEq
    · rw [hmEq]
      exact hms.1
    · intro k hk
      rw [hlm] at hk
      exact hms.2 k hk
    · intro i' hi' k
      cases hcs : coreShape ((u.drop i').take k)
      · rfl
      · exact absurd (hleft i' hi') (coreShape_matchAt _ k hcs)
    · rw [normalize_eq_map u hne, hsm]
      rfl
  · intro hnone hne
    refine ⟨?_, ?_⟩
    · intro i k
      cases hcs : coreShape ((u.drop i).take k)
      · rfl
      · exact absurd ((searchCore_none_iff u).1 hnone i) (coreShape_matchAt _ k hcs)
    · rw [normalize_eq_map u hne, hnone]
      rfl
  · exact fun v hv => normalize_no_qf u v hv

/-- C2 witness: on the ASCII input `https://h/p.m3u8?x=1#f` the rebuild
equation holds for the extracted core `https://h/p.m3u8`, and the
output contains no `?` and no `#`. -/
theorem C2_amended_witness :
    Ascii "https://h/p.m3u8?x=1#f".data = true ∧
    (normalize_m3u8 "https://h/p.m3u8?x=1#f".data =
      (urlsplit "https://h/p.m3u8".data).map
        (fun q => urlunsplit (lc q.scheme) (lc q.netloc) q.path [] [])) ∧
    '?' ∉ "https://h/p.m3u8".data ∧ '#' ∉ "https://h/p.m3u8".data :=
  ⟨by decide,
   ((C2_amended "https://h/p.m3u8?x=1#f".data (by decide)).1
     "https://h/p.m3u8".data rfl).2,
   (C2_amended "https://h/p.m3u8?x=1#f".data (by decide)).2.2
     "https://h/p.m3u8".data rfl⟩

/-! ### Prefix, suffix and substring characterizations -/

/-- `beginsWith` is the prefix relation. -/
theorem beginsWith_iff (p l : List Char) :
    beginsWith p l = true ↔ ∃ t, l = p ++ t := by
  induction p generalizing l with
  | nil =>
    simp [beginsWith]
  | cons a ps ih =>
    cases l with
    | nil =>
      simp [beginsWith]
    | cons c cs =>
      show ((a = c : Bool) && beginsWith ps cs) = true ↔ _
      simp only [Bool.and_eq_true, decide_eq_true_eq, ih]
      constructor
      · rintro ⟨rfl, t, rfl⟩
        exact ⟨t, rfl⟩
      · rintro ⟨t, ht⟩
        injection ht with h1 h2
        exact ⟨h1.symm, t, h2⟩

/-- `endsWith` is the suffix relation. -/
theorem endsWith_iff (suf l : List Char) :
    endsWith suf l = true ↔ ∃ pre, l = pre ++ suf := by
  unfold endsWith
  rw [beginsWith_iff]
  constructor
  · rintro ⟨t, ht⟩
    refine ⟨t.reverse, ?_⟩
    have h2 := congrArg List.reverse ht
    simpa using h2
  · rintro ⟨pre, rfl⟩
    exact ⟨pre.reverse, by simp⟩

/-- `hasSub` is the substring (contiguous infix) relation. -/
theorem hasSub_iff (needle l : List Char) (hne : needle ≠ []) :
    hasSub needle l = true ↔ ∃ A B, l = A ++ needle ++ B := by
  induction l with
  | nil =>
    simp only [hasSub, List.isEmpty_eq_true]
    constructor
    · intro h
      exact absurd h hne
    · rintro ⟨A, B, hab⟩
      rcases List.append_eq_nil.mp (List.append_eq_nil.mp hab.symm).1 with ⟨-, h2⟩
      exact absurd h2 hne
  | cons c rest ih =>
    simp only [hasSub, Bool.or_eq_true, beginsWith_iff, ih]
    constructor
    · rintro (⟨t, ht⟩ | ⟨A, B, hab⟩)
      · exact ⟨[], t, by simpa using ht⟩
      · exact ⟨c :: A, B, by simp [hab]⟩
    · rintro ⟨A, B, hab⟩
      cases A with
      | nil =>
        exact .inl ⟨B, by simpa using hab⟩
      | cons a A2 =>
        injection hab with h1 h2
        exact .inr ⟨A2, B, h2⟩

/-- A suffix occurrence is in particular a substring occurrence. -/
theorem endsWith_hasSub (suf l : List Char) (hne : suf ≠ [])
    (h : endsWith suf l = true) : hasSub suf l = true := by
  rw [endsWith_iff] at h
  obtain ⟨pre, rfl⟩ := h
  rw [hasSub_iff suf _ hne]
  exact ⟨pre, [], by simp⟩

/-- A character whose lower-casing is not a lower-case letter is fixed,
so equals its image. -/
theorem lcChar_eq_sym (c x : Char) (hx : x.toNat < 97 ∨ 122 < x.toNat)
    (h : lcChar c = x) : c = x := by
  rcases lcChar_eq_elim c x h with h1 | ⟨h1, h2, h3⟩
  · exact h1
  · exfalso
    omega

/-- Code points of the characters that lower-case into the manifest
extension `.m3u8`. -/
theorem ext_char_nat (e x : Char) (he : x ∈ extPat) (h : lcChar e = x) :
    e.toNat = 46 ∨ e.toNat = 109 ∨ e.toNat = 77 ∨ e.toNat = 51 ∨
    e.toNat = 117 ∨ e.toNat = 85 ∨ e.toNat = 56 := by
  fin_cases he <;>
    rcases lcChar_eq_elim e _ h with rfl | ⟨h1, h2, h3⟩ <;>
    first
      | decide
      | (simp only [show ('.').toNat = 46 from rfl, show ('m').toNat = 109 from rfl,
          show ('3').toNat = 51 from rfl, show ('u').toNat = 117 from rfl,
          show ('8').toNat = 56 from rfl] at h3
         omega)

/-- Characters lower-casing into the extension are neither URL
delimiters, quotes, nor strippable/removable bytes. -/
theorem ext_char_ne (e x : Char) (he : x ∈ extPat) (h : lcChar e = x) :
    e ≠ ':' ∧ e ≠ '/' ∧ e ≠ '?' ∧ e ≠ '#' ∧ isQuote e = false ∧
    isWhatwgStrip e = false ∧ isNetlocDelim e = false := by
  have hn := ext_char_nat e x he h
  refine ⟨?_, ?_, ?_, ?_, ?_, ?_, ?_⟩
  · intro hh
    rw [charEq_iff, show (':').toNat = 58 from rfl] at hh
    omega
  · intro hh
    rw [charEq_iff, show ('/').toNat = 47 from rfl] at hh
    omega
  · intro hh
    rw [charEq_iff, show ('?').toNat = 63 from rfl] at hh
    omega
  · intro hh
    rw [charEq_iff, show ('#').toNat = 35 from rfl] at hh
    omega
  · simp only [isQuote, decide_eq_false_iff_not, not_or]
    constructor
    · intro hh
      rw [charEq_iff, show ('"').toNat = 34 from rfl] at hh
      omega
    · intro hh
      rw [charEq_iff, show ('\'').toNat = 39 from rfl] at hh
      omega
  · simp only [isWhatwgStrip, decide_eq_false_iff_not]
    omega
  · simp only [isNetlocDelim, decide_eq_false_iff_not, not_or]
    refine ⟨?_, ?_, ?_⟩
    · intro hh
      rw [charEq_iff, show ('/').toNat = 47 from rfl] at hh
      omega
    · intro hh
      rw [charEq_iff, show ('?').toNat = 63 from rfl] at hh
      omega
    · intro hh
      rw [charEq_iff, show ('#').toNat = 35 from rfl] at hh
      omega

/-- Membership of a character that lower-casing moves nothing onto and
does not move is invariant under `lc`. -/
theorem mem_lc_fixed (l : List Char) (x : Char)
    (hx1 : x.toNat < 97 ∨ 122 < x.toNat)
    (hx2 : ¬ (65 ≤ x.toNat ∧ x.toNat ≤ 90)) :
    x ∈ lc l ↔ x ∈ l := by
  constructor
  · intro h
    obtain ⟨c, hc, hlc⟩ := List.mem_map.1 h
    rwa [← lcChar_eq_sym c x hx1 hlc]
  · intro h
    have h2 := List.mem_map_of_mem lcChar h
    rwa [lcChar_fix x hx2] at h2

/-- The head of a non-empty `dropWhile` falsifies the predicate. -/
theorem dropWhile_head_false (p : Char → Bool) (l : List Char) (c : Char)
    (t : List Char) (h : l.dropWhile p = c :: t) : p c = false := by
  induction l with
  | nil => cases h
  | cons a rest ih =>
    rw [List.dropWhile_cons] at h
    by_cases hp : p a = true
    · rw [if_pos hp] at h
      exact ih h
    · rw [if_neg hp] at h
      injection h with h1 _
      rw [← h1]
      exact eq_false_of_ne_true hp

/-- A string beginning case-insensitively with `https://` literally
carries the `://` characters after a scheme text lower-casing to
`https`. -/
theorem https_shape (s : List Char) (h : ciBegins schemeHttpsL s = true) :
    ∃ S, lc S = "https".data ∧ s = S ++ ':' :: '/' :: '/' :: s.drop 8 := by
  rcases s with _ | ⟨c0, _ | ⟨c1, _ | ⟨c2, _ | ⟨c3, _ | ⟨c4, _ | ⟨c5, _ | ⟨c6, _ | ⟨c7, rest⟩⟩⟩⟩⟩⟩⟩⟩ <;>
    simp [schemeHttpsL, ciBegins] at h
  obtain ⟨h0, h1, h2, h3, h4, h5, h6, h7⟩ := h
  have e5 : c5 = ':' := lcChar_eq_sym _ _ (.inl (by decide)) h5
  have e6 : c6 = '/' := lcChar_eq_sym _ _ (.inl (by decide)) h6
  have e7 : c7 = '/' := lcChar_eq_sym _ _ (.inl (by decide)) h7
  subst e5 e6 e7
  refine ⟨[c0, c1, c2, c3, c4], ?_, rfl⟩
  rw [show "https".data = ['h', 't', 't', 'p', 's'] from rfl]
  simp [lc, h0, h1, h2, h3, h4]

/-- Same for the 7-character prefix `http://`. -/
theorem http_shape (s : List Char) (h : ciBegins schemeHttpL s = true) :
    ∃ S, lc S = "http".data ∧ s = S ++ ':' :: '/' :: '/' :: s.drop 7 := by
  rcases s with _ | ⟨c0, _ | ⟨c1, _ | ⟨c2, _ | ⟨c3, _ | ⟨c4, _ | ⟨c5, _ | ⟨c6, rest⟩⟩⟩⟩⟩⟩⟩ <;>
    simp [schemeHttpL, ciBegins] at h
  obtain ⟨h0, h1, h2, h3, h4, h5, h6⟩ := h
  have e4 : c4 = ':' := lcChar_eq_sym _ _ (.inl (by decide)) h4
  have e5 : c5 = '/' := lcChar_eq_sym _ _ (.inl (by decide)) h5
  have e6 : c6 = '/' := lcChar_eq_sym _ _ (.inl (by decide)) h6
  subst e4 e5 e6
  refine ⟨[c0, c1, c2, c3], ?_, rfl⟩
  rw [show "http".data = ['h', 't', 't', 'p'] from rfl]
  simp [lc, h0, h1, h2, h3]

/-- The result of the fragment/query `takeWhile` chain on a string that
is empty or starts with a netloc delimiter: it is empty or starts with
`/`. -/
theorem path_take_shape (rest : List Char)
    (hh : rest = [] ∨ ∃ d t, rest = d :: t ∧ isNetlocDelim d = true) :
    ((rest.takeWhile (· ≠ '#')).takeWhile (· ≠ '?')) = [] ∨
    ((rest.takeWhile (· ≠ '#')).takeWhile (· ≠ '?')).take 1 = ['/'] := by
  rcases hh with rfl | ⟨d, t, rfl, hd⟩
  · exact .inl rfl
  · simp only [isNetlocDelim, decide_eq_true_eq] at hd
    rcases hd with rfl | rfl | rfl
    · refine .inr ?_
      rw [List.takeWhile_cons, if_pos (by decide), List.takeWhile_cons,
        if_pos (by decide)]
      rfl
    · refine .inl ?_
      rw [List.takeWhile_cons, if_pos (by decide), List.takeWhile_cons,
        if_neg (by decide)]
    · refine .inl ?_
      rw [List.takeWhile_cons, if_neg (by decide)]
      rfl

/-- Characters of an `lc`-variant prefix come from the original,
up to lower-casing. -/
theorem mem_lcvariant (A W : List Char) (k : Nat) (hrel : lc A = (lc W).take k)
    (c : Char) (hc : c ∈ A) : ∃ d ∈ W, lcChar d = lcChar c := by
  have h1 : lcChar c ∈ lc A := List.mem_map_of_mem lcChar hc
  rw [hrel] at h1
  have h2 := List.take_subset k (lc W) h1
  obtain ⟨d, hd, hdd⟩ := List.mem_map.1 h2
  exact ⟨d, hd, hdd⟩

/-- `lc` maps nothing to the empty list but the empty list. -/
theorem lc_eq_nil (l : List Char) : lc l = [] ↔ l = [] := by
  unfold lc
  exact List.map_eq_nil_iff

/-- Rebuilt URLs are their own retained core: on `S0://W2` where `W2`
is an `lc`-variant prefix of a string `W` that is quote-free and has no
interior extension occurrence, the manifest regex either matches the
whole string or nothing, so `normalize_m3u8` keeps the whole string as
its core. -/
theorem core_self (S0 W2 W : List Char)
    (hS0 : S0 = "http".data ∨ S0 = "https".data)
    (hWrel : lc W2 = (lc W).take W2.length)
    (hlen : W2.length ≤ W.length)
    (hW6 : 6 ≤ W.length)
    (hWq : ∀ c ∈ W, isQuote c = false)
    (hWext : ciBegins extPat (W.drop (W.length - 5)) = true)
    (hWmin : ∀ t, 1 ≤ t → t < W.length - 5 → ciBegins extPat (W.drop t) = false) :
    (searchCore (S0 ++ ':' :: '/' :: '/' :: W2)).getD (S0 ++ ':' :: '/' :: '/' :: W2) =
      S0 ++ ':' :: '/' :: '/' :: W2 := by
  set v := S0 ++ ':' :: '/' :: '/' :: W2 with hvdef
  have hv : v = (S0 ++ [':', '/', '/']) ++ W2 := by
    rw [hvdef]
    simp
  have hvW : ∀ t, v.drop (S0.length + 3 + t) = W2.drop t := by
    intro t
    rw [hv]
    have hpl : (S0 ++ [':', '/', '/']).length = S0.length + 3 := by
      simp
    rw [← hpl, List.drop_append]
  have hvlen : v.length = S0.length + 3 + W2.length := by
    rw [hv]
    simp
    omega
  -- any ext occurrence in W2 at a positive offset is the terminal one
  have hOcc : ∀ t, 1 ≤ t → ciBegins extPat (W2.drop t) = true →
      t = W.length - 5 ∧ W2.length = W.length := by
    intro t ht hci
    have hlt : t + 5 ≤ W2.length := by
      have := ciBegins_length extPat _ hci
      rw [List.length_drop] at this
      simp only [extPat, List.length_cons, List.length_nil] at this
      omega
    have htr : ciBegins extPat (W.drop t) = true := by
      have e1 : lc (W2.drop t) = ((lc W).drop t).take (W2.length - t) := by
        rw [lc_drop, hWrel, List.drop_take]
      have h2 : ciBegins extPat (lc (W2.drop t)) = true := by
        rw [ciBegins_lc]
        exact hci
      rw [e1] at h2
      have h3 := ciBegins_of_take _ _ _ h2
      rwa [← lc_drop, ciBegins_lc] at h3
    by_cases hcase : t < W.length - 5
    · rw [hWmin t ht hcase] at htr
      cases htr
    · omega
  -- scheme prefix facts
  have hdisj : (S0.length + 3 = 8 ∧ ciBegins schemeHttpsL v = true) ∨
      (S0.length + 3 = 7 ∧ ciBegins schemeHttpsL v = false ∧
        ciBegins schemeHttpL v = true) := by
    rcases hS0 with rfl | rfl
    · refine .inr ⟨by decide, ?_, ?_⟩
      · have h7 : ciBegins schemeHttpL v = true := by
          refine ciBegins_of_lc_take _ _ ?_ ?_
          · rw [hvlen]
            show 7 ≤ 4 + 3 + W2.length
            omega
          · show lc (v.take 7) = schemeHttpL
            rw [hvdef]
            rfl
        cases hh : ciBegins schemeHttpsL v
        · rfl
        · rw [schemes_excl v hh] at h7
          cases h7
      · refine ciBegins_of_lc_take _ _ ?_ ?_
        · rw [hvlen]
          show 7 ≤ 4 + 3 + W2.length
          omega
        · show lc (v.take 7) = schemeHttpL
          rw [hvdef]
          rfl
    · refine .inl ⟨by decide, ?_⟩
      refine ciBegins_of_lc_take _ _ ?_ ?_
      · rw [hvlen]
        show 8 ≤ 5 + 3 + W2.length
        omega
      · show lc (v.take 8) = schemeHttpsL
        rw [hvdef]
        rfl
  by_cases hB : W2.length = W.length
  · -- the string ends in the extension: the regex matches all of it
    have hj2 : 1 ≤ W2.length - 5 := by omega
    have hle2 : LazyEnd (v.drop (S0.length + 3)) (W2.length - 5) := by
      have hdv : v.drop (S0.length + 3) = W2 := by
        have := hvW 0
        simpa using this
      rw [hdv]
      refine ⟨hj2, ?_, ?_⟩
      · intro c hc
        have hcW2 : c ∈ W2 := List.take_subset _ _ hc
        obtain ⟨d, hd, hdd⟩ := mem_lcvariant W2 W W2.length hWrel c hcW2
        have := hWq d hd
        rw [← isQuote_lc d, hdd, isQuote_lc] at this
        exact this
      · have e1 : lc (W2.drop (W2.length - 5)) = lc (W.drop (W.length - 5)) := by
          rw [lc_drop, lc_drop, hWrel, hB, ← lc_length W, List.take_length]
        have h2 : ciBegins extPat (lc (W2.drop (W2.length - 5))) = true := by
          rw [e1, ciBegins_lc]
          exact hWext
        rwa [ciBegins_lc] at h2
    have hmin2 : ∀ j' < W2.length - 5, ¬ LazyEnd (v.drop (S0.length + 3)) j' := by
      have hdv : v.drop (S0.length + 3) = W2 := by
        have := hvW 0
        simpa using this
      rw [hdv]
      intro j' hj' hle'
      obtain ⟨h1, -, h3⟩ := hle'
      have := hOcc j' h1 h3
      omega
    have hmt : matchAt v = some ((S0.length + 3) + ((W2.length - 5) + 5)) := by
      refine matchAt_of_decomp v (S0.length + 3) (W2.length - 5) ?_ hle2 hmin2
      rcases hdisj with ⟨h1, h2⟩ | ⟨h1, h2, h3⟩
      · exact .inl ⟨h1, h2⟩
      · exact .inr ⟨h1, h2, h3⟩
    have hsc : searchCore v = some (v.take ((S0.length + 3) + ((W2.length - 5) + 5))) :=
      searchCore_of_matchAt v _ hmt
    have hfull : v.take ((S0.length + 3) + ((W2.length - 5) + 5)) = v := by
      have : (S0.length + 3) + ((W2.length - 5) + 5) = v.length := by
        rw [hvlen]
        omega
      rw [this, List.take_length]
    rw [hsc, hfull]
    rfl
  · -- the extension was cut off: the regex matches nowhere
    have hnone : searchCore v = none := by
      rw [searchCore_none_iff]
      intro i2
      cases hmt : matchAt (v.drop i2) with
      | none => rfl
      | some k =>
        exfalso
        obtain ⟨sl2, j2, hsch2, -, hle3, -⟩ := matchAt_decomp _ _ hmt
        have hext3 := hle3.2.2
        have hj21 := hle3.1
        have hdd : ((v.drop i2).drop sl2).drop j2 = v.drop (i2 + sl2 + j2) := by
          rw [List.drop_drop, List.drop_drop]
          have h9 : i2 + (sl2 + j2) = i2 + sl2 + j2 := by omega
          rw [h9]
        rw [hdd] at hext3
        have hq : S0.length + 3 + 1 ≤ i2 + sl2 + j2 := by
          rcases hdisj with ⟨h1, h2⟩ | ⟨h1, h2, h3⟩
          · -- https: a 7-scheme match at position 0 is impossible
            rcases hsch2 with ⟨hsl, -⟩ | ⟨hsl, hns, -⟩
            · omega
            · rcases Nat.eq_zero_or_pos i2 with rfl | hpos
              · rw [List.drop_zero] at hns
                rw [h2] at hns
                cases hns
              · omega
          · rcases hsch2 with ⟨hsl, -⟩ | ⟨hsl, -, -⟩ <;> omega
        obtain ⟨t, htdef⟩ : ∃ t, i2 + sl2 + j2 = S0.length + 3 + t :=
          ⟨i2 + sl2 + j2 - (S0.length + 3), by omega⟩
        have ht1 : 1 ≤ t := by omega
        rw [htdef, hvW t] at hext3
        have := hOcc t ht1 hext3
        omega
    rw [hnone]
    rfl

/-- Rebuilt URLs are fixed points: on `S0://N P` with a lower-cased,
delimiter-free, bracket-free, non-empty netloc `N`, an absolute or
empty path `P` free of `?` and `#`, and `N ++ P` an `lc`-variant prefix
of the first pass's post-scheme text `W` (quote-free, extension exactly
at its end), a second `normalize_m3u8` returns the string unchanged. -/
theorem normalize_fixed (S0 N P W : List Char)
    (hS0 : S0 = "http".data ∨ S0 = "https".data)
    (hN : N ≠ []) (hNd : ∀ c ∈ N, isNetlocDelim c = false)
    (hNlc : lc N = N)
    (hNb1 : N.contains '[' = false) (hNb2 : N.contains ']' = false)
    (hP : P = [] ∨ P.take 1 = ['/'])
    (hPq : '?' ∉ P) (hPf : '#' ∉ P)
    (hsafe : NoUnsafe (N ++ P))
    (hWrel : lc (N ++ P) = (lc W).take (N ++ P).length)
    (hlen : (N ++ P).length ≤ W.length)
    (hW6 : 6 ≤ W.length)
    (hWq : ∀ c ∈ W, isQuote c = false)
    (hWext : ciBegins extPat (W.drop (W.length - 5)) = true)
    (hWmin : ∀ t, 1 ≤ t → t < W.length - 5 → ciBegins extPat (W.drop t) = false) :
    normalize_m3u8 (S0 ++ ':' :: '/' :: '/' :: (N ++ P)) =
      .ok (S0 ++ ':' :: '/' :: '/' :: (N ++ P)) := by
  set v := S0 ++ ':' :: '/' :: '/' :: (N ++ P) with hvdef
  have hvne : v ≠ [] := by
    rw [hvdef]
    rcases hS0 with rfl | rfl <;> simp
  have hcore := core_self S0 (N ++ P) W hS0 hWrel hlen hW6 hWq hWext hWmin
  have hlcS0 : lc S0 = S0 := by
    rcases hS0 with rfl | rfl <;> decide
  have hS0ne : S0 ≠ [] := by
    rcases hS0 with rfl | rfl <;> decide
  have h1 : (N ++ P).takeWhile (fun c => ¬ isNetlocDelim c) = N ∧
      (N ++ P).dropWhile (fun c => ¬ isNetlocDelim c) = P := by
    have hNd2 : ∀ c ∈ N, (fun c => (¬ isNetlocDelim c : Bool)) c = true := by
      intro c hc
      simp [hNd c hc]
    rcases hP with rfl | hP1
    · have := takeWhile_all (fun c => (¬ isNetlocDelim c : Bool)) N hNd2
      rw [List.append_nil]
      exact this
    · cases P with
      | nil => cases hP1
      | cons d Pt =>
        have hd : d = '/' := by
          have : [d] = ['/'] := hP1
          injection this with h _
        subst hd
        exact takeWhile_append_cons (fun c => (¬ isNetlocDelim c : Bool)) N '/' Pt
          hNd2 (by decide)
  have hm1 : '[' ∉ N := by
    simpa using hNb1
  have hm2 : ']' ∉ N := by
    simpa using hNb2
  have h3 : bracketBad N = false := by
    simp [bracketBad, hm1, hm2]
  have h4 : splitAtFirst '#' P = (P, []) :=
    splitAtFirst_not_mem _ _ (fun x hx he => hPf (he ▸ hx))
  have h5 : splitAtFirst '?' P = (P, []) :=
    splitAtFirst_not_mem _ _ (fun x hx he => hPq (he ▸ hx))
  have hclean : NoUnsafe v := by
    intro c hc
    rw [hvdef] at hc
    simp only [List.mem_append, List.mem_cons] at hc
    rcases hc with hc | rfl | rfl | rfl | hc | hc
    · rcases hS0 with rfl | rfl <;> (fin_cases hc <;> decide)
    · decide
    · decide
    · decide
    · exact hsafe c (List.mem_append.mpr (.inl hc))
    · exact hsafe c (List.mem_append.mpr (.inr hc))
  have hsplit : urlsplit v = .ok ⟨S0, N, P, [], []⟩ := by
    have hshaped := urlsplit_shaped S0 (N ++ P) (by rw [hlcS0]; exact hS0) hclean
    rw [hvdef, hshaped]
    simp only [h1.1, h1.2, h3, h4, h5, hlcS0]
    rw [if_neg (by simp)]
  simp only [normalize_m3u8, if_neg hvne]
  rw [hcore, hsplit]
  show Except.ok (urlunsplit (lc S0) (lc N) P [] []) = Except.ok v
  rw [hlcS0, hNlc, urlunsplit_shaped S0 N P hS0ne hN hP]

/-- The lowered netloc glued to a prefix of the remainder is an
`lc`-variant prefix of the whole post-scheme text. -/
theorem lcvariant_prefix (NL RE P tl W : List Char)
    (hW : NL ++ RE = W) (htl : P ++ tl = RE) :
    lc (lc NL ++ P) = (lc W).take ((lc NL ++ P).length) := by
  subst hW
  subst htl
  rw [lc_append, lc_idem, List.length_append, lc_length, lc_append, lc_append,
    show NL.length = (lc NL).length from (lc_length NL).symm, List.take_append,
    show P.length = (lc P).length from (lc_length P).symm, List.take_left]

/-- Its length is bounded by the post-scheme text's length. -/
theorem lcvariant_len (NL RE P tl W : List Char)
    (hW : NL ++ RE = W) (htl : P ++ tl = RE) :
    (lc NL ++ P).length ≤ W.length := by
  subst hW
  subst htl
  simp only [List.length_append, lc_length]
  omega

/-! ### Claim C3 — idempotence of normalization -/

/-- C3 counterexample: `normalize_m3u8` is not idempotent.
`shttp:x.m3u8` normalizes to `shttp:///x.m3u8` (the `shttp` scheme is
in `uses_netloc`, so `urlunsplit` inserts `//` before the empty netloc
and the absolutized path), but normalizing that result again finds the
embedded `http:///x.m3u8` via the regex and returns it — a different
string. -/
theorem C3_counterexample :
    normStr "shttp:x.m3u8" = .ok "shttp:///x.m3u8" ∧
    normStr "shttp:///x.m3u8" = .ok "http:///x.m3u8" ∧
    "shttp:///x.m3u8" ≠ "http:///x.m3u8" :=
  ⟨rfl, rfl, by decide⟩

/-- C3 amended: idempotence is not universal, but holds on every ASCII,
tab/CR/LF-free input on which the manifest regex finds a core whose
authority is non-empty and bracket-free: the first pass returns the
rebuilt core and a second pass returns it unchanged.  The `Ascii` scope
is where this embedding of `str.lower()`, `re.IGNORECASE` and
`_checknetloc` is exact (see the header note); beyond it CPython's
NFKC netloc check can raise on the first pass (e.g. for `℀` in the
authority). -/
theorem C3_amended (u m : List Char) (p : USplit)
    (hclean : NoUnsafe u) (hA : Ascii u = true)
    (hm : searchCore u = some m) (hp : urlsplit m = .ok p)
    (hnl : p.netloc ≠ [])
    (hbr1 : p.netloc.contains '[' = false)
    (hbr2 : p.netloc.contains ']' = false) :
    ∃ v, normalize_m3u8 u = .ok v ∧ normalize_m3u8 v = .ok v ∧
      v = urlunsplit (lc p.scheme) (lc p.netloc) p.path [] [] := by
  have hne : u ≠ [] := by
    intro he
    subst he
    exact Option.noConfusion hm
  -- first pass value
  have hpass1 : normalize_m3u8 u =
      .ok (urlunsplit (lc p.scheme) (lc p.netloc) p.path [] []) := by
    rw [normalize_eq_map u hne, hm]
    show (urlsplit m).map _ = _
    rw [hp]
    rfl
  -- decompose the match
  obtain ⟨i, n, hmAt, hmEq, -⟩ := searchCore_some_ex u m hm
  obtain ⟨sl, j, hsch, hn, hle, hmin⟩ := matchAt_decomp _ _ hmAt
  have hns : n ≤ (u.drop i).length := matchAt_le_length _ _ hmAt
  have hmsub : ∀ c ∈ m, c ∈ u := by
    intro c hc
    rw [hmEq] at hc
    exact List.drop_subset i u (List.take_subset n _ hc)
  have hcleanm : NoUnsafe m := fun c hc => hclean c (hmsub c hc)
  have hsl3 : 3 ≤ sl := by
    rcases hsch with ⟨rfl, -⟩ | ⟨rfl, -, -⟩ <;> omega
  -- the post-scheme text W
  have hWm : m.drop sl = ((u.drop i).drop sl).take (j + 5) := by
    rw [hmEq, List.drop_take]
    have e : n - sl = j + 5 := by omega
    rw [e]
  have hWlen : (m.drop sl).length = j + 5 := by
    rw [hWm, List.length_take, List.length_drop]
    omega
  have hWtake : ∀ t, t ≤ j → (m.drop sl).take t = ((u.drop i).drop sl).take t := by
    intro t ht
    rw [hWm, List.take_take, Nat.min_eq_left (by omega)]
  have hWdropj : (m.drop sl).drop j = (((u.drop i).drop sl).drop j).take 5 := by
    rw [hWm, List.drop_take]
    have e : j + 5 - j = 5 := by omega
    rw [e]
  have hlcdropj : lc ((m.drop sl).drop j) = extPat := by
    rw [hWdropj]
    have h2 := ciBegins_lc_take extPat _ hle.2.2
    exact h2
  have hWq : ∀ c ∈ m.drop sl, isQuote c = false := by
    intro c hc
    rw [← List.take_append_drop j (m.drop sl), List.mem_append] at hc
    rcases hc with hc | hc
    · rw [hWtake j (le_refl j)] at hc
      exact hle.2.1 c hc
    · have hlcm : lcChar c ∈ extPat := by
        rw [← hlcdropj]
        exact List.mem_map_of_mem lcChar hc
      exact (ext_char_ne c _ hlcm rfl).2.2.2.2.1
  have hWext : ciBegins extPat ((m.drop sl).drop ((m.drop sl).length - 5)) = true := by
    rw [hWlen]
    have e : j + 5 - 5 = j := by omega
    rw [e]
    refine ciBegins_of_lc_take _ _ ?_ ?_
    · rw [List.length_drop, hWlen]
      show 5 ≤ j + 5 - j
      omega
    · rw [List.take_of_length_le, hlcdropj]
      rw [List.length_drop, hWlen]
      show j + 5 - j ≤ 5
      omega
  have hWmin : ∀ t, 1 ≤ t → t < (m.drop sl).length - 5 →
      ciBegins extPat ((m.drop sl).drop t) = false := by
    intro t ht1 ht2
    rw [hWlen] at ht2
    cases hcb : ciBegins extPat ((m.drop sl).drop t)
    · rfl
    · exfalso
      have h2 : ciBegins extPat (((u.drop i).drop sl).drop t) = true := by
        have e1 : (m.drop sl).drop t = (((u.drop i).drop sl).drop t).take (j + 5 - t) := by
          rw [hWm, List.drop_take]
        rw [e1] at hcb
        exact ciBegins_of_take _ _ _ hcb
      refine hmin t (by omega) ⟨ht1, ?_, h2⟩
      intro c hc
      have e2 : ((u.drop i).drop sl).take t = (((u.drop i).drop sl).take j).take t := by
        rw [List.take_take, Nat.min_eq_left (by omega : t ≤ j)]
      rw [e2] at hc
      exact hle.2.1 c (List.take_subset _ _ hc)
  -- scheme shape of the core
  have hshape : ∃ S, (lc S = "http".data ∨ lc S = "https".data) ∧
      m = S ++ ':' :: '/' :: '/' :: m.drop sl := by
    rcases hsch with ⟨rfl, h8⟩ | ⟨rfl, -, h7⟩
    · have h8m : ciBegins schemeHttpsL m = true := by
        rw [hmEq]
        exact ciBegins_take _ _ _ h8 (by show 8 ≤ n; omega)
      obtain ⟨S, hS1, hS2⟩ := https_shape m h8m
      exact ⟨S, .inr hS1, hS2⟩
    · have h7m : ciBegins schemeHttpL m = true := by
        rw [hmEq]
        exact ciBegins_take _ _ _ h7 (by show 7 ≤ n; omega)
      obtain ⟨S, hS1, hS2⟩ := http_shape m h7m
      exact ⟨S, .inl hS1, hS2⟩
  obtain ⟨S, hS01, hSm⟩ := hshape
  -- urlsplit of the core
  have hshaped := urlsplit_shaped S (m.drop sl) hS01 (by rw [← hSm]; exact hcleanm)
  rw [← hSm] at hshaped
  rw [hshaped] at hp
  simp only [] at hp
  by_cases hbb : bracketBad ((m.drop sl).takeWhile (fun c => ¬ isNetlocDelim c)) = true
  · rw [if_pos hbb] at hp
    exact Except.noConfusion hp
  rw [if_neg hbb] at hp
  injection hp with hpe
  subst hpe
  -- name the components
  have hnl2 : (m.drop sl).takeWhile (fun c => ¬ isNetlocDelim c) ≠ [] := hnl
  have hbr1b : ((m.drop sl).takeWhile (fun c => ¬ isNetlocDelim c)).contains '[' = false := hbr1
  have hbr2b : ((m.drop sl).takeWhile (fun c => ¬ isNetlocDelim c)).contains ']' = false := hbr2
  have hrestHead : (m.drop sl).dropWhile (fun c => ¬ isNetlocDelim c) = [] ∨
      ∃ d t, (m.drop sl).dropWhile (fun c => ¬ isNetlocDelim c) = d :: t ∧
        isNetlocDelim d = true := by
    cases hre : (m.drop sl).dropWhile (fun c => ¬ isNetlocDelim c) with
    | nil => exact .inl rfl
    | cons d t =>
      refine .inr ⟨d, t, rfl, ?_⟩
      have := dropWhile_head_false _ _ _ _ hre
      simpa using this
  have hPshape :
      ((((m.drop sl).dropWhile (fun c => ¬ isNetlocDelim c)).takeWhile
        (· ≠ '#')).takeWhile (· ≠ '?')) = [] ∨
      ((((m.drop sl).dropWhile (fun c => ¬ isNetlocDelim c)).takeWhile
        (· ≠ '#')).takeWhile (· ≠ '?')).take 1 = ['/'] :=
    path_take_shape _ hrestHead
  have hNne : lc ((m.drop sl).takeWhile (fun c => ¬ isNetlocDelim c)) ≠ [] := by
    rw [Ne, lc_eq_nil]
    exact hnl2
  have hS0ne : lc S ≠ [] := by
    rcases hS01 with h | h <;> (rw [h]; decide)
  have hNd : ∀ c ∈ lc ((m.drop sl).takeWhile (fun c => ¬ isNetlocDelim c)),
      isNetlocDelim c = false := by
    intro c hc
    obtain ⟨d, hd, rfl⟩ := List.mem_map.1 hc
    have h2 := List.mem_takeWhile_imp hd
    rw [isNetlocDelim_lc]
    simpa using h2
  have hNb1 : (lc ((m.drop sl).takeWhile (fun c => ¬ isNetlocDelim c))).contains '['
      = false := by
    have hnm : '[' ∉ (m.drop sl).takeWhile (fun c => ¬ isNetlocDelim c) := by
      simpa using hbr1b
    have hnm2 : '[' ∉ lc ((m.drop sl).takeWhile (fun c => ¬ isNetlocDelim c)) := by
      rw [mem_lc_fixed _ _ (.inl (by decide)) (by decide)]
      exact hnm
    simpa using hnm2
  have hNb2 : (lc ((m.drop sl).takeWhile (fun c => ¬ isNetlocDelim c))).contains ']'
      = false := by
    have hnm : ']' ∉ (m.drop sl).takeWhile (fun c => ¬ isNetlocDelim c) := by
      simpa using hbr2b
    have hnm2 : ']' ∉ lc ((m.drop sl).takeWhile (fun c => ¬ isNetlocDelim c)) := by
      rw [mem_lc_fixed _ _ (.inl (by decide)) (by decide)]
      exact hnm
    simpa using hnm2
  have hPq : '?' ∉ (((m.drop sl).dropWhile (fun c => ¬ isNetlocDelim c)).takeWhile
      (· ≠ '#')).takeWhile (· ≠ '?') := by
    intro hmem
    have := List.mem_takeWhile_imp hmem
    simp at this
  have hPf : '#' ∉ (((m.drop sl).dropWhile (fun c => ¬ isNetlocDelim c)).takeWhile
      (· ≠ '#')).takeWhile (· ≠ '?') := by
    intro hmem
    have h2 := List.takeWhile_subset _ hmem
    have := List.mem_takeWhile_imp h2
    simp at this
  have hPpre : (((m.drop sl).dropWhile (fun c => ¬ isNetlocDelim c)).takeWhile
      (· ≠ '#')).takeWhile (· ≠ '?') <+:
      (m.drop sl).dropWhile (fun c => ¬ isNetlocDelim c) :=
    (List.takeWhile_prefix _).trans (List.takeWhile_prefix _)
  obtain ⟨tl, htl⟩ := hPpre
  have hWnr : (m.drop sl).takeWhile (fun c => ¬ isNetlocDelim c) ++
      (m.drop sl).dropWhile (fun c => ¬ isNetlocDelim c) = m.drop sl :=
    List.takeWhile_append_dropWhile _ _
  have hsafe : NoUnsafe (lc ((m.drop sl).takeWhile (fun c => ¬ isNetlocDelim c)) ++
      ((((m.drop sl).dropWhile (fun c => ¬ isNetlocDelim c)).takeWhile
        (· ≠ '#')).takeWhile (· ≠ '?'))) := by
    intro c hc
    rw [List.mem_append] at hc
    rcases hc with hc | hc
    · obtain ⟨d, hd, rfl⟩ := List.mem_map.1 hc
      have hdu : d ∈ u := hmsub d (List.drop_subset sl m (List.takeWhile_subset _ hd))
      rw [isUnsafeByte_lc]
      exact hclean d hdu
    · have hcu : c ∈ u := hmsub c (List.drop_subset sl m
        (List.dropWhile_subset _ (List.takeWhile_subset _ (List.takeWhile_subset _ hc))))
      exact hclean c hcu
  have hWrel := lcvariant_prefix _ _ _ tl _ hWnr htl
  have hlen2 := lcvariant_len _ _ _ tl _ hWnr htl
  have hW6 : 6 ≤ (m.drop sl).length := by
    rw [hWlen]
    have := hle.1
    omega
  -- second pass
  refine ⟨_, hpass1, ?_, rfl⟩
  dsimp only
  simp only [splitAtFirst]
  rw [lc_idem]
  rw [urlunsplit_shaped _ _ _ hS0ne hNne hPshape]
  exact normalize_fixed (lc S) _ _ (m.drop sl) hS01 hNne hNd (lc_idem _) hNb1 hNb2
    hPshape hPq hPf hsafe hWrel hlen2 hW6 hWq hWext hWmin

/-- C3 witness: on the ASCII input `https://Host/v.m3u8` the amended
statement yields the stable normal form `https://host/v.m3u8`. -/
theorem C3_amended_witness :
    ∃ v, normalize_m3u8 "https://Host/v.m3u8".data = .ok v ∧
      normalize_m3u8 v = .ok v ∧
      v = urlunsplit
        (lc (⟨"https".data, "Host".data, "/v.m3u8".data, [], []⟩ : USplit).scheme)
        (lc (⟨"https".data, "Host".data, "/v.m3u8".data, [], []⟩ : USplit).netloc)
        (⟨"https".data, "Host".data, "/v.m3u8".data, [], []⟩ : USplit).path [] [] :=
  C3_amended "https://Host/v.m3u8".data "https://Host/v.m3u8".data
    ⟨"https".data, "Host".data, "/v.m3u8".data, [], []⟩
    (by unfold NoUnsafe; decide) (by decide) rfl rfl (by decide) rfl rfl

/-! ### Clean-up structure and occurrence-pushing lemmas -/

/-- On tab/CR/LF-free input the clean-up is just the left strip. -/
theorem cleanUrl_of_clean (w : List Char) (h : NoUnsafe w) :
    cleanUrl w = w.dropWhile isWhatwgStrip := by
  unfold cleanUrl
  exact List.filter_eq_self.mpr (fun a ha =>
    by simpa using h a (List.dropWhile_subset _ ha))

/-- Clean-up only removes characters. -/
theorem cleanUrl_subset (w : List Char) : cleanUrl w ⊆ w := by
  intro c hc
  unfold cleanUrl at hc
  exact List.dropWhile_subset _ (List.mem_of_mem_filter hc)

/-- The cleaned string never contains tab, CR or LF. -/
theorem cleanUrl_clean (w : List Char) :
    ∀ c ∈ cleanUrl w, isUnsafeByte c = false := by
  intro c hc
  unfold cleanUrl at hc
  have := List.of_mem_filter hc
  simpa using this

/-- A suffix at least as long as the pattern inherits the suffix
occurrence. -/
theorem suffix_transfer (A B X E : List Char) (h : A ++ B = X ++ E)
    (hlen : E.length ≤ B.length) : ∃ X2, B = X2 ++ E := by
  rw [List.append_eq_append_iff] at h
  rcases h with ⟨m, hm1, hm2⟩ | ⟨m, hm1, hm2⟩
  · exact ⟨m, hm2⟩
  · have hml : m = [] := by
      have h1 := congrArg List.length hm2
      rw [List.length_append] at h1
      have : m.length = 0 := by omega
      exact List.eq_nil_of_length_eq_zero this
    subst hml
    rw [List.nil_append] at hm2
    exact ⟨[], by rw [List.nil_append, hm2]⟩

/-- Pushing a terminal extension occurrence across a leading block
whose last character cannot lower-case into the extension. -/
theorem ends_ext_push (A B X : List Char)
    (h : lc (A ++ B) = X ++ extPat)
    (hlast : ∀ d, A.getLast? = some d →
      isWhatwgStrip d = true ∨ d = ':' ∨ d = '/') :
    5 ≤ B.length ∧ ∃ X2, lc B = X2 ++ extPat := by
  rw [lc_append] at h
  by_cases hb5 : 5 ≤ B.length
  · refine ⟨hb5, ?_⟩
    exact suffix_transfer (lc A) (lc B) X extPat h
      (by rw [lc_length]; simpa using hb5)
  · exfalso
    rw [List.append_eq_append_iff] at h
    rcases h with ⟨m, hm1, hm2⟩ | ⟨m, hm1, hm2⟩
    · have hlb := congrArg List.length hm2
      rw [List.length_append, lc_length] at hlb
      simp only [extPat, List.length_cons, List.length_nil] at hlb
      omega
    · have hmlen := congrArg List.length hm2
      rw [List.length_append, lc_length] at hmlen
      simp only [extPat, List.length_cons, List.length_nil] at hmlen
      have hmne : m ≠ [] := by
        intro he
        subst he
        simp only [List.length_nil] at hmlen
        omega
      cases hml : m.getLast? with
      | none => exact hmne (List.getLast?_eq_none_iff.mp hml)
      | some e =>
        have heext : e ∈ extPat := by
          rw [hm2]
          exact List.mem_append.mpr (.inl (List.mem_of_mem_getLast? hml))
        have hAlast : (lc A).getLast? = some e := by
          rw [hm1, List.getLast?_append_of_ne_nil _ hmne]
          exact hml
        rw [show lc A = A.map lcChar from rfl, List.getLast?_map] at hAlast
        cases hAl : A.getLast? with
        | none =>
          rw [hAl] at hAlast
          cases hAlast
        | some d =>
          rw [hAl] at hAlast
          injection hAlast with hde
          have hfacts := ext_char_ne d e heext hde
          rcases hlast d hAl with hh | hh | hh
          · rw [hfacts.2.2.2.2.2.1] at hh
            cases hh
          · exact hfacts.1 hh
          · exact hfacts.2.1 hh

/-- Same pushing step at the netloc/path junction: an empty-or-absolute
path either is empty (the occurrence sits in the first block) or is at
least as long as the extension and carries it. -/
theorem ends_ext_push2 (A B X : List Char)
    (h : lc (A ++ B) = X ++ extPat)
    (hB : B = [] ∨ B.take 1 = ['/']) :
    (B = [] ∧ ∃ X2, lc A = X2 ++ extPat) ∨
    (5 ≤ B.length ∧ ∃ X2, lc B = X2 ++ extPat) := by
  rcases hB with rfl | hB1
  · rw [List.append_nil] at h
    exact .inl ⟨rfl, X, h⟩
  · refine .inr ?_
    rw [lc_append] at h
    by_cases hb5 : 5 ≤ B.length
    · refine ⟨hb5, ?_⟩
      exact suffix_transfer (lc A) (lc B) X extPat h
        (by rw [lc_length]; simpa using hb5)
    · exfalso
      have hBne : B ≠ [] := by
        intro he
        subst he
        cases hB1
      have hslash : '/' ∈ B := by
        cases B with
        | nil => exact absurd rfl hBne
        | cons b bs =>
          have : [b] = ['/'] := hB1
          injection this with hb _
          rw [hb]
          exact .head _
      rw [List.append_eq_append_iff] at h
      rcases h with ⟨m, hm1, hm2⟩ | ⟨m, hm1, hm2⟩
      · have hlb := congrArg List.length hm2
        rw [List.length_append, lc_length] at hlb
        simp only [extPat, List.length_cons, List.length_nil] at hlb
        omega
      · have hmem : '/' ∈ extPat := by
          rw [hm2]
          refine List.mem_append.mpr (.inr ?_)
          have := List.mem_map_of_mem lcChar hslash
          rwa [show lcChar '/' = '/' from rfl] at this
        exact absurd hmem (by decide)

/-- An occurrence of a block free of a separator character lies
entirely on one side of that separator. -/
theorem infix_avoid (X Y A B E : List Char) (c : Char)
    (h : X ++ c :: Y = A ++ E ++ B) (hc : c ∉ E) :
    (∃ A2 B2, X = A2 ++ E ++ B2) ∨ (∃ A2 B2, Y = A2 ++ E ++ B2) := by
  rw [List.append_eq_append_iff] at h
  rcases h with ⟨m, hm1, hm2⟩ | ⟨m, hm1, hm2⟩
  · cases m with
    | nil =>
      rw [List.append_nil] at hm1
      refine .inl ⟨A, [], ?_⟩
      rw [List.append_nil]
      exact hm1.symm
    | cons m0 ms =>
      injection hm2 with hc0 hY
      subst hc0
      rw [List.append_eq_append_iff] at hm1
      rcases hm1 with ⟨m2, hn1, hn2⟩ | ⟨m2, hn1, hn2⟩
      · exact absurd (by rw [hn2]; exact List.mem_append.mpr (.inr (.head _))) hc
      · cases m2 with
        | nil =>
          rw [List.nil_append] at hn2
          exact absurd (by rw [← hn2]; exact .head _) hc
        | cons q qs =>
          injection hn2 with _ hms
          refine .inr ⟨qs, B, ?_⟩
          rw [hY, hms]
          rfl
  · refine .inl ⟨A, m, ?_⟩
    rw [hm1, List.append_assoc]

/-- A list whose first two characters are `//` decomposes. -/
theorem take2_shape (l : List Char) (h : l.take 2 = ['/', '/']) :
    l = '/' :: '/' :: l.drop 2 := by
  cases l with
  | nil => cases h
  | cons a l1 =>
    cases l1 with
    | nil => cases h
    | cons b l2 =>
      injection h with h1 h2
      injection h2 with h2 _
      subst h1
      subst h2
      rfl

/-- The scheme split removes a (possibly empty) prefix ending in `:`. -/
theorem splitScheme_pre (x : List Char) :
    ∃ pre, pre ++ (splitScheme x).2 = x ∧
      (pre = [] ∨ pre.getLast? = some ':') := by
  unfold splitScheme
  cases hf : x.findIdx? (· = ':') with
  | none => exact ⟨[], rfl, .inl rfl⟩
  | some i =>
    show ∃ pre, pre ++ (if 0 < i ∧ isAsciiAlpha (x.headD ' ') = true ∧
        (x.take i).all isSchemeChar = true
      then (lc (x.take i), x.drop (i + 1)) else ([], x)).2 = x ∧
      (pre = [] ∨ pre.getLast? = some ':')
    by_cases hcnd : 0 < i ∧ isAsciiAlpha (x.headD ' ') = true ∧
        (x.take i).all isSchemeChar = true
    · rw [if_pos hcnd]
      obtain ⟨hilen, hpi, -⟩ := List.findIdx?_eq_some_iff_getElem.mp hf
      refine ⟨x.take (i + 1), ?_, .inr ?_⟩
      · exact List.take_append_drop (i + 1) x
      · rw [List.take_succ, List.getElem?_eq_getElem hilen,
          show (some x[i]).toList = [x[i]] from rfl,
          List.getLast?_append_of_ne_nil _ (by simp)]
        show some x[i] = some ':'
        simp only [decide_eq_true_eq] at hpi
        rw [hpi]
    · rw [if_neg hcnd]
      exact ⟨[], rfl, .inl rfl⟩

/-- The detected scheme is the lower-casing of a prefix of the
input. -/
theorem splitScheme_fst (x : List Char) :
    ∃ i, (splitScheme x).1 = lc (x.take i) := by
  unfold splitScheme
  cases hf : x.findIdx? (· = ':') with
  | none => exact ⟨0, rfl⟩
  | some i =>
    show ∃ k, (if 0 < i ∧ isAsciiAlpha (x.headD ' ') = true ∧
        (x.take i).all isSchemeChar = true
      then (lc (x.take i), x.drop (i + 1)) else ([], x)).1 = lc (x.take k)
    by_cases hcnd : 0 < i ∧ isAsciiAlpha (x.headD ' ') = true ∧
        (x.take i).all isSchemeChar = true
    · rw [if_pos hcnd]
      exact ⟨i, rfl⟩
    · rw [if_neg hcnd]
      exact ⟨0, rfl⟩

/-- A successful `urlsplit` reports the detected scheme. -/
theorem urlsplit_ok_scheme (w : List Char) (parts : USplit)
    (hsp : urlsplit w = .ok parts) :
    parts.scheme = (splitScheme (cleanUrl w)).1 := by
  simp only [urlsplit] at hsp
  repeat' split at hsp
  all_goals try exact Except.noConfusion hsp
  all_goals injection hsp with h2
  all_goals subst h2
  all_goals rfl

/-- Structure of a successful `urlsplit`: the cleaned input splits as a
prefix ending in `:` or `/` (or empty), the netloc glued to the path,
and a remainder that is empty whenever the cleaned input has no query
or fragment; moreover a non-empty netloc forces an empty or absolute
path. -/
theorem urlsplit_ok_shape3 (w : List Char) (parts : USplit)
    (hsp : urlsplit w = .ok parts) :
    ∃ pre post, cleanUrl w = pre ++ (parts.netloc ++ parts.path) ++ post ∧
      (pre = [] ∨ pre.getLast? = some ':' ∨ pre.getLast? = some '/') ∧
      (parts.netloc = [] ∨ parts.path = [] ∨ parts.path.take 1 = ['/']) ∧
      ('?' ∉ cleanUrl w → '#' ∉ cleanUrl w → post = []) := by
  obtain ⟨pre1, hpre1, hpre1c⟩ := splitScheme_pre (cleanUrl w)
  simp only [urlsplit] at hsp
  repeat' split at hsp
  all_goals try exact Except.noConfusion hsp
  all_goals injection hsp with h2
  all_goals subst h2
  · rename_i ht2 hbb1 hbb2 hcn
    dsimp only
    simp only [splitNetloc, splitAtFirst]
    have hps2 := take2_shape _ ht2
    obtain ⟨tl, htl⟩ : ((((splitScheme (cleanUrl w)).2.drop 2).dropWhile
          (fun c => ¬ isNetlocDelim c)).takeWhile (· ≠ '#')).takeWhile (· ≠ '?') <+:
        ((splitScheme (cleanUrl w)).2.drop 2).dropWhile (fun c => ¬ isNetlocDelim c) :=
      (List.takeWhile_prefix _).trans (List.takeWhile_prefix _)
    have hrsub : ∀ cx ∈ ((splitScheme (cleanUrl w)).2.drop 2).dropWhile
        (fun c => ¬ isNetlocDelim c), cx ∈ cleanUrl w := by
      intro cx hcx
      rw [← hpre1]
      exact List.mem_append.mpr (.inr
        (List.drop_subset 2 _ (List.dropWhile_subset _ hcx)))
    refine ⟨pre1 ++ ['/', '/'], tl, ?_, ?_, ?_, ?_⟩
    · conv_lhs => rw [← hpre1, hps2,
        ← List.takeWhile_append_dropWhile (fun c => ¬ isNetlocDelim c)
          ((splitScheme (cleanUrl w)).2.drop 2), ← htl]
      simp [List.append_assoc]
    · refine .inr (.inr ?_)
      rw [List.getLast?_append_of_ne_nil _ (by simp)]
      rfl
    · refine .inr ?_
      refine path_take_shape _ ?_
      cases hre : ((splitScheme (cleanUrl w)).2.drop 2).dropWhile
          (fun c => ¬ isNetlocDelim c) with
      | nil => exact .inl rfl
      | cons d t =>
        refine .inr ⟨d, t, rfl, ?_⟩
        have := dropWhile_head_false _ _ _ _ hre
        simpa using this
    · intro hqm hfm
      have h1 : (((splitScheme (cleanUrl w)).2.drop 2).dropWhile
          (fun c => ¬ isNetlocDelim c)).takeWhile (· ≠ '#') =
          ((splitScheme (cleanUrl w)).2.drop 2).dropWhile
            (fun c => ¬ isNetlocDelim c) := by
        refine (takeWhile_all _ _ ?_).1
        intro a ha
        simp only [ne_eq, decide_eq_true_eq]
        intro he
        subst he
        exact hfm (hrsub _ ha)
      have h2 : ((((splitScheme (cleanUrl w)).2.drop 2).dropWhile
          (fun c => ¬ isNetlocDelim c)).takeWhile (· ≠ '#')).takeWhile (· ≠ '?') =
          (((splitScheme (cleanUrl w)).2.drop 2).dropWhile
            (fun c => ¬ isNetlocDelim c)).takeWhile (· ≠ '#') := by
        refine (takeWhile_all _ _ ?_).1
        intro a ha
        simp only [ne_eq, decide_eq_true_eq]
        intro he
        subst he
        exact hqm (hrsub _ (List.takeWhile_subset _ ha))
      rw [h2, h1] at htl
      have hlen := congrArg List.length htl
      rw [List.length_append] at hlen
      exact List.eq_nil_of_length_eq_zero (by omega)
  · rename_i ht2 hbb1 hbb2 hcn
    dsimp only
    simp only [splitAtFirst]
    obtain ⟨tl, htl⟩ : (((splitScheme (cleanUrl w)).2.takeWhile
          (· ≠ '#')).takeWhile (· ≠ '?')) <+: (splitScheme (cleanUrl w)).2 :=
      (List.takeWhile_prefix _).trans (List.takeWhile_prefix _)
    have hrsub : ∀ cx ∈ (splitScheme (cleanUrl w)).2, cx ∈ cleanUrl w := by
      intro cx hcx
      rw [← hpre1]
      exact List.mem_append.mpr (.inr hcx)
    refine ⟨pre1, tl, ?_, ?_, Or.inl (by trivial), ?_⟩
    · conv_lhs => rw [← hpre1, ← htl]
      simp [List.append_assoc]
    · rcases hpre1c with h | h
      · exact .inl h
      · exact .inr (.inl h)
    · intro hqm hfm
      have h1 : ((splitScheme (cleanUrl w)).2).takeWhile (· ≠ '#') =
          (splitScheme (cleanUrl w)).2 := by
        refine (takeWhile_all _ _ ?_).1
        intro a ha
        simp only [ne_eq, decide_eq_true_eq]
        intro he
        subst he
        exact hfm (hrsub _ ha)
      have h2 : (((splitScheme (cleanUrl w)).2).takeWhile (· ≠ '#')).takeWhile
          (· ≠ '?') = ((splitScheme (cleanUrl w)).2).takeWhile (· ≠ '#') := by
        refine (takeWhile_all _ _ ?_).1
        intro a ha
        simp only [ne_eq, decide_eq_true_eq]
        intro he
        subst he
        exact hqm (hrsub _ (List.takeWhile_subset _ ha))
      rw [h2, h1] at htl
      have hlen := congrArg List.length htl
      rw [List.length_append] at hlen
      exact List.eq_nil_of_length_eq_zero (by omega)

/-- Every character of a rebuilt URL comes from a component or is one
of the two inserted separators. -/
theorem urlunsplit_mem2 (s n p : List Char) (x : Char)
    (hmem : x ∈ urlunsplit s n p [] []) :
    x ∈ s ∨ x ∈ n ∨ x ∈ p ∨ x = ':' ∨ x = '/' := by
  simp only [urlunsplit] at hmem
  rw [if_neg (by simp), if_neg (by simp)] at hmem
  by_cases hc1 : n ≠ [] ∨ (s ≠ [] ∧ usesNetloc.contains s ∧ p.take 2 ≠ ['/', '/'])
  · rw [if_pos hc1] at hmem
    by_cases hc2 : p ≠ [] ∧ p.take 1 ≠ ['/']
    · rw [if_pos hc2] at hmem
      by_cases hs : s ≠ []
      · rw [if_pos hs] at hmem
        simp only [List.mem_append, List.mem_cons] at hmem
        tauto
      · rw [if_neg hs] at hmem
        simp only [List.mem_append, List.mem_cons] at hmem
        tauto
    · rw [if_neg hc2] at hmem
      by_cases hs : s ≠ []
      · rw [if_pos hs] at hmem
        simp only [List.mem_append, List.mem_cons] at hmem
        tauto
      · rw [if_neg hs] at hmem
        simp only [List.mem_append, List.mem_cons] at hmem
        tauto
  · rw [if_neg hc1] at hmem
    by_cases hs : s ≠ []
    · rw [if_pos hs] at hmem
      simp only [List.mem_append, List.mem_cons] at hmem
      tauto
    · rw [if_neg hs] at hmem
      tauto

/-- Components of a successful `urlsplit` carry no tab, CR or LF. -/
theorem urlsplit_ok_clean (w : List Char) (parts : USplit)
    (hsp : urlsplit w = .ok parts) :
    NoUnsafe parts.scheme ∧ NoUnsafe parts.netloc ∧ NoUnsafe parts.path := by
  obtain ⟨pre, post, hshape, -, -, -⟩ := urlsplit_ok_shape3 w parts hsp
  have hnp : ∀ c ∈ parts.netloc ++ parts.path, c ∈ cleanUrl w := by
    intro c hc
    rw [hshape]
    exact List.mem_append.mpr (.inl (List.mem_append.mpr (.inr hc)))
  refine ⟨?_, ?_, ?_⟩
  · obtain ⟨i, hi⟩ := splitScheme_fst (cleanUrl w)
    rw [urlsplit_ok_scheme w parts hsp, hi]
    intro c hc
    obtain ⟨d, hd, rfl⟩ := List.mem_map.1 hc
    rw [isUnsafeByte_lc]
    exact cleanUrl_clean w d (List.take_subset _ _ hd)
  · intro c hc
    exact cleanUrl_clean w c (hnp c (List.mem_append.mpr (.inl hc)))
  · intro c hc
    exact cleanUrl_clean w c (hnp c (List.mem_append.mpr (.inr hc)))

/-- Successful `normalize_m3u8` outputs carry no tab, CR or LF. -/
theorem normalize_ok_clean (u v : List Char) (h : normalize_m3u8 u = .ok v) :
    NoUnsafe v := by
  by_cases hne : u = []
  · subst hne
    have hv : v = [] := by
      simpa [normalize_m3u8] using h.symm
    subst hv
    intro c hc
    cases hc
  · rw [normalize_eq_map u hne] at h
    cases hsp : urlsplit ((searchCore u).getD u) with
    | error e =>
      rw [hsp] at h
      exact Except.noConfusion h
    | ok parts =>
      rw [hsp] at h
      injection h with hv
      subst hv
      obtain ⟨hs, hn, hp⟩ := urlsplit_ok_clean _ _ hsp
      intro c hc
      rcases urlunsplit_mem2 _ _ _ c hc with h1 | h1 | h1 | rfl | rfl
      · obtain ⟨d, hd, rfl⟩ := List.mem_map.1 h1
        rw [isUnsafeByte_lc]
        exact hs d hd
      · obtain ⟨d, hd, rfl⟩ := List.mem_map.1 h1
        rw [isUnsafeByte_lc]
        exact hn d hd
      · exact hp c h1
      · decide
      · decide

/-- A retained core ends in the extension, case-insensitively. -/
theorem searchCore_ends_ext (u m : List Char) (h : searchCore u = some m) :
    endsWith extPat (lc m) = true := by
  obtain ⟨i, n, hmAt, hmEq, -⟩ := searchCore_some_ex u m h
  obtain ⟨sl, j, hsch, hn, hle, -⟩ := matchAt_decomp _ _ hmAt
  have hns : n ≤ (u.drop i).length := matchAt_le_length _ _ hmAt
  have hWdropj : (m.drop sl).drop j = (((u.drop i).drop sl).drop j).take 5 := by
    rw [hmEq, List.drop_take]
    have e : n - sl = j + 5 := by omega
    rw [e, List.drop_take]
    have e2 : j + 5 - j = 5 := by omega
    rw [e2]
  have hlcdropj : lc ((m.drop sl).drop j) = extPat := by
    rw [hWdropj]
    exact ciBegins_lc_take extPat _ hle.2.2
  rw [endsWith_iff]
  refine ⟨lc (m.take (sl + j)), ?_⟩
  rw [← hlcdropj, ← lc_append]
  rw [List.drop_drop, List.take_append_drop]

/-- A retained core is a contiguous infix of the input. -/
theorem searchCore_infix (u m : List Char) (h : searchCore u = some m) :
    ∃ A B, u = A ++ m ++ B := by
  obtain ⟨i, n, hmAt, hmEq, -⟩ := searchCore_some_ex u m h
  refine ⟨u.take i, ((u.drop i).drop n), ?_⟩
  rw [hmEq, List.append_assoc, List.take_append_drop, List.take_append_drop]

/-- A string with a suffix whose lower-casing ends in the extension
itself ends in the extension after lower-casing. -/
theorem endsWith_lc_suffix (y P : List Char) (hsuf : ∃ A, y = A ++ P)
    (hP : ∃ X2, lc P = X2 ++ extPat) : endsWith extPat (lc y) = true := by
  obtain ⟨A, rfl⟩ := hsuf
  obtain ⟨X2, hX2⟩ := hP
  rw [endsWith_iff, lc_append, hX2]
  exact ⟨lc A ++ X2, by rw [List.append_assoc]⟩

/-- The rebuild step keeps a terminal extension: if the split input is
clean, query/fragment-free and ends in the extension, so does the URL
rebuilt from lower-cased scheme, lower-cased netloc and the path. -/
theorem ext_preserve_core (w : List Char) (parts : USplit)
    (hclw : NoUnsafe w) (hqw : '?' ∉ w) (hfw : '#' ∉ w)
    (hendw : endsWith extPat (lc w) = true)
    (hsp : urlsplit w = .ok parts) :
    endsWith extPat
      (lc (urlunsplit (lc parts.scheme) (lc parts.netloc) parts.path [] [])) = true := by
  have hcweq : cleanUrl w = w.dropWhile isWhatwgStrip := cleanUrl_of_clean w hclw
  have hwsplit : w.takeWhile isWhatwgStrip ++ cleanUrl w = w := by
    rw [hcweq]
    exact List.takeWhile_append_dropWhile _ _
  obtain ⟨X, hX⟩ := (endsWith_iff _ _).1 hendw
  have h1 : lc (w.takeWhile isWhatwgStrip ++ cleanUrl w) = X ++ extPat := by
    rw [hwsplit]
    exact hX
  obtain ⟨hcw5, X1, hX1⟩ := ends_ext_push _ _ X h1 (by
    intro d hd
    exact .inl (List.mem_takeWhile_imp (List.mem_of_mem_getLast? hd)))
  obtain ⟨pre, post, hshape, hprec, hnpdisj, hpost⟩ := urlsplit_ok_shape3 w parts hsp
  have hqcw : '?' ∉ cleanUrl w := fun hm => hqw (cleanUrl_subset w hm)
  have hfcw : '#' ∉ cleanUrl w := fun hm => hfw (cleanUrl_subset w hm)
  have hpost0 : post = [] := hpost hqcw hfcw
  subst hpost0
  rw [List.append_nil] at hshape
  have h2 : lc (pre ++ (parts.netloc ++ parts.path)) = X1 ++ extPat := by
    rw [← hshape]
    exact hX1
  obtain ⟨hnp5, X2, hX2⟩ := ends_ext_push pre _ X1 h2 (by
    intro d hd
    rcases hprec with hh | hh | hh
    · rw [hh] at hd
      exact Option.noConfusion hd
    · rw [hh] at hd
      injection hd with hd2
      exact .inr (.inl hd2.symm)
    · rw [hh] at hd
      injection hd with hd2
      exact .inr (.inr hd2.symm))
  have hfin : ((∃ X2, lc parts.path = X2 ++ extPat) ∧ parts.path ≠ []) ∨
      (parts.path = [] ∧ ∃ X2, lc parts.netloc = X2 ++ extPat) := by
    rcases hnpdisj with hnl0 | hpshape
    · refine .inl ⟨?_, ?_⟩
      · rw [hnl0, List.nil_append] at hX2
        exact ⟨X2, hX2⟩
      · intro hp0
        rw [hnl0, hp0] at hnp5
        simp at hnp5
    · rcases ends_ext_push2 parts.netloc parts.path X2 hX2 hpshape with
        ⟨hp0, X3, hX3⟩ | ⟨hp5, X3, hX3⟩
      · exact .inr ⟨hp0, X3, hX3⟩
      · refine .inl ⟨⟨X3, hX3⟩, ?_⟩
        intro hp0
        rw [hp0] at hp5
        simp at hp5
  simp only [urlunsplit]
  rw [if_neg (by simp), if_neg (by simp)]
  by_cases hc1 : lc parts.netloc ≠ [] ∨ (lc parts.scheme ≠ [] ∧
      usesNetloc.contains (lc parts.scheme) ∧ parts.path.take 2 ≠ ['/', '/'])
  · rw [if_pos hc1]
    by_cases hc2 : parts.path ≠ [] ∧ parts.path.take 1 ≠ ['/']
    · rw [if_pos hc2]
      have hptail : ∃ X2, lc parts.path = X2 ++ extPat := by
        rcases hfin with ⟨hh, -⟩ | ⟨hp0, -⟩
        · exact hh
        · exact absurd hp0 hc2.1
      by_cases hs : lc parts.scheme ≠ []
      · rw [if_pos hs]
        exact endsWith_lc_suffix _ parts.path
          ⟨lc parts.scheme ++ ':' :: '/' :: '/' :: (lc parts.netloc ++ ['/']),
            by simp⟩ hptail
      · rw [if_neg hs]
        exact endsWith_lc_suffix _ parts.path
          ⟨'/' :: '/' :: (lc parts.netloc ++ ['/']), by simp⟩ hptail
    · rw [if_neg hc2]
      rcases hfin with ⟨hptail, hpne⟩ | ⟨hp0, hntail⟩
      · by_cases hs : lc parts.scheme ≠ []
        · rw [if_pos hs]
          exact endsWith_lc_suffix _ parts.path
            ⟨lc parts.scheme ++ ':' :: '/' :: '/' :: lc parts.netloc, by simp⟩ hptail
        · rw [if_neg hs]
          exact endsWith_lc_suffix _ parts.path
            ⟨'/' :: '/' :: lc parts.netloc, by simp⟩ hptail
      · rw [hp0]
        have hntail2 : ∃ X2, lc (lc parts.netloc) = X2 ++ extPat := by
          rw [lc_idem]
          exact hntail
        by_cases hs : lc parts.scheme ≠ []
        · rw [if_pos hs]
          exact endsWith_lc_suffix _ (lc parts.netloc)
            ⟨lc parts.scheme ++ [':', '/', '/'], by simp⟩ hntail2
        · rw [if_neg hs]
          exact endsWith_lc_suffix _ (lc parts.netloc)
            ⟨['/', '/'], by simp⟩ hntail2
  · rw [if_neg hc1]
    push_neg at hc1
    have hn0 : parts.netloc = [] := by
      have h3 := hc1.1
      rwa [lc_eq_nil] at h3
    have hfin2 : (∃ X2, lc parts.path = X2 ++ extPat) ∧ parts.path ≠ [] := by
      rcases hfin with hh | ⟨hp0, -⟩
      · exact hh
      · exfalso
        rw [hn0, hp0] at hnp5
        simp at hnp5
    by_cases hs : lc parts.scheme ≠ []
    · rw [if_pos hs]
      exact endsWith_lc_suffix _ parts.path
        ⟨lc parts.scheme ++ [':'], by simp⟩ hfin2.1
    · rw [if_neg hs]
      exact endsWith_lc_suffix _ parts.path ⟨[], by simp⟩ hfin2.1

/-- `normalize_m3u8` preserves a terminal manifest extension on clean,
query/fragment-free inputs. -/
theorem normalize_preserves_ext (x y : List Char)
    (hcl : NoUnsafe x) (hq : '?' ∉ x) (hf : '#' ∉ x)
    (hend : endsWith extPat (lc x) = true)
    (h : normalize_m3u8 x = .ok y) : endsWith extPat (lc y) = true := by
  have hne : x ≠ [] := by
    intro he
    subst he
    exact absurd hend (by decide)
  rw [normalize_eq_map x hne] at h
  have hcoresub : ∀ c ∈ (searchCore x).getD x, c ∈ x := by
    cases hsc : searchCore x with
    | none =>
      intro c hc
      exact hc
    | some m =>
      intro c hc
      obtain ⟨A, B, hab⟩ := searchCore_infix x m hsc
      rw [hab]
      exact List.mem_append.mpr (.inl (List.mem_append.mpr (.inr hc)))
  have hcoreend : endsWith extPat (lc ((searchCore x).getD x)) = true := by
    cases hsc : searchCore x with
    | none => exact hend
    | some m => exact searchCore_ends_ext x m hsc
  cases hsp : urlsplit ((searchCore x).getD x) with
  | error e =>
    rw [hsp] at h
    exact Except.noConfusion h
  | ok parts =>
    rw [hsp] at h
    injection h with hv
    subst hv
    exact ext_preserve_core _ parts (fun c hc => hcl c (hcoresub c hc))
      (fun hm => hq (hcoresub _ hm)) (fun hm => hf (hcoresub _ hm)) hcoreend hsp

/-- An extension occurrence in an infix is one in the whole string. -/
theorem hasSub_lc_infix (S A B T : List Char) (hT : T = A ++ S ++ B)
    (hocc : hasSub extPat (lc S) = true) : hasSub extPat (lc T) = true := by
  rw [hasSub_iff _ _ (by decide)] at hocc ⊢
  obtain ⟨A2, B2, h2⟩ := hocc
  refine ⟨lc A ++ A2, B2 ++ lc B, ?_⟩
  rw [hT, lc_append, lc_append, h2]
  simp [List.append_assoc]

/-- Specialized push across a block ending in `:` or `/`. -/
theorem push_tail (A0 B X : List Char) (c0 : Char) (hc0 : c0 = ':' ∨ c0 = '/')
    (h : lc ((A0 ++ [c0]) ++ B) = X ++ extPat) :
    5 ≤ B.length ∧ ∃ X2, lc B = X2 ++ extPat :=
  ends_ext_push (A0 ++ [c0]) B X h (by
    intro d hd
    rw [List.getLast?_append_of_ne_nil _ (by simp)] at hd
    injection hd with hd2
    rcases hc0 with rfl | rfl
    · exact .inr (.inl hd2.symm)
    · exact .inr (.inr hd2.symm))

/-- On clean inputs free of the manifest extension, the normalized
output does not end in the extension either: truncation, clean-up and
rebuilding cannot conjure `.m3u8` out of nothing. -/
theorem normalize_preserves_extfree (u k : List Char)
    (hclean : NoUnsafe u) (hfree : hasSub extPat (lc u) = false)
    (h : normalize_m3u8 u = .ok k) : endsWith extPat (lc k) = false := by
  cases hend : endsWith extPat (lc k) with
  | false => rfl
  | true =>
    exfalso
    have hne : u ≠ [] := by
      intro he
      subst he
      have hk : k = [] := by
        simpa [normalize_m3u8] using h.symm
      subst hk
      exact absurd hend (by decide)
    have hsc : searchCore u = none := by
      cases hs2 : searchCore u with
      | none => rfl
      | some m =>
        exfalso
        have hma := searchCore_ends_ext u m hs2
        obtain ⟨A, B, hab⟩ := searchCore_infix u m hs2
        have hctr : hasSub extPat (lc u) = true :=
          hasSub_lc_infix m A B u hab (endsWith_hasSub _ _ (by decide) hma)
        rw [hctr] at hfree
        cases hfree
    rw [normalize_eq_map u hne, hsc] at h
    rw [show (none : Option (List Char)).getD u = u from rfl] at h
    cases hsp : urlsplit u with
    | error e =>
      rw [hsp] at h
      exact Except.noConfusion h
    | ok parts =>
      rw [hsp] at h
      injection h with hk
      subst hk
      obtain ⟨pre, post, hshape, -, -, -⟩ := urlsplit_ok_shape3 u parts hsp
      have hucu : u.takeWhile isWhatwgStrip ++ cleanUrl u = u := by
        rw [cleanUrl_of_clean u hclean]
        exact List.takeWhile_append_dropWhile _ _
      have hlift : ∀ S A B, cleanUrl u = A ++ S ++ B →
          hasSub extPat (lc S) = true → False := by
        intro S A B hdec hocc
        have h1 : hasSub extPat (lc (cleanUrl u)) = true :=
          hasSub_lc_infix S A B _ hdec hocc
        have h2 : hasSub extPat (lc u) = true := by
          refine hasSub_lc_infix (cleanUrl u) (u.takeWhile isWhatwgStrip) [] u ?_ h1

          rw [List.append_nil]
          exact hucu.symm
        rw [h2] at hfree
        cases hfree
      have hnl_occ : ∀ X2, lc parts.netloc = X2 ++ extPat → False := by
        intro X2 hocc
        refine hlift parts.netloc pre (parts.path ++ post) ?_ ?_
        · rw [hshape]
          simp [List.append_assoc]
        · rw [hasSub_iff _ _ (by decide)]
          exact ⟨X2, [], by rw [hocc, List.append_nil]⟩
      have hp_occ : ∀ X2, lc parts.path = X2 ++ extPat → False := by
        intro X2 hocc
        refine hlift parts.path (pre ++ parts.netloc) post ?_ ?_
        · rw [hshape]
          simp [List.append_assoc]
        · rw [hasSub_iff _ _ (by decide)]
          exact ⟨X2, [], by rw [hocc, List.append_nil]⟩
      simp only [urlunsplit] at hend
      rw [if_neg (by simp), if_neg (by simp)] at hend
      by_cases hc1 : lc parts.netloc ≠ [] ∨ (lc parts.scheme ≠ [] ∧
          usesNetloc.contains (lc parts.scheme) ∧ parts.path.take 2 ≠ ['/', '/'])
      · rw [if_pos hc1] at hend
        by_cases hc2 : parts.path ≠ [] ∧ parts.path.take 1 ≠ ['/']
        · rw [if_pos hc2] at hend
          by_cases hs : lc parts.scheme ≠ []
          · rw [if_pos hs] at hend
            obtain ⟨X, hX⟩ := (endsWith_iff _ _).1 hend
            have hre : lc parts.scheme ++ ':' :: '/' :: '/' ::
                (lc parts.netloc ++ '/' :: parts.path) =
                ((lc parts.scheme ++ ':' :: '/' :: '/' :: lc parts.netloc) ++ ['/'])
                  ++ parts.path := by
              simp
            rw [hre] at hX
            obtain ⟨-, X2, hX2⟩ := push_tail _ _ X '/' (.inr rfl) hX
            exact hp_occ X2 hX2
          · rw [if_neg hs] at hend
            obtain ⟨X, hX⟩ := (endsWith_iff _ _).1 hend
            have hre : '/' :: '/' :: (lc parts.netloc ++ '/' :: parts.path) =
                (('/' :: '/' :: lc parts.netloc) ++ ['/']) ++ parts.path := by
              simp
            rw [hre] at hX
            obtain ⟨-, X2, hX2⟩ := push_tail _ _ X '/' (.inr rfl) hX
            exact hp_occ X2 hX2
        · rw [if_neg hc2] at hend
          push_neg at hc2
          by_cases hp0 : parts.path = []
          · by_cases hs : lc parts.scheme ≠ []
            · rw [if_pos hs, hp0] at hend
              obtain ⟨X, hX⟩ := (endsWith_iff _ _).1 hend
              have hre : lc parts.scheme ++ ':' :: '/' :: '/' ::
                  (lc parts.netloc ++ []) =
                  ((lc parts.scheme ++ [':', '/']) ++ ['/']) ++ lc parts.netloc := by
                simp
              rw [hre] at hX
              obtain ⟨-, X2, hX2⟩ := push_tail _ _ X '/' (.inr rfl) hX
              rw [lc_idem] at hX2
              exact hnl_occ X2 hX2
            · rw [if_neg hs, hp0] at hend
              obtain ⟨X, hX⟩ := (endsWith_iff _ _).1 hend
              have hre : '/' :: '/' :: (lc parts.netloc ++ []) =
                  (['/'] ++ ['/']) ++ lc parts.netloc := by
                simp
              rw [hre] at hX
              obtain ⟨-, X2, hX2⟩ := push_tail _ _ X '/' (.inr rfl) hX
              rw [lc_idem] at hX2
              exact hnl_occ X2 hX2
          · have hp1 : parts.path.take 1 = ['/'] := hc2 hp0
            by_cases hs : lc parts.scheme ≠ []
            · rw [if_pos hs] at hend
              obtain ⟨X, hX⟩ := (endsWith_iff _ _).1 hend
              have hre : lc parts.scheme ++ ':' :: '/' :: '/' ::
                  (lc parts.netloc ++ parts.path) =
                  (lc parts.scheme ++ ':' :: '/' :: '/' :: lc parts.netloc)
                    ++ parts.path := by
                simp
              rw [hre] at hX
              rcases ends_ext_push2 _ _ X hX (.inr hp1) with ⟨hp00, -⟩ | ⟨-, X2, hX2⟩
              · exact hp0 hp00
              · exact hp_occ X2 hX2
            · rw [if_neg hs] at hend
              obtain ⟨X, hX⟩ := (endsWith_iff _ _).1 hend
              have hre : '/' :: '/' :: (lc parts.netloc ++ parts.path) =
                  ('/' :: '/' :: lc parts.netloc) ++ parts.path := by
                simp
              rw [hre] at hX
              rcases ends_ext_push2 _ _ X hX (.inr hp1) with ⟨hp00, -⟩ | ⟨-, X2, hX2⟩
              · exact hp0 hp00
              · exact hp_occ X2 hX2
      · rw [if_neg hc1] at hend
        push_neg at hc1
        by_cases hs : lc parts.scheme ≠ []
        · rw [if_pos hs] at hend
          obtain ⟨X, hX⟩ := (endsWith_iff _ _).1 hend
          have hre : lc parts.scheme ++ ':' :: parts.path =
              (lc parts.scheme ++ [':']) ++ parts.path := by
            simp
          rw [hre] at hX
          obtain ⟨-, X2, hX2⟩ := push_tail _ _ X ':' (.inl rfl) hX
          exact hp_occ X2 hX2
        · rw [if_neg hs] at hend
          obtain ⟨X, hX⟩ := (endsWith_iff _ _).1 hend
          exact hp_occ X hX

/-! ### Pipeline membership lemmas for the tail of `main` -/

/-- The retention loop only keeps elements of its input. -/
theorem masterLoop_subset (kd kt l : List (List Char)) :
    ∀ x ∈ masterLoop kd kt l, x ∈ l := by
  induction l generalizing kt with
  | nil =>
    intro x hx
    cases hx
  | cons u rest ih =>
    intro x hx
    simp only [masterLoop] at hx
    by_cases hcnd : kd.contains (dirOf u) = true ∧ isMasterUrl u = true ∧
        ¬ kt.contains (dirOf u) = true
    · rw [if_pos hcnd] at hx
      rcases List.mem_cons.1 hx with rfl | hx
      · exact .head _
      · exact .tail _ (ih _ _ hx)
    · rw [if_neg hcnd] at hx
      exact .tail _ (ih _ _ hx)

/-- Deduplication only keeps elements of its input. -/
theorem orderedUnique_subset (seen l : List (List Char)) :
    ∀ x ∈ orderedUnique seen l, x ∈ l := by
  induction l generalizing seen with
  | nil =>
    intro x hx
    cases hx
  | cons u rest ih =>
    intro x hx
    rw [orderedUnique] at hx
    by_cases hct : seen.contains u = true
    · rw [if_pos hct] at hx
      exact .tail _ (ih _ _ hx)
    · rw [if_neg hct] at hx
      rcases List.mem_cons.1 hx with rfl | hx
      · exact .head _
      · exact .tail _ (ih _ _ hx)

/-- Every element of a successful `normalizeList` is a `normalize_m3u8`
output. -/
theorem normalizeList_mem (urls ks : List (List Char))
    (h : normalizeList urls = .ok ks) :
    ∀ v ∈ ks, ∃ w, normalize_m3u8 w = .ok v := by
  induction urls generalizing ks with
  | nil =>
    injection h with h2
    subst h2
    intro v hv
    cases hv
  | cons u rest ih =>
    simp only [normalizeList] at h
    cases hk : normalize_m3u8 u with
    | error e =>
      rw [hk] at h
      exact Except.noConfusion h
    | ok k =>
      rw [hk] at h
      cases hr : normalizeList rest with
      | error e =>
        rw [hr] at h
        exact Except.noConfusion h
      | ok r =>
        rw [hr] at h
        injection h with h2
        subst h2
        intro v hv
        rcases List.mem_cons.1 hv with rfl | hv
        · exact ⟨u, hk⟩
        · exact ih r hr v hv

/-- Every element of a successful preference pass is a
`normalize_m3u8` output. -/
theorem prefer_mem (urls out : List (List Char))
    (h : prefer_master_then_unique urls = .ok out) :
    ∀ v ∈ out, ∃ w, normalize_m3u8 w = .ok v := by
  simp only [prefer_master_then_unique] at h
  cases hks : normalizeList urls with
  | error e =>
    rw [hks] at h
    exact Except.noConfusion h
  | ok ks =>
    rw [hks] at h
    simp only [Bind.bind, Except.bind] at h
    intro v hv
    have hord : ∀ x ∈ orderedUnique [] ks, ∃ w, normalize_m3u8 w = .ok x :=
      fun x hx => normalizeList_mem urls ks hks x (orderedUnique_subset [] ks x hx)
    by_cases hm : (orderedUnique [] ks).filter isMasterUrl = []
    · rw [if_pos hm] at h
      injection h with h2
      subst h2
      exact hord v hv
    · rw [if_neg hm] at h
      injection h with h2
      subst h2
      by_cases hr : masterLoop (((orderedUnique [] ks).filter isMasterUrl).map dirOf)
          [] (orderedUnique [] ks) = []
      · rw [if_pos hr] at hv
        exact hord v hv
      · rw [if_neg hr] at hv
        exact hord v (masterLoop_subset _ _ _ v hv)

/-- Every record a page emits carries a `normalize_m3u8` output URL. -/
theorem pageRecords_mem (t purl : List Char) (found hinted : List (List Char))
    (rs : List MRecord) (h : pageRecords t purl found hinted = .ok rs) :
    ∀ r ∈ rs, ∃ w, normalize_m3u8 w = .ok r.m3u8_url := by
  unfold pageRecords at h
  by_cases h1 : found = [] ∧ hinted ≠ []
  · rw [if_pos h1] at h
    cases hp : prefer_master_then_unique (sortUrls hinted) with
    | error e =>
      rw [hp] at h
      exact Except.noConfusion h
    | ok final =>
      rw [hp] at h
      injection h with h2
      subst h2
      intro r hr
      obtain ⟨u2, hu2, rfl⟩ := List.mem_map.1 hr
      exact prefer_mem _ _ hp u2 hu2
  · rw [if_neg h1] at h
    by_cases h2 : found ≠ []
    · rw [if_pos h2] at h
      cases hp : prefer_master_then_unique (sortUrls found) with
      | error e =>
        rw [hp] at h
        exact Except.noConfusion h
      | ok final =>
        rw [hp] at h
        injection h with h3
        subst h3
        intro r hr
        obtain ⟨u2, hu2, rfl⟩ := List.mem_map.1 hr
        exact prefer_mem _ _ hp u2 hu2
    · rw [if_neg h2] at h
      injection h with h3
      subst h3
      intro r hr
      cases hr

/-- Every collected record carries a `normalize_m3u8` output URL. -/
theorem collectResults_mem (pages : List PageVisit) (rs0 : List MRecord)
    (h : collectResults pages = .ok rs0) :
    ∀ r ∈ rs0, ∃ w, normalize_m3u8 w = .ok r.m3u8_url := by
  induction pages generalizing rs0 with
  | nil =>
    injection h with h2
    subst h2
    intro r hr
    cases hr
  | cons p rest ih =>
    simp only [collectResults] at h
    cases hp : pageRecords p.title p.page_url p.found p.hinted with
    | error e =>
      rw [hp] at h
      exact Except.noConfusion h
    | ok prs =>
      rw [hp] at h
      cases hm : collectResults rest with
      | error e =>
        rw [hm] at h
        exact Except.noConfusion h
      | ok more =>
        rw [hm] at h
        injection h with h2
        subst h2
        intro r hr
        rcases List.mem_append.1 hr with hr | hr
        · exact pageRecords_mem _ _ _ _ _ hp r hr
        · exact ih more hm r hr

/-- Bucket entries: every entry either comes from the seed accumulator
or keys a filtered record by its normalized URL and stores that record
with the URL overwritten. -/
theorem bucketLoop_mem (results : List MRecord)
    (acc b : List (List Char × MRecord)) (h : bucketLoop acc results = .ok b) :
    ∀ kv ∈ b, kv ∈ acc ∨ (kv.2.m3u8_url = kv.1 ∧
      ∃ r0 ∈ results, normalize_m3u8 r0.m3u8_url = .ok kv.1) := by
  induction results generalizing acc with
  | nil =>
    injection h with h2
    subst h2
    intro kv hkv
    exact .inl hkv
  | cons r rest ih =>
    simp only [bucketLoop] at h
    cases hn : normalize_m3u8 r.m3u8_url with
    | error e =>
      rw [hn] at h
      exact Except.noConfusion h
    | ok nm =>
      rw [hn] at h
      simp only [Bind.bind, Except.bind] at h
      by_cases hct : (acc.map Prod.fst).contains nm = true
      · rw [if_pos hct] at h
        intro kv hkv
        rcases ih acc h kv hkv with hacc | ⟨he, r0, hr0, hnr0⟩
        · exact .inl hacc
        · exact .inr ⟨he, r0, .tail _ hr0, hnr0⟩
      · rw [if_neg hct] at h
        intro kv hkv
        rcases ih _ h kv hkv with hacc | ⟨he, r0, hr0, hnr0⟩
        · rcases List.mem_append.1 hacc with hacc | hacc
          · exact .inl hacc
          · have hkv2 := List.mem_singleton.1 hacc
            subst hkv2
            exact .inr ⟨rfl, r, .head _, hn⟩
        · exact .inr ⟨he, r0, .tail _ hr0, hnr0⟩

/-- Results of the final lookup pass are stored bucket records. -/
theorem mapM_bucketGet_mem (b : List (List Char × MRecord))
    (urls : List (List Char)) (rs : List MRecord)
    (h : urls.mapM (bucketGet b) = .ok rs) :
    ∀ r ∈ rs, ∃ kv ∈ b, kv.2 = r := by
  induction urls generalizing rs with
  | nil =>
    rw [List.mapM_nil] at h
    injection h with h2
    subst h2
    intro r hr
    cases hr
  | cons u rest ih =>
    rw [List.mapM_cons] at h
    cases hbg : bucketGet b u with
    | error e =>
      rw [hbg] at h
      exact Except.noConfusion h
    | ok r1 =>
      rw [hbg] at h
      cases hmm2 : rest.mapM (bucketGet b) with
      | error e =>
        rw [hmm2] at h
        exact Except.noConfusion h
      | ok rs2 =>
        rw [hmm2] at h
        injection h with h2
        subst h2
        intro r hr
        rcases List.mem_cons.1 hr with rfl | hr
        · unfold bucketGet at hbg
          cases hf : b.find? (fun kv => kv.1 = u) with
          | none =>
            rw [hf] at hbg
            exact Except.noConfusion hbg
          | some kv =>
            rw [hf] at hbg
            injection hbg with h3
            exact ⟨kv, List.mem_of_find?_eq_some hf, h3⟩
        · exact ih rs2 hmm2 r hr

/-- The empty final pipeline computes to the empty record list. -/
theorem finalResults_nil_step :
    prefer_master_then_unique ([] : List (List Char)) = .ok [] := rfl

/-- Sorting a one-element candidate list is the identity. -/
theorem sortUrls_single (u : List Char) : sortUrls [u] = [u] :=
  List.mergeSort_singleton u

/-- C10, refuted on both halves.  A page whose confirmed candidate is
`http://a.com/x.M3U8` yields a persisted record whose URL does not end
in the literal extension `.m3u8` (the final filter lower-cases before
testing and nothing re-cases the URL).  A page whose confirmed
candidate is `http://a.com/x.m<TAB>3u8` — a URL that never contains
`.m3u8`, even lower-cased — is not dropped: `urlsplit`'s WHATWG
clean-up inside `normalize_m3u8` deletes the tab and the cleaned URL
passes the filter. -/
theorem C10_counterexample :
    finalResults [⟨"t".data, "p".data, ["http://a.com/x.M3U8".data], []⟩] =
      .ok [⟨"t".data, "p".data, "http://a.com/x.M3U8".data, "p".data,
            uaString, "捕获".data⟩] ∧
    endsWith ".m3u8".data "http://a.com/x.M3U8".data = false ∧
    finalResults [⟨"t".data, "p".data, ["http://a.com/x.m\t3u8".data], []⟩] =
      .ok [⟨"t".data, "p".data, "http://a.com/x.m3u8".data, "p".data,
            uaString, "捕获".data⟩] ∧
    hasSub ".m3u8".data (lc "http://a.com/x.m\t3u8".data) = false := by
  refine ⟨?_, by decide, ?_, by decide⟩
  · have h5 : pageRecords "t".data "p".data ["http://a.com/x.M3U8".data] [] =
        .ok [⟨"t".data, "p".data, "http://a.com/x.M3U8".data, "p".data,
              uaString, "捕获".data⟩] := by
      unfold pageRecords
      rw [if_neg (by decide), if_pos (by decide), sortUrls_single]
      rfl
    simp only [finalResults, collectResults, h5, Bind.bind, Except.bind,
      List.append_nil]
    rfl
  · have h5 : pageRecords "t".data "p".data ["http://a.com/x.m\t3u8".data] [] =
        .ok [⟨"t".data, "p".data, "http://a.com/x.m3u8".data, "p".data,
              uaString, "捕获".data⟩] := by
      unfold pageRecords
      rw [if_neg (by decide), if_pos (by decide), sortUrls_single]
      rfl
    simp only [finalResults, collectResults, h5, Bind.bind, Except.bind,
      List.append_nil]
    rfl

/-- C10 (amended): every record in the final persisted result set has
a URL ending in `.m3u8` ASCII-case-insensitively (not necessarily
literally); and a confirmed candidate that is tab/CR/LF-free and whose
URL, lower-cased, never contains `.m3u8` is indeed dropped from the
final output. -/
theorem C10_amended :
    (∀ pages rs, finalResults pages = .ok rs →
        ∀ r ∈ rs, endsWith extPat (lc r.m3u8_url) = true) ∧
    (∀ t purl url rs, NoUnsafe url → hasSub extPat (lc url) = false →
        finalResults [⟨t, purl, [url], []⟩] = .ok rs → rs = []) := by
  constructor
  · intro pages rs hfr r hr
    simp only [finalResults] at hfr
    cases h0 : collectResults pages with
    | error e =>
      rw [h0] at hfr
      exact Except.noConfusion hfr
    | ok rs0 =>
      rw [h0] at hfr
      simp only [Bind.bind, Except.bind] at hfr
      cases h1 : bucketLoop [] (filterM3u8 rs0) with
      | error e =>
        rw [h1] at hfr
        exact Except.noConfusion hfr
      | ok b =>
        rw [h1] at hfr
        simp only [] at hfr
        cases h2 : prefer_master_then_unique (b.map Prod.fst) with
        | error e =>
          rw [h2] at hfr
          exact Except.noConfusion hfr
        | ok finalUrls =>
          rw [h2] at hfr
          simp only [] at hfr
          obtain ⟨kv, hkvb, hkv2⟩ := mapM_bucketGet_mem b finalUrls rs hfr r hr
          rcases bucketLoop_mem (filterM3u8 rs0) [] b h1 kv hkvb with
            hacc | ⟨hurl, r0, hr0, hnr0⟩
          · cases hacc
          · have hr0f := List.mem_filter.1 hr0
            obtain ⟨w, hw⟩ := collectResults_mem pages rs0 h0 r0 hr0f.1
            have hcl := normalize_ok_clean w _ hw
            have hqf := normalize_no_qf w _ hw
            have hend : endsWith extPat (lc r0.m3u8_url) = true := hr0f.2
            have hext := normalize_preserves_ext r0.m3u8_url kv.1 hcl
              hqf.1 hqf.2 hend hnr0
            rw [← hkv2, hurl]
            exact hext
  · intro t purl url rs hcl hfree hfr
    have hsort : sortUrls [url] = [url] := sortUrls_single url
    have hc1 : ¬ ([url] = [] ∧ ([] : List (List Char)) ≠ []) := fun h => h.2 rfl
    have hc2 : [url] ≠ [] := List.cons_ne_nil url []
    cases hnu : normalize_m3u8 url with
    | error e =>
      have h4e : prefer_master_then_unique (sortUrls [url]) = .error () := by
        simp only [hsort, prefer_master_then_unique, normalizeList, hnu,
          Bind.bind, Except.bind]
      have h5e : pageRecords t purl [url] [] = .error () := by
        unfold pageRecords
        rw [if_neg hc1, if_pos hc2]
        simp only [h4e, Bind.bind, Except.bind]
      have h6e : collectResults [⟨t, purl, [url], []⟩] = .error () := by
        simp only [collectResults, h5e, Bind.bind, Except.bind]
      have hfin : finalResults [⟨t, purl, [url], []⟩] = .error () := by
        simp only [finalResults, h6e, Bind.bind, Except.bind]
      rw [hfin] at hfr
      exact Except.noConfusion hfr
    | ok k =>
      have hkfree : endsWith extPat (lc k) = false :=
        normalize_preserves_extfree url k hcl hfree hnu
      have hmf : isMasterUrl k = false := by
        cases hem : isMasterUrl k with
        | false => rfl
        | true =>
          exfalso
          unfold isMasterUrl at hem
          obtain ⟨pre, hpre⟩ := (endsWith_iff _ _).1 hem
          have : endsWith extPat (lc k) = true := by
            refine (endsWith_iff _ _).2 ⟨lc pre ++ "master".data, ?_⟩
            rw [hpre]
            show lc (pre ++ ("master".data ++ extPat)) = _
            rw [lc, List.map_append, List.map_append, List.append_assoc]
            have hm : List.map lcChar "master".data = "master".data := by decide
            have he : List.map lcChar extPat = extPat := by decide
            rw [hm, he]
            rfl
          rw [hkfree] at this
          exact Bool.noConfusion this
      have h1 : normalizeList [url] = .ok [k] := by
        simp only [normalizeList, hnu, Bind.bind, Except.bind]
      have h2 : orderedUnique [] [k] = [k] := by
        simp [orderedUnique]
      have h3 : [k].filter isMasterUrl = [] := by
        simp [List.filter, hmf]
      have h4 : prefer_master_then_unique (sortUrls [url]) = .ok [k] := by
        simp only [hsort, prefer_master_then_unique, h1, Bind.bind, Except.bind,
          h2, h3, if_pos]
      have h5 : pageRecords t purl [url] [] =
          .ok [⟨t, purl, k, purl, uaString, "捕获".data⟩] := by
        unfold pageRecords
        rw [if_neg hc1, if_pos hc2]
        simp only [h4, Bind.bind, Except.bind, mkRecords, List.map]
      have h6 : collectResults [⟨t, purl, [url], []⟩] =
          .ok [⟨t, purl, k, purl, uaString, "捕获".data⟩] := by
        simp only [collectResults, h5, Bind.bind, Except.bind, List.append_nil]
      have h7 : filterM3u8 [⟨t, purl, k, purl, uaString, "捕获".data⟩] = [] := by
        simp only [filterM3u8, List.filter, hkfree]
      have hfin : finalResults [⟨t, purl, [url], []⟩] = .ok [] := by
        simp only [finalResults, h6, Bind.bind, Except.bind, h7, bucketLoop,
          List.map_nil, finalResults_nil_step, List.mapM_nil]
        rfl
      rw [hfin] at hfr
      injection hfr with h
      exact h.symm

/-- Concrete instances of both halves of the amended C10: the single
confirmed manifest `https://h/v.m3u8` survives with a
case-insensitively `.m3u8`-terminated URL, and the clean segment URL
`http://a.com/seg.ts`, which contains no `.m3u8`, is dropped. -/
theorem C10_witness :
    finalResults [⟨"t".data, "p".data, ["https://h/v.m3u8".data], []⟩] =
      .ok [⟨"t".data, "p".data, "https://h/v.m3u8".data, "p".data,
            uaString, "捕获".data⟩] ∧
    endsWith extPat (lc "https://h/v.m3u8".data) = true ∧
    NoUnsafe "http://a.com/seg.ts".data ∧
    hasSub extPat (lc "http://a.com/seg.ts".data) = false ∧
    finalResults [⟨"t".data, "p".data, ["http://a.com/seg.ts".data], []⟩] =
      .ok [] ∧
    ([] : List MRecord) = [] := by
  have hA : finalResults [⟨"t".data, "p".data, ["https://h/v.m3u8".data], []⟩] =
      .ok [⟨"t".data, "p".data, "https://h/v.m3u8".data, "p".data,
            uaString, "捕获".data⟩] := by
    have h5 : pageRecords "t".data "p".data ["https://h/v.m3u8".data] [] =
        .ok [⟨"t".data, "p".data, "https://h/v.m3u8".data, "p".data,
              uaString, "捕获".data⟩] := by
      unfold pageRecords
      rw [if_neg (by decide), if_pos (by decide), sortUrls_single]
      rfl
    simp only [finalResults, collectResults, h5, Bind.bind, Except.bind,
      List.append_nil]
    rfl
  have hB : finalResults [⟨"t".data, "p".data, ["http://a.com/seg.ts".data], []⟩] =
      .ok [] := by
    have h5 : pageRecords "t".data "p".data ["http://a.com/seg.ts".data] [] =
        .ok [⟨"t".data, "p".data, "http://a.com/seg.ts".data, "p".data,
              uaString, "捕获".data⟩] := by
      unfold pageRecords
      rw [if_neg (by decide), if_pos (by decide), sortUrls_single]
      rfl
    simp only [finalResults, collectResults, h5, Bind.bind, Except.bind,
      List.append_nil]
    rfl
  exact ⟨hA,
    C10_amended.1 [⟨"t".data, "p".data, ["https://h/v.m3u8".data], []⟩]
      [⟨"t".data, "p".data, "https://h/v.m3u8".data, "p".data,
        uaString, "捕获".data⟩] hA
      ⟨"t".data, "p".data, "https://h/v.m3u8".data, "p".data,
        uaString, "捕获".data⟩ (.head _),
    by unfold NoUnsafe; decide,
    by decide,
    hB,
    C10_amended.2 "t".data "p".data "http://a.com/seg.ts".data []
      (by unfold NoUnsafe; decide) (by decide) hB⟩

end Sakura
